import Mathlib

/-!
# image-encryption: LFSR keystream engine, PNM codec and encryption pass

Shallow embedding of `lfsr/lfsr.c`, `utils/utils.c` and `pnm/pnm.c`.

* `unsigned int` values are natural numbers, reduced modulo `2 ^ 32` wherever the
  C code can wrap.
* A heap array is a `List`; a read outside the array (undefined in C) yields `0`
  and a write outside the array is dropped.  Neither happens in a valid state.
* A function that mutates an object through a pointer returns the new object.
-/

namespace ImgCrypt

/-! ## lfsr.c -/

/-- The record `struct LFSR_t`. -/
structure LFSR where
  reg : List Nat
  regLength : Nat
  tap : Nat
deriving DecidableEq

/-- The conversion `(int)strlen(seed)`: a `size_t` value reduced to 32 bits and read as
a two's-complement `int`. -/
def int_of_size (n : Nat) : Int :=
  if n % 4294967296 < 2147483648 then ((n % 4294967296 : Nat) : Int)
  else ((n % 4294967296 : Nat) : Int) - 4294967296

/-- The body of the `for` loop of `create_lfsr` over the characters of the seed:
`none` when a character is neither `'1'` nor `'0'` (the `return NULL` inside the loop),
otherwise the register entries `seed[i] - '0'`. -/
def seed_loop : List Char → Option (List Nat)
  | [] => some []
  | c :: cs =>
    if c ≠ '1' ∧ c ≠ '0' then none
    else
      match seed_loop cs with
      | none => none
      | some r => some ((c.toNat - '0'.toNat) :: r)

/-- The function `create_lfsr(seed, tap)`; both allocations are taken to succeed.
`none` stands for "no engine is returned".  The loop counter is an `unsigned int`
compared with the `size_t` value `strlen(seed)`: for a seed of `2 ^ 32` characters
or more the counter never reaches the bound, so the loop either meets a forbidden
character (`return NULL`) or does not end; no engine is returned in either case. -/
def create_lfsr (seed : List Char) (tap : Int) : Option LFSR :=
  if tap < 0 ∨ tap ≥ int_of_size seed.length then none
  else if 4294967296 ≤ seed.length then none
  else
    match seed_loop seed with
    | none => none
    | some r => some { reg := r, regLength := seed.length % 4294967296, tap := tap.toNat }

/-- The shifting loop of `operation`: `fuel` iterations of `reg[i] = reg[i + 1]`,
starting at index `i`. -/
def shift_loop : Nat → Nat → List Nat → List Nat
  | 0, _, reg => reg
  | fuel + 1, i, reg => shift_loop fuel (i + 1) (reg.set i (reg.getD (i + 1) 0))

/-- The function `operation(lfsr)`: the returned bit and the engine after the call.
The index `regLength - tap - 1` and the loop bound `regLength - 1` are computed in
`unsigned int` arithmetic. -/
def operation (l : LFSR) : Nat × LFSR :=
  let xor_operation :=
    Nat.xor (l.reg.getD 0 0)
      (l.reg.getD ((l.regLength + 4294967296 - l.tap % 4294967296 + 4294967295) % 4294967296) 0)
  let bound := (l.regLength + 4294967295) % 4294967296
  let reg := shift_loop bound 0 l.reg
  (xor_operation, { l with reg := reg.set bound xor_operation })

/-- The loop of `generation`: `fuel` iterations of
`valueGenerated = valueGenerated * 2 + operation(lfsr)` in `unsigned int` arithmetic. -/
def generation_loop : Nat → LFSR → Nat → Nat × LFSR
  | 0, l, v => (v, l)
  | fuel + 1, l, v =>
    generation_loop fuel (operation l).2 ((v * 2 + (operation l).1) % 4294967296)

/-- The function `generation(lfsr, k)`. -/
def generation (l : LFSR) (k : Nat) : Nat × LFSR :=
  generation_loop k l 0

/-- The function `get_register(lfsr)`. -/
def get_register (l : LFSR) : List Nat := l.reg

/-- The function `get_tap(lfsr)`. -/
def get_tap (l : LFSR) : Nat := l.tap

/-! ### Engine states -/

/-- A structurally sound engine: the register has `regLength` entries, each an
`unsigned int`, and `0 ≤ tap < regLength`. -/
def LFSR.WellFormed (l : LFSR) : Prop :=
  l.reg.length = l.regLength ∧ l.tap < l.regLength ∧ l.regLength < 4294967296

/-- Every register entry is a bit. -/
def LFSR.Bits (l : LFSR) : Prop := ∀ x ∈ l.reg, x ≤ 1

/-- An engine state: structurally sound, with a register of bits. -/
def LFSR.Valid (l : LFSR) : Prop := l.WellFormed ∧ l.Bits

instance (l : LFSR) : Decidable l.WellFormed := by
  unfold LFSR.WellFormed; infer_instance

instance (l : LFSR) : Decidable l.Bits := by
  unfold LFSR.Bits; infer_instance

instance (l : LFSR) : Decidable l.Valid := by
  unfold LFSR.Valid; infer_instance

/-- The engine after `n` successive calls of `operation`. -/
def op_state (n : Nat) (l : LFSR) : LFSR :=
  (fun s => (operation s).2)^[n] l

/-- The value returned by the call number `i` (counted from `0`) of `operation`. -/
def op_bit (l : LFSR) (i : Nat) : Nat :=
  (operation (op_state i l)).1

/-- The big-endian number formed by the first `k` outputs of `operation`. -/
def big_endian (l : LFSR) (k : Nat) : Nat :=
  ∑ i in Finset.range k, op_bit l i * 2 ^ (k - 1 - i)

/-- The loop of `to_string`: `fuel` iterations of
`stringRepresentation[i] = (char)lfsr->reg[i] + '0'`, starting at index `i`; the
characters written, in order. -/
def to_string_loop : Nat → Nat → List Nat → List Char
  | 0, _, _ => []
  | fuel + 1, i, reg =>
    Char.ofNat ((reg.getD i 0 % 256 + '0'.toNat) % 256) :: to_string_loop fuel (i + 1) reg

/-- The function `to_string(lfsr)`: the content of the block of `regLength` characters
that is allocated, filled and returned.  No terminating NUL is written. -/
def to_string (l : LFSR) : List Char :=
  to_string_loop l.regLength 0 l.reg

/-- The C string that starts at the first byte of a memory block, as `strcmp` reads it:
the bytes up to the first NUL, taken from the block and then from the bytes that
follow the block in memory. -/
def c_string (block after : List Char) : List Char :=
  (block ++ after).takeWhile (fun c => c ≠ Char.ofNat 0)

/-- A call made on an engine: `operation(lfsr)` or `generation(lfsr, k)`. -/
inductive EngineCall
  | operation
  | generation (k : Nat)

/-- The engine after one call. -/
def EngineCall.run : EngineCall → LFSR → LFSR
  | EngineCall.operation, l => (ImgCrypt.operation l).2
  | EngineCall.generation k, l => (ImgCrypt.generation l k).2

/-- The engine after a sequence of calls, made in order. -/
def run_calls (calls : List EngineCall) (l : LFSR) : LFSR :=
  calls.foldl (fun s c => c.run s) l

/-! ## utils.c

A C string is given by the list of its characters before the terminating NUL. -/

/-- How a call ends: it returns a value, it stops on a failed `assert` (the process
aborts), or it runs into behaviour that C leaves undefined. -/
inductive Outcome (α : Type) where
  | returned (a : α)
  | aborted
  | undefined
deriving DecidableEq

/-- The NUL character. -/
def NUL : Char := Char.ofNat 0

/-- The constant `BASE64`. -/
def BASE64 : List Char :=
  "ABCDEFGHIJKLMNOPQRSTUVWXYZabcdefghijklmnopqrstuvwxyz0123456789+/".toList

/-- The constant `forbidenCharactersInFiles`: `/ \ : * ? " < > |`. -/
def forbidenCharactersInFiles : List Char :=
  ['/', Char.ofNat 92, ':', '*', '?', Char.ofNat 34, '<', '>', '|']

/-- The function `create_matrix(matrix_len, row_len)`: it asserts
`matrix_len > 0 && row_len > 0`, then allocates; `alloc` tells whether the allocations
succeed, and `returned false` stands for the result NULL. -/
def create_matrix (alloc : Bool) (matrix_len row_len : Nat) : Outcome Bool :=
  if matrix_len > 0 ∧ row_len > 0 then Outcome.returned alloc else Outcome.aborted

/-- The offset `strchr(s, c) - s` of the first occurrence of `c` in `s`; `none` when
`strchr` returns NULL. -/
def strchr_index : List Char → Char → Option Nat
  | [], _ => none
  | x :: xs, c => if x = c then some 0 else (strchr_index xs c).map (fun i => i + 1)

/-- The inner loop of `base64_string_to_binary_string`: for `j` from `fuel` down to `1`,
`binaryCharacterRepresentation[j - 1]` is `'0'` or `'1'` after the parity of the value,
which is then halved; `acc` holds the characters already written, at indexes `j` and
above. -/
def binary_digits : Nat → Nat → List Char → List Char
  | 0, _, acc => acc
  | j + 1, d, acc => binary_digits j (d / 2) ((if d % 2 = 0 then '0' else '1') :: acc)

/-- The C string held by a memory block: its bytes before the first NUL. -/
def block_string (block : List Char) : List Char :=
  block.takeWhile (fun c => c ≠ NUL)

/-- The call `strcat(dest, src)` on the block `dest`: the characters of `src` and a NUL
are written from the first NUL of the block on; `none` when the block holds no NUL or
when the write runs past the end of the block. -/
def strcat (block src : List Char) : Option (List Char) :=
  if (block_string block).length + src.length + 1 ≤ block.length then
    some (block_string block ++ src ++ [NUL] ++
      block.drop ((block_string block).length + src.length + 1))
  else none

/-- The outer loop of `base64_string_to_binary_string` over the characters of the
string, on the block `toBinaryString`: `returned none` is the `return NULL` for a
character that is not in `BASE64`. -/
def base64_loop : List Char → List Char → Outcome (Option (List Char))
  | [], block => Outcome.returned (some block)
  | c :: cs, block =>
    match strchr_index BASE64 c with
    | none => Outcome.returned none
    | some d =>
      match strcat block (binary_digits 6 d []) with
      | none => Outcome.undefined
      | some b => base64_loop cs b

/-- The function `base64_string_to_binary_string(string)`; the allocations are taken to
succeed and `fresh` is the content of the block of `(6 + 1) * strlen(string) + 1` bytes
as `malloc` hands it over.  Only the last byte of the block is set to NUL before the
first `strcat`.  The result is the block (`some`) or NULL (`none`).  The loop counter is
an `unsigned int` compared with `strlen(string)`: for `2 ^ 32` characters or more it
never reaches the bound. -/
def base64_string_to_binary_string (fresh : List Char) (string : List Char) :
    Outcome (Option (List Char)) :=
  if 4294967296 ≤ string.length then Outcome.undefined
  else base64_loop string (fresh.set ((6 + 1) * string.length) NUL)

/-- The call `strrchr(s, c)`: the suffix of `s` that starts at the last occurrence of
`c`; `none` when there is none. -/
def strrchr : List Char → Char → Option (List Char)
  | [], _ => none
  | x :: xs, c =>
    match strrchr xs c with
    | some r => some r
    | none => if x = c then some (x :: xs) else none

/-- The function `get_file_extension(fileName)`: `none` is NULL. -/
def get_file_extension (fileName : List Char) : Option (List Char) :=
  match strrchr fileName '.' with
  | none => none
  | some extension => some (extension.drop 1)

/-- The inner loop of `check_file_name`: `true` when the character equals one of the
forbidden characters (the `return 0` inside the loop). -/
def forbidden_loop (c : Char) : List Char → Bool
  | [] => false
  | f :: fs => if c = f then true else forbidden_loop c fs

/-- The outer loop of `check_file_name`: `fuel` iterations over the characters of the
name, with the flag `extensionFounded`. -/
def check_loop : Nat → List Char → Nat → Nat
  | 0, _, _ => 1
  | _ + 1, [], _ => 1
  | fuel + 1, c :: cs, extensionFounded =>
    if c = '.' ∧ extensionFounded ≠ 0 then 0
    else if forbidden_loop c forbidenCharactersInFiles then 0
    else check_loop fuel cs (if c = '.' then 1 else extensionFounded)

/-- The function `check_file_name(fileName)`; `size` is `strlen(fileName)` stored in an
`unsigned int`. -/
def check_file_name (fileName : List Char) : Nat :=
  check_loop (fileName.length % 4294967296) fileName 0

/-- The function `create_lfsr` called with a pointer that may be NULL: `assert(seed)`
stops the process on NULL. -/
def create_lfsr_call (seed : Option (List Char)) (tap : Int) : Outcome (Option LFSR) :=
  match seed with
  | none => Outcome.aborted
  | some s => Outcome.returned (create_lfsr s tap)

/-- Step 2 of `main` up to the test `if (!lfsr)`: the password is converted by
`base64_string_to_binary_string` and the result is passed to `create_lfsr`. -/
def main_create_cipher (fresh : List Char) (password : List Char) (tap_value : Int) :
    Outcome (Option LFSR) :=
  match base64_string_to_binary_string fresh password with
  | Outcome.returned seedConverted =>
    create_lfsr_call (seedConverted.map block_string) tap_value
  | Outcome.aborted => Outcome.aborted
  | Outcome.undefined => Outcome.undefined

/-! ## pnm.c: the image record and the encryption pass -/

/-- The enumeration `MAGIC_NUMBERS`. -/
inductive MAGIC_NUMBERS
  | P1
  | P2
  | P3
deriving DecidableEq

/-- The record `struct PNM_t`; `pixels` is the matrix, one list per line. -/
structure PNM where
  magicNumber : MAGIC_NUMBERS
  columns : Nat
  lines : Nat
  maxPossibleValue : Nat
  pixels : List (List Nat)
deriving DecidableEq

/-- The local `linesLength` of `store_pixels` and `write_pnm`, called `columns` in
`pnm_file_encryption`: the number of cells of a line, `columns`, multiplied by `3` in
`unsigned int` arithmetic for a `P3` image. -/
def row_cells (magicNumber : MAGIC_NUMBERS) (columns : Nat) : Nat :=
  if magicNumber = MAGIC_NUMBERS.P3 then columns * 3 % 4294967296 else columns

/-- The variables that the loops of `pnm_file_encryption` update: the pixel matrix,
the engine and the local `maxValue` (an `unsigned short`). -/
structure EncState where
  pixels : List (List Nat)
  lfsr : LFSR
  maxValue : Nat

/-- The body of the inner loop of `pnm_file_encryption` at cell `(i, j)`: one call of
`generation(lfsr, 32)`, the XOR stored in place, and for `P2`/`P3` the update of
`maxValue` with the cell converted to `unsigned short`. -/
def encrypt_cell (magicNumber : MAGIC_NUMBERS) (i j : Nat) (st : EncState) : EncState :=
  let g := generation st.lfsr 32
  let v := Nat.xor ((st.pixels.getD i []).getD j 0) g.1
  let pixels := st.pixels.set i ((st.pixels.getD i []).set j v)
  let maxValue :=
    if magicNumber = MAGIC_NUMBERS.P2 ∨ magicNumber = MAGIC_NUMBERS.P3 then
      if v % 65536 > st.maxValue then v % 65536 else st.maxValue
    else st.maxValue
  { pixels := pixels, lfsr := g.2, maxValue := maxValue }

/-- The inner loop of `pnm_file_encryption`: `fuel` cells of line `i` from column `j`. -/
def encrypt_row_loop : Nat → MAGIC_NUMBERS → Nat → Nat → EncState → EncState
  | 0, _, _, _, st => st
  | fuel + 1, mn, i, j, st => encrypt_row_loop fuel mn i (j + 1) (encrypt_cell mn i j st)

/-- The outer loop of `pnm_file_encryption`: `fuel` lines of `columns` cells from
line `i`. -/
def encrypt_lines_loop : Nat → MAGIC_NUMBERS → Nat → Nat → EncState → EncState
  | 0, _, _, _, st => st
  | fuel + 1, mn, columns, i, st =>
    encrypt_lines_loop fuel mn columns (i + 1) (encrypt_row_loop columns mn i 0 st)

/-- The function `pnm_file_encryption(image, lfsr)`: the image and the engine after the
call. -/
def pnm_file_encryption (image : PNM) (lfsr : LFSR) : PNM × LFSR :=
  let st := encrypt_lines_loop image.lines image.magicNumber
    (row_cells image.magicNumber image.columns) 0
    { pixels := image.pixels, lfsr := lfsr, maxValue := 0 }
  ({ image with
      pixels := st.pixels
      maxPossibleValue :=
        if image.magicNumber = MAGIC_NUMBERS.P2 ∨ image.magicNumber = MAGIC_NUMBERS.P3 then
          st.maxValue
        else image.maxPossibleValue },
   st.lfsr)

/-! ### Images and keystream words -/

/-- A structurally sound image: `lines` rows, each of `row_cells` cells. -/
def PNM.WellFormed (image : PNM) : Prop :=
  image.pixels.length = image.lines ∧
    ∀ row ∈ image.pixels, row.length = row_cells image.magicNumber image.columns

instance (image : PNM) : Decidable image.WellFormed := by
  unfold PNM.WellFormed; infer_instance

/-- The engine after `n` successive calls of `generation(lfsr, 32)`. -/
def gen_state (n : Nat) (l : LFSR) : LFSR :=
  (fun s => (generation s 32).2)^[n] l

/-- The value returned by the call number `k` (counted from `0`) of
`generation(lfsr, 32)`. -/
def keystream_word (l : LFSR) (k : Nat) : Nat :=
  (generation (gen_state k l) 32).1

/-- One line XORed cell by cell with successive keystream words: the new line and the
engine after it. -/
def xor_row : List Nat → LFSR → List Nat × LFSR
  | [], l => ([], l)
  | x :: xs, l =>
    (Nat.xor x (generation l 32).1 :: (xor_row xs (generation l 32).2).1,
     (xor_row xs (generation l 32).2).2)

/-- A matrix XORed line by line with successive keystream words. -/
def xor_rows : List (List Nat) → LFSR → List (List Nat) × LFSR
  | [], l => ([], l)
  | r :: rs, l =>
    ((xor_row r l).1 :: (xor_rows rs (xor_row r l).2).1, (xor_rows rs (xor_row r l).2).2)

/-- The running maximum of `pnm_file_encryption` over a list of cells, from `m`. -/
def max16 (m : Nat) (cells : List Nat) : Nat :=
  cells.foldl (fun acc v => if v % 65536 > acc then v % 65536 else acc) m

/-- The image with every cell reduced modulo `65536`: the samples as `write_pnm` prints
them (`%hu` of the cell converted to `unsigned short`), hence as a reload reads them. -/
def truncate16 (image : PNM) : PNM :=
  { image with pixels := image.pixels.map (fun row => row.map (fun v => v % 65536)) }

/-! ## pnm.c: reading and writing

A file is the list of its bytes.  `getc` results are stored in a `char`, taken to be
signed: a byte of `128` or more is negative, like the end-of-file value. -/

/-- The test `isgraph(c)` in the C locale. -/
def isgraph (c : Char) : Bool := 33 ≤ c.toNat && c.toNat ≤ 126

/-- The test `isspace(c)` in the C locale. -/
def isspace (c : Char) : Bool := c.toNat = 32 || (9 ≤ c.toNat && c.toNat ≤ 13)

/-- The test `isdigit(c)`. -/
def isdigit (c : Char) : Bool := 48 ≤ c.toNat && c.toNat ≤ 57

/-- The function `go_to_next_data(fp, breakPointLine)` on the bytes that remain to be
read; `inComment` tells whether the loop that runs to the end of a comment is active
(the recursive call made after it continues with `inComment = false`).  The result is
`none` for `return 0`, otherwise the bytes left to read (the found character is pushed
back by `ungetc`) and the line counter, an `unsigned int`. -/
def go_to_next_data_aux : Bool → List Char → Nat → Option (List Char × Nat)
  | _, [], _ => none
  | false, c :: cs, line =>
    if 128 ≤ c.toNat then none
    else if isgraph c then
      if c = '#' then go_to_next_data_aux true cs line
      else some (c :: cs, line)
    else
      go_to_next_data_aux false cs
        (if c = '\n' ∨ c = '\r' then (line + 1) % 4294967296 else line)
  | true, c :: cs, line =>
    if 128 ≤ c.toNat then none
    else if c = '\n' ∨ c = '\r' then go_to_next_data_aux false cs ((line + 1) % 4294967296)
    else go_to_next_data_aux true cs line

/-- The function `go_to_next_data(fp, breakPointLine)`. -/
def go_to_next_data (input : List Char) (line : Nat) : Option (List Char × Nat) :=
  go_to_next_data_aux false input line

/-- The number written by a list of decimal digits. -/
def digits_value (ds : List Char) : Nat :=
  ds.foldl (fun a d => a * 10 + (d.toNat - 48)) 0

/-- The call `fscanf(fp, "%u", &x)`: white space is skipped, an optional sign and the
longest run of digits are read; `none` when there is no digit (the call does not
return `1`).  The digits are converted as by `strtoul` (a value of `2 ^ 64` or more
gives `2 ^ 64 - 1`, a minus sign negates modulo `2 ^ 64`) and stored in an
`unsigned int`.  The result is the stored value and the bytes left to read. -/
def scan_unsigned (input : List Char) : Option (Nat × List Char) :=
  let s := input.dropWhile isspace
  let s1 := if s.head? = some '-' ∨ s.head? = some '+' then s.drop 1 else s
  let ds := s1.takeWhile isdigit
  if ds = [] then none
  else
    let v := digits_value ds
    let ul :=
      if 18446744073709551616 ≤ v then 18446744073709551615
      else if s.head? = some '-' then (18446744073709551616 - v) % 18446744073709551616
      else v
    some (ul % 4294967296, s1.dropWhile isdigit)

/-- The call `fscanf(fp, "%u %u", &a, &b)`: `none` when it does not return `2`. -/
def scan_two_unsigned (input : List Char) : Option (Nat × Nat × List Char) :=
  match scan_unsigned input with
  | none => none
  | some (a, rest) =>
    match scan_unsigned rest with
    | none => none
    | some (b, rest2) => some (a, b, rest2)

/-- The call `fscanf(fp, "%2[^#]", magicNumberString)`: at most two bytes other than
`'#'`; `none` when there is none (the call does not return `1`). -/
def scan_magic (input : List Char) : Option (List Char × List Char) :=
  if (input.take 2).takeWhile (fun c => c ≠ '#') = [] then none
  else some ((input.take 2).takeWhile (fun c => c ≠ '#'),
    input.drop ((input.take 2).takeWhile (fun c => c ≠ '#')).length)

/-- Step 5 of `load_pnm`: the magic number for the token read, or the code returned
(`-2` when the extension does not match, `-3` for an unknown token). -/
def resolve_magic (token extension : List Char) : Except Int MAGIC_NUMBERS :=
  if token = "P1".toList then
    if extension ≠ "pbm".toList then Except.error (-2) else Except.ok MAGIC_NUMBERS.P1
  else if token = "P2".toList then
    if extension ≠ "pgm".toList then Except.error (-2) else Except.ok MAGIC_NUMBERS.P2
  else if token = "P3".toList then
    if extension ≠ "ppm".toList then Except.error (-2) else Except.ok MAGIC_NUMBERS.P3
  else Except.error (-3)

/-- The inner loop of `store_pixels`: `fuel` cells of one line, each read by
`go_to_next_data` and `fscanf("%u")`; `none` for `return 0`. -/
def store_row : Nat → List Char → Nat → Option (List Nat × List Char × Nat)
  | 0, input, line => some ([], input, line)
  | fuel + 1, input, line =>
    match go_to_next_data input line with
    | none => none
    | some (rest, line2) =>
      match scan_unsigned rest with
      | none => none
      | some (v, rest2) =>
        match store_row fuel rest2 line2 with
        | none => none
        | some (vs, rest3, line3) => some (v :: vs, rest3, line3)

/-- The outer loop of `store_pixels`: `fuel` lines of `linesLength` cells. -/
def store_rows : Nat → Nat → List Char → Nat → Option (List (List Nat) × List Char × Nat)
  | 0, _, input, line => some ([], input, line)
  | fuel + 1, linesLength, input, line =>
    match store_row linesLength input line with
    | none => none
    | some (row, rest, line2) =>
      match store_rows fuel linesLength rest line2 with
      | none => none
      | some (rows, rest2, line3) => some (row :: rows, rest2, line3)

/-- The function `store_pixels`: the returned `int` and the pixel matrix (`[]` stands for
a NULL or released matrix).  Step 1 calls `create_matrix(lines, linesLength)` and
returns `-1` when it gives NULL; step 2 fills the matrix and returns `0` at the first
cell that cannot be read, `1` at the end.  `matrix_alloc` tells whether the allocations
of `create_matrix` succeed. -/
def store_pixels (matrix_alloc : Bool) (magicNumber : MAGIC_NUMBERS) (columns lines : Nat)
    (input : List Char) (line : Nat) : Outcome (Int × List (List Nat)) :=
  match create_matrix matrix_alloc lines (row_cells magicNumber columns) with
  | Outcome.aborted => Outcome.aborted
  | Outcome.undefined => Outcome.undefined
  | Outcome.returned false => Outcome.returned (-1, [])
  | Outcome.returned true =>
    match store_rows lines (row_cells magicNumber columns) input line with
    | none => Outcome.returned (0, [])
    | some (pixels, _, _) => Outcome.returned (1, pixels)

/-- What `load_pnm` depends on besides the file name: the content of the file (`none`
when `fopen` fails), whether the allocation of the image record and of the matrix
succeed, and the value found in the field `maxPossibleValue`, which `load_pnm` leaves
uninitialised for a `P1` image. -/
structure LoadEnv where
  file : Option (List Char)
  image_alloc : Bool
  matrix_alloc : Bool
  junk : Nat

/-- Step 6 of `load_pnm`: for `P2`/`P3` the maximum value is read after
`go_to_next_data`; for `P1` nothing is read and the field keeps the value `junk` it
had.  The result is the value of the field, the bytes left to read and the line
counter; `none` for the two `return -3`. -/
def load_max (junk : Nat) (magicNumber : MAGIC_NUMBERS) (input : List Char) (line : Nat) :
    Option (Nat × List Char × Nat) :=
  if magicNumber = MAGIC_NUMBERS.P2 ∨ magicNumber = MAGIC_NUMBERS.P3 then
    match go_to_next_data input line with
    | none => none
    | some (rest, line2) =>
      match scan_unsigned rest with
      | none => none
      | some (m, rest2) => some (m, rest2, line2)
  else some (junk, input, line)

/-- Steps 5 to 7 of `load_pnm` once the magic number is known: the dimensions, the
maximum value, then `store_pixels`, whose result is tested by `!store_pixels(...)`. -/
def load_body (env : LoadEnv) (magicNumber : MAGIC_NUMBERS) (input : List Char) (line : Nat) :
    Outcome (Int × Option PNM) :=
  match go_to_next_data input line with
  | none => Outcome.returned (-3, none)
  | some (r1, line1) =>
    match scan_two_unsigned r1 with
    | none => Outcome.returned (-3, none)
    | some (columns, lines, r2) =>
      match load_max env.junk magicNumber r2 line1 with
      | none => Outcome.returned (-3, none)
      | some (maxPossibleValue, r5, line3) =>
        match store_pixels env.matrix_alloc magicNumber columns lines r5 line3 with
        | Outcome.aborted => Outcome.aborted
        | Outcome.undefined => Outcome.undefined
        | Outcome.returned (code, pixels) =>
          if code = 0 then Outcome.returned (-3, none)
          else Outcome.returned (0, some
            { magicNumber := magicNumber, columns := columns, lines := lines,
              maxPossibleValue := maxPossibleValue, pixels := pixels })

/-- The function `load_pnm(image, filename)`: the returned code and the image that
`*image` points to after the call (`none` when `load_pnm` stored no image or released
it). -/
def load_pnm (env : LoadEnv) (filename : List Char) : Outcome (Int × Option PNM) :=
  match get_file_extension filename with
  | none => Outcome.returned (-2, none)
  | some extension =>
    match env.file with
    | none => Outcome.returned (-1, none)
    | some content =>
      if env.image_alloc = false then Outcome.returned (-1, none)
      else
        match go_to_next_data content 1 with
        | none => Outcome.returned (-3, none)
        | some (r1, line1) =>
          if line1 > 1 then Outcome.returned (-3, none)
          else
            match scan_magic r1 with
            | none => Outcome.returned (-3, none)
            | some (token, r2) =>
              match resolve_magic token extension with
              | Except.error code => Outcome.returned (code, none)
              | Except.ok magicNumber => load_body env magicNumber r2 line1

/-- The decimal digits of `n`, most significant first, in front of `acc`; `fuel` bounds
the number of digits. -/
def print_digits : Nat → Nat → List Char → List Char
  | 0, _, acc => acc
  | fuel + 1, n, acc =>
    if n < 10 then Char.ofNat (48 + n) :: acc
    else print_digits fuel (n / 10) (Char.ofNat (48 + n % 10) :: acc)

/-- The text printed by `%u` for an `unsigned int` and by `%hu` for an
`unsigned short`. -/
def print_unsigned (n : Nat) : List Char :=
  print_digits 10 (n % 4294967296) []

/-- The text printed by `%d` for an `unsigned int` argument: the value is read as a
two's-complement `int`. -/
def print_int (n : Nat) : List Char :=
  if n % 4294967296 < 2147483648 then print_digits 10 (n % 4294967296) []
  else '-' :: print_digits 10 (4294967296 - n % 4294967296) []

/-- The inner loop of `write_pnm`: `fuel` cells of a line from column `j`, each printed
by `"%hu "` after conversion to `unsigned short`. -/
def write_row : Nat → Nat → List Nat → List Char
  | 0, _, _ => []
  | fuel + 1, j, row =>
    print_unsigned (row.getD j 0 % 65536) ++ ' ' :: write_row fuel (j + 1) row

/-- The outer loop of `write_pnm`: `fuel` lines from line `i`, each ended by a newline. -/
def write_rows : Nat → Nat → Nat → List (List Nat) → List Char
  | 0, _, _, _ => []
  | fuel + 1, i, linesLength, pixels =>
    write_row linesLength 0 (pixels.getD i []) ++ '\n' :: write_rows fuel (i + 1) linesLength pixels

/-- The first line printed by `write_pnm`, without its newline. -/
def magic_text : MAGIC_NUMBERS → List Char
  | MAGIC_NUMBERS.P1 => "P1".toList
  | MAGIC_NUMBERS.P2 => "P2".toList
  | MAGIC_NUMBERS.P3 => "P3".toList

/-- The function `write_pnm(image, filename)`: the returned code and the text written
to the file (`none` when no file is opened); `fopen_ok` tells whether `fopen`
succeeds. -/
def write_pnm (fopen_ok : Bool) (image : PNM) (filename : List Char) :
    Int × Option (List Char) :=
  if check_file_name filename = 0 then (-1, none)
  else if fopen_ok = false then (-2, none)
  else
    (0, some (magic_text image.magicNumber ++ '\n' ::
      (print_unsigned image.columns ++ ' ' :: (print_unsigned image.lines ++ '\n' ::
        ((if image.magicNumber = MAGIC_NUMBERS.P2 ∨ image.magicNumber = MAGIC_NUMBERS.P3 then
            print_int image.maxPossibleValue ++ ['\n']
          else []) ++
          write_rows image.lines 0 (row_cells image.magicNumber image.columns)
            image.pixels)))))

/-! ### What `go_to_next_data` skips -/

/-- The number of line terminators (`'\n'` and `'\r'`, each counted) in a text. -/
def count_newlines : List Char → Nat
  | [] => 0
  | c :: cs => (if c = '\n' ∨ c = '\r' then 1 else 0) + count_newlines cs

/-- A text made only of non-graphic characters and of complete comments: a `'#'`, a
body without line terminator, and a line terminator. -/
inductive Skipped : List Char → Prop
  | nil : Skipped []
  | blank (c : Char) (s : List Char) : isgraph c = false → Skipped s → Skipped (c :: s)
  | comment (body : List Char) (t : Char) (s : List Char) :
      (∀ c ∈ body, c ≠ '\n' ∧ c ≠ '\r') → (t = '\n' ∨ t = '\r') → Skipped s →
      Skipped ('#' :: (body ++ t :: s))

/-! ### The text of an image -/

/-- The samples of a line as text: each sample in decimal, reduced modulo `65536`, and
followed by one space. -/
def row_text (row : List Nat) : List Char :=
  (row.map (fun v => print_unsigned (v % 65536) ++ [' '])).flatten

/-- The lines of a matrix as text: each line followed by a newline. -/
def rows_text (rows : List (List Nat)) : List Char :=
  (rows.map (fun row => row_text row ++ ['\n'])).flatten

/-- The text of an image: the magic line, the line of the dimensions, for `P2`/`P3` the
line of the maximum value (`max_text`), then the lines of the matrix. -/
def image_text (image : PNM) (max_text : List Char) : List Char :=
  magic_text image.magicNumber ++ '\n' ::
    (print_unsigned image.columns ++ ' ' :: (print_unsigned image.lines ++ '\n' ::
      ((if image.magicNumber = MAGIC_NUMBERS.P2 ∨ image.magicNumber = MAGIC_NUMBERS.P3 then
          max_text ++ ['\n']
        else []) ++ rows_text image.pixels)))

/-- The extension that step 5 of `load_pnm` requires for each magic number. -/
def extension_of : MAGIC_NUMBERS → List Char
  | MAGIC_NUMBERS.P1 => "pbm".toList
  | MAGIC_NUMBERS.P2 => "pgm".toList
  | MAGIC_NUMBERS.P3 => "ppm".toList

/-! ## Theorems: the keystream engine -/

theorem shift_loop_append (q : List Nat) : ∀ (p : List Nat) (a : Nat),
    shift_loop q.length p.length (p ++ a :: q) = p ++ q ++ [(a :: q).getLastD 0] := by
  induction q with
  | nil => intro p a; simp [shift_loop]
  | cons b q ih =>
    intro p a
    have h1 : (p ++ a :: b :: q).getD (p.length + 1) 0 = b := by
      have e : p ++ a :: b :: q = (p ++ [a]) ++ b :: q := by simp
      have e2 : p.length + 1 = (p ++ [a]).length := by simp
      rw [e, e2, List.getD_eq_getElem?_getD, List.getElem?_append_right (le_refl _)]
      simp
    have h2 : (p ++ a :: b :: q).set p.length b = (p ++ [b]) ++ b :: q := by
      simp [List.set_append_right]
    have h3 := ih (p ++ [b]) b
    simp only [List.length_append, List.length_singleton] at h3
    simp only [List.length_cons, shift_loop, h1, h2, h3]
    simp

theorem operation_eq (l : LFSR) (h : l.WellFormed) :
    operation l =
      (Nat.xor (l.reg.getD 0 0) (l.reg.getD (l.regLength - 1 - l.tap) 0),
       { l with reg := l.reg.drop 1 ++
          [Nat.xor (l.reg.getD 0 0) (l.reg.getD (l.regLength - 1 - l.tap) 0)] }) := by
  obtain ⟨hlen, htap, hN⟩ := h
  have hidx : (l.regLength + 4294967296 - l.tap % 4294967296 + 4294967295) % 4294967296
      = l.regLength - 1 - l.tap := by omega
  have hb : (l.regLength + 4294967295) % 4294967296 = l.regLength - 1 := by omega
  cases hr : l.reg with
  | nil => simp [hr] at hlen; omega
  | cons a q =>
    have hq : q.length = l.regLength - 1 := by simp [hr] at hlen; omega
    have hs := shift_loop_append q [] a
    simp only [List.length_nil, List.nil_append] at hs
    simp only [operation, hidx, hb, hr, ← hq, hs]
    simp

theorem xor_bit_le (x y : Nat) (hx : x ≤ 1) (hy : y ≤ 1) : Nat.xor x y ≤ 1 := by
  interval_cases x <;> interval_cases y <;> decide

theorem getD_bit_le (r : List Nat) (h : ∀ x ∈ r, x ≤ 1) (i : Nat) : r.getD i 0 ≤ 1 := by
  rw [List.getD_eq_getElem?_getD]
  cases hi : r[i]? with
  | none => simp
  | some x => simpa using h x (List.getElem?_mem hi)

theorem operation_wellFormed (l : LFSR) (h : l.WellFormed) : (operation l).2.WellFormed := by
  rw [operation_eq l h]
  obtain ⟨hlen, htap, hN⟩ := h
  refine ⟨?_, htap, hN⟩
  simp only [List.length_append, List.length_drop, List.length_singleton]
  omega

theorem operation_bits (l : LFSR) (h : l.Valid) : (operation l).2.Bits := by
  rw [operation_eq l h.1]
  intro x hx
  simp only [List.mem_append, List.mem_singleton] at hx
  rcases hx with hx | hx
  · exact h.2 x (List.mem_of_mem_drop hx)
  · rw [hx]; exact xor_bit_le _ _ (getD_bit_le _ h.2 _) (getD_bit_le _ h.2 _)

theorem operation_valid (l : LFSR) (h : l.Valid) : (operation l).2.Valid :=
  ⟨operation_wellFormed l h.1, operation_bits l h⟩

theorem operation_bit_le (l : LFSR) (h : l.Valid) : (operation l).1 ≤ 1 := by
  rw [operation_eq l h.1]
  exact xor_bit_le _ _ (getD_bit_le _ h.2 _) (getD_bit_le _ h.2 _)

theorem op_state_succ (n : Nat) (l : LFSR) :
    op_state (n + 1) l = op_state n (operation l).2 := by
  unfold op_state
  exact Function.iterate_succ_apply _ n l

theorem op_state_add (a b : Nat) (l : LFSR) :
    op_state (a + b) l = op_state b (op_state a l) := by
  unfold op_state
  rw [Nat.add_comm, Function.iterate_add_apply]

theorem op_state_valid (n : Nat) : ∀ l : LFSR, l.Valid → (op_state n l).Valid := by
  induction n with
  | zero => intro l h; exact h
  | succ n ih => intro l h; rw [op_state_succ]; exact ih _ (operation_valid l h)

theorem op_bit_succ (l : LFSR) (i : Nat) : op_bit l (i + 1) = op_bit (operation l).2 i := by
  unfold op_bit
  rw [op_state_succ]

theorem op_bit_le (l : LFSR) (h : l.Valid) (i : Nat) : op_bit l i ≤ 1 :=
  operation_bit_le _ (op_state_valid i l h)

theorem big_endian_succ (l : LFSR) (k : Nat) :
    big_endian l (k + 1) = op_bit l 0 * 2 ^ k + big_endian (operation l).2 k := by
  unfold big_endian
  rw [Finset.sum_range_succ', Nat.add_comm]
  have e0 : k + 1 - 1 - 0 = k := by omega
  rw [e0]
  refine congrArg (fun t => op_bit l 0 * 2 ^ k + t) ?_
  apply Finset.sum_congr rfl
  intro i _
  rw [op_bit_succ]
  have e1 : k + 1 - 1 - (i + 1) = k - 1 - i := by omega
  rw [e1]

theorem big_endian_lt (k : Nat) : ∀ l : LFSR, l.Valid → big_endian l k < 2 ^ k := by
  induction k with
  | zero => intro l _; simp [big_endian]
  | succ k ih =>
    intro l h
    rw [big_endian_succ]
    have h1 := ih _ (operation_valid l h)
    have h2 : op_bit l 0 ≤ 1 := op_bit_le l h 0
    have h3 : op_bit l 0 * 2 ^ k ≤ 1 * 2 ^ k := Nat.mul_le_mul_right _ h2
    rw [pow_succ]; omega

theorem generation_loop_state (k : Nat) : ∀ (l : LFSR) (v : Nat),
    (generation_loop k l v).2 = op_state k l := by
  induction k with
  | zero => intro l v; simp [generation_loop, op_state]
  | succ k ih => intro l v; rw [generation_loop, ih, op_state_succ]

theorem generation_loop_value (k : Nat) : ∀ (l : LFSR) (v : Nat), v < 4294967296 →
    (generation_loop k l v).1 = (v * 2 ^ k + big_endian l k) % 4294967296 := by
  induction k with
  | zero => intro l v hv; simp [generation_loop, big_endian, Nat.mod_eq_of_lt hv]
  | succ k ih =>
    intro l v hv
    rw [generation_loop, ih _ _ (Nat.mod_lt _ (by norm_num)), big_endian_succ]
    have e : op_bit l 0 = (operation l).1 := by simp [op_bit, op_state]
    rw [e]
    apply Nat.ModEq.add_right_cancel' (0 : Nat)
    show _ ≡ _ [MOD 4294967296]
    have h1 : (v * 2 + (operation l).1) % 4294967296 ≡ v * 2 + (operation l).1 [MOD 4294967296] :=
      Nat.mod_modEq _ _
    have h2 := (h1.mul_right (2 ^ k)).add_right (big_endian (operation l).2 k)
    simp only [Nat.add_zero]
    refine h2.trans ?_
    have : (v * 2 + (operation l).1) * 2 ^ k + big_endian (operation l).2 k
        = v * 2 ^ (k + 1) + ((operation l).1 * 2 ^ k + big_endian (operation l).2 k) := by
      rw [pow_succ]; ring
    rw [this]

theorem big_endian_add (a : Nat) : ∀ (b : Nat) (l : LFSR),
    big_endian l (a + b) = big_endian l a * 2 ^ b + big_endian (op_state a l) b := by
  induction a with
  | zero => intro b l; simp [big_endian, op_state]
  | succ a ih =>
    intro b l
    have e : a + 1 + b = (a + b) + 1 := by omega
    rw [e, big_endian_succ, ih, big_endian_succ, op_state_succ, pow_add]
    ring

theorem generation_state (l : LFSR) (k : Nat) : (generation l k).2 = op_state k l :=
  generation_loop_state k l 0

theorem generation_value (l : LFSR) (k : Nat) :
    (generation l k).1 = big_endian l k % 4294967296 := by
  unfold generation
  rw [generation_loop_value k l 0 (by norm_num)]
  simp

theorem generation_value_exact (l : LFSR) (k : Nat) (h : l.Valid) (hk : k ≤ 32) :
    (generation l k).1 = big_endian l k := by
  rw [generation_value]
  apply Nat.mod_eq_of_lt
  have h1 := big_endian_lt k l h
  have h2 : 2 ^ k ≤ 2 ^ 32 := Nat.pow_le_pow_right (by norm_num) hk
  omega

theorem seed_loop_isSome (seed : List Char) :
    (seed_loop seed).isSome = true ↔ ∀ c ∈ seed, c = '0' ∨ c = '1' := by
  induction seed with
  | nil => simp [seed_loop]
  | cons c cs ih =>
    rw [List.forall_mem_cons, ← ih]
    by_cases h1 : c = '1'
    · cases hs : seed_loop cs <;> simp [seed_loop, hs, h1]
    · by_cases h0 : c = '0'
      · cases hs : seed_loop cs <;> simp [seed_loop, hs, h0]
      · simp [seed_loop, h1, h0]

theorem create_lfsr_isSome (seed : List Char) (tap : Int) :
    (create_lfsr seed tap).isSome = true ↔
      (0 ≤ tap ∧ tap < seed.length ∧ seed.length < 2147483648 ∧
        ∀ c ∈ seed, c = '0' ∨ c = '1') := by
  rw [← seed_loop_isSome]
  unfold create_lfsr
  by_cases hg : tap < 0 ∨ tap ≥ int_of_size seed.length
  · rw [if_pos hg]
    simp only [Option.isSome_none, Bool.false_eq_true, false_iff]
    rintro ⟨h0, h1, h2, _⟩
    unfold int_of_size at hg
    split_ifs at hg <;> omega
  · rw [if_neg hg]
    unfold int_of_size at hg
    by_cases hb : 4294967296 ≤ seed.length
    · rw [if_pos hb]
      simp only [Option.isSome_none, Bool.false_eq_true, false_iff]
      rintro ⟨_, _, h2, _⟩
      omega
    · rw [if_neg hb]
      have hlt : seed.length < 2147483648 := by split_ifs at hg <;> omega
      have h0 : 0 ≤ tap ∧ tap < seed.length := by split_ifs at hg <;> omega
      cases hs : seed_loop seed <;> simp [hlt, h0]

/-! ### Claims on the keystream engine -/

/-- C2 (as stated, refuted): a seed of `2 ^ 31` characters `'0'` with tap `0` satisfies
`0 ≤ tap < N` and has only binary characters, yet `create_lfsr` returns no engine,
because the tap is compared with `(int)strlen(seed)`, which is negative here. -/
theorem create_lfsr_rejects_seed_of_length_two_pow_31 :
    (0 ≤ (0 : Int) ∧ (0 : Int) < ((List.replicate 2147483648 '0').length : Int) ∧
      ∀ c ∈ List.replicate 2147483648 '0', c = '0' ∨ c = '1') ∧
    create_lfsr (List.replicate 2147483648 '0') 0 = none := by
  refine ⟨⟨le_refl _, ?_, ?_⟩, ?_⟩
  · rw [List.length_replicate]; norm_num
  · intro c hc
    exact Or.inl (List.eq_of_mem_replicate hc)
  · have e : int_of_size 2147483648 = -2147483648 := by decide
    unfold create_lfsr
    rw [List.length_replicate, e]
    simp

/-- C2 (amended): `create_lfsr(seed, tap)` returns an engine if and only if
`0 ≤ tap < N`, the seed length `N` is below `2 ^ 31` and every character of the seed
is `'0'` or `'1'`.  In particular it fails for the empty seed, a negative tap, a tap
`≥ N` and a seed with any other character. -/
theorem create_lfsr_succeeds_iff (seed : List Char) (tap : Int) :
    (create_lfsr seed tap).isSome = true ↔
      (0 ≤ tap ∧ tap < seed.length ∧ seed.length < 2147483648 ∧
        ∀ c ∈ seed, c = '0' ∨ c = '1') :=
  create_lfsr_isSome seed tap

/-- C3: in a well-formed engine (register `r` of length `N`, tap `t < N`), `operation`
returns `f = r[0] XOR r[N-1-t]`, leaves the register equal to `r[1], ..., r[N-1], f`
(entry `i` is the old entry `i + 1`, entry `N - 1` is `f`) and keeps tap and length. -/
theorem operation_shifts_and_feeds_back (l : LFSR) (h : l.WellFormed) :
    (operation l).1 = Nat.xor (l.reg.getD 0 0) (l.reg.getD (l.regLength - 1 - l.tap) 0) ∧
    (operation l).2.reg = l.reg.drop 1 ++ [(operation l).1] ∧
    (operation l).2.reg.length = l.regLength ∧
    (∀ i, i + 1 < l.regLength → (operation l).2.reg.getD i 0 = l.reg.getD (i + 1) 0) ∧
    (operation l).2.reg.getD (l.regLength - 1) 0 = (operation l).1 ∧
    (operation l).2.tap = l.tap ∧
    (operation l).2.regLength = l.regLength := by
  have hlen := h.1
  have hpos : 0 < l.regLength := by have := h.2.1; omega
  rw [operation_eq l h]
  refine ⟨rfl, rfl, ?_, ?_, ?_, rfl, rfl⟩
  · simp only [List.length_append, List.length_drop, List.length_singleton]; omega
  · intro i hi
    simp only [List.getD_eq_getElem?_getD]
    rw [List.getElem?_append_left (by simp only [List.length_drop]; omega), List.getElem?_drop,
      Nat.add_comm 1 i]
  · simp only [List.getD_eq_getElem?_getD]
    rw [List.getElem?_append_right (by simp only [List.length_drop]; omega)]
    simp only [List.length_drop, hlen, Nat.sub_self, List.getElem?_cons_zero, Option.getD_some]

/-- Witness for C3 on the engine of the test suite. -/
theorem operation_shifts_and_feeds_back_witness :
    (operation ⟨[0, 1, 1, 0, 1, 0, 0, 0, 0, 1, 0], 11, 8⟩).2.reg
      = [1, 1, 0, 1, 0, 0, 0, 0, 1, 0] ++ [(operation ⟨[0, 1, 1, 0, 1, 0, 0, 0, 0, 1, 0], 11, 8⟩).1] :=
  (operation_shifts_and_feeds_back ⟨[0, 1, 1, 0, 1, 0, 0, 0, 0, 1, 0], 11, 8⟩ (by decide)).2.1

/-- C4: `generation(s, k)` leaves the engine in the state reached by `k` successive
calls of `operation` and returns the big-endian number of the `k` output bits reduced
modulo `2 ^ 32`, which is that number itself when `k ≤ 32`; `generation(s, 0)` returns
`0` and leaves `s` unchanged. -/
theorem generation_is_k_operations (s : LFSR) (k : Nat) (hs : s.Valid) :
    (generation s k).2 = op_state k s ∧
    (generation s k).1 = (∑ i in Finset.range k, op_bit s i * 2 ^ (k - 1 - i)) % 4294967296 ∧
    (k ≤ 32 → (generation s k).1 = ∑ i in Finset.range k, op_bit s i * 2 ^ (k - 1 - i)) ∧
    (∀ i, op_bit s i ≤ 1) ∧
    generation s 0 = (0, s) :=
  ⟨generation_state s k, generation_value s k, fun hk => generation_value_exact s k hs hk,
    op_bit_le s hs, rfl⟩

/-- Witness for C4 on the engine of the test suite with `k = 5`. -/
theorem generation_is_k_operations_witness :
    (generation ⟨[0, 1, 1, 0, 1, 0, 0, 0, 0, 1, 0], 11, 8⟩ 5).2
      = op_state 5 ⟨[0, 1, 1, 0, 1, 0, 0, 0, 0, 1, 0], 11, 8⟩ :=
  (generation_is_k_operations ⟨[0, 1, 1, 0, 1, 0, 0, 0, 0, 1, 0], 11, 8⟩ 5 (by decide)).1

/-- C5: concatenation law.  With `(v1, s1) = generation(s, a)` and
`(v2, s2) = generation(s1, b)`, the call `generation(s, a + b)` leaves state `s2`; its
value is `v1 * 2 ^ b + v2` when `a + b ≤ 32`, and agrees with it modulo `2 ^ 32`
otherwise. -/
theorem generation_concatenation (s : LFSR) (a b : Nat) (hs : s.Valid) :
    (generation s (a + b)).2 = (generation (generation s a).2 b).2 ∧
    (a + b ≤ 32 → (generation s (a + b)).1
        = (generation s a).1 * 2 ^ b + (generation (generation s a).2 b).1) ∧
    (generation s (a + b)).1 % 4294967296
        = ((generation s a).1 * 2 ^ b + (generation (generation s a).2 b).1) % 4294967296 := by
  refine ⟨?_, ?_, ?_⟩
  · simp only [generation_state, op_state_add]
  · intro hab
    have hv := op_state_valid a s hs
    rw [generation_value_exact s (a + b) hs hab, generation_value_exact s a hs (by omega),
      generation_state, generation_value_exact _ b hv (by omega), big_endian_add]
  · simp only [generation_state, generation_value, big_endian_add]
    simp only [Nat.mod_mod]
    exact Nat.ModEq.add ((Nat.mod_modEq _ _).symm.mul_right _) (Nat.mod_modEq _ _).symm

/-- Witness for C5 on the engine of the test suite with `a = 2`, `b = 3`. -/
theorem generation_concatenation_witness :
    (generation ⟨[0, 1, 1, 0, 1, 0, 0, 0, 0, 1, 0], 11, 8⟩ (2 + 3)).2
      = (generation (generation ⟨[0, 1, 1, 0, 1, 0, 0, 0, 0, 1, 0], 11, 8⟩ 2).2 3).2 :=
  (generation_concatenation ⟨[0, 1, 1, 0, 1, 0, 0, 0, 0, 1, 0], 11, 8⟩ 2 3 (by decide)).1

/-- C6: the concrete vector of the test suite.  For seed `"01101000010"` and tap `8`,
one `operation` returns `1` and leaves `1,1,0,1,0,0,0,0,1,0,1`; from a fresh engine
`generation(lfsr, 5)` returns `25` and leaves `0,0,0,0,1,0,1,1,0,0,1`. -/
theorem test_vector_seed_01101000010_tap_8 :
    (create_lfsr "01101000010".toList 8).map (fun l => ((operation l).1, get_register (operation l).2))
      = some (1, [1, 1, 0, 1, 0, 0, 0, 0, 1, 0, 1]) ∧
    (create_lfsr "01101000010".toList 8).map (fun l => ((generation l 5).1, get_register (generation l 5).2))
      = some (25, [0, 0, 0, 0, 1, 0, 1, 1, 0, 0, 1]) := by
  decide

/-! ### Engine invariant, register read-out and string rendering -/

theorem seed_loop_eq (seed : List Char) (r : List Nat) (h : seed_loop seed = some r) :
    r = seed.map (fun c => if c = '1' then 1 else 0) := by
  induction seed generalizing r with
  | nil => simp [seed_loop] at h; simp [h]
  | cons c cs ih =>
    simp only [seed_loop] at h
    split_ifs at h with hc
    cases hs : seed_loop cs with
    | none => simp [hs] at h
    | some q =>
      simp only [hs, Option.some.injEq] at h
      have hq := ih q hs
      have hc2 : c = '0' ∨ c = '1' := by
        by_contra hn
        push_neg at hn
        exact hc ⟨hn.2, hn.1⟩
      rw [← h, List.map_cons, ← hq]
      rcases hc2 with e | e <;> subst e <;> rfl

theorem create_lfsr_some (seed : List Char) (tap : Int) (l : LFSR)
    (h : create_lfsr seed tap = some l) :
    l.reg = seed.map (fun c => if c = '1' then 1 else 0) ∧ l.regLength = seed.length ∧
      (l.tap : Int) = tap ∧ 0 ≤ tap ∧ tap < seed.length ∧ seed.length < 2147483648 := by
  have hs := (create_lfsr_isSome seed tap).1 (by rw [h]; rfl)
  obtain ⟨h0, h1, h2, _⟩ := hs
  unfold create_lfsr at h
  split_ifs at h with g1 g2
  cases hr : seed_loop seed with
  | none => simp [hr] at h
  | some r =>
    simp only [hr, Option.some.injEq] at h
    subst h
    refine ⟨seed_loop_eq seed r hr, ?_, ?_, h0, h1, h2⟩
    · show seed.length % 4294967296 = seed.length
      omega
    · show ((tap.toNat : Nat) : Int) = tap
      omega

theorem create_lfsr_valid (seed : List Char) (tap : Int) (l : LFSR)
    (h : create_lfsr seed tap = some l) : l.Valid := by
  obtain ⟨hr, hn, ht, h0, h1, h2⟩ := create_lfsr_some seed tap l h
  refine ⟨⟨?_, ?_, ?_⟩, ?_⟩
  · rw [hr, hn, List.length_map]
  · rw [hn]; omega
  · rw [hn]; omega
  · intro x hx
    rw [hr] at hx
    simp only [List.mem_map] at hx
    obtain ⟨c, _, rfl⟩ := hx
    split_ifs <;> omega

theorem operation_tap (l : LFSR) (h : l.WellFormed) :
    (operation l).2.tap = l.tap ∧ (operation l).2.regLength = l.regLength := by
  rw [operation_eq l h]
  exact ⟨rfl, rfl⟩

theorem op_state_tap (n : Nat) : ∀ l : LFSR, l.Valid → ((op_state n l).tap = l.tap ∧
    (op_state n l).regLength = l.regLength) := by
  induction n with
  | zero => intro l _; exact ⟨rfl, rfl⟩
  | succ n ih =>
    intro l hl
    have h := ih (operation l).2 (operation_valid l hl)
    rw [(operation_tap l hl.1).1, (operation_tap l hl.1).2] at h
    rw [op_state_succ]
    exact h

theorem run_calls_nil (l : LFSR) : run_calls [] l = l := by
  unfold run_calls
  exact List.foldl_nil

theorem run_calls_cons (c : EngineCall) (cs : List EngineCall) (l : LFSR) :
    run_calls (c :: cs) l = run_calls cs (c.run l) := by
  unfold run_calls
  exact List.foldl_cons _ _

theorem run_calls_eq (calls : List EngineCall) : ∀ l : LFSR,
    ∃ n, run_calls calls l = op_state n l := by
  induction calls with
  | nil => intro l; exact ⟨0, run_calls_nil l⟩
  | cons c cs ih =>
    intro l
    rw [run_calls_cons]
    cases c with
    | operation =>
      obtain ⟨n, hn⟩ := ih (operation l).2
      refine ⟨1 + n, ?_⟩
      rw [op_state_add]
      exact hn
    | generation k =>
      obtain ⟨n, hn⟩ := ih (generation l k).2
      refine ⟨k + n, ?_⟩
      rw [op_state_add, ← generation_state l k]
      exact hn

theorem to_string_loop_eq (q : List Nat) (hq : ∀ x ∈ q, x ≤ 1) : ∀ p : List Nat,
    to_string_loop q.length p.length (p ++ q) = q.map (fun b => if b = 1 then '1' else '0') := by
  induction q with
  | nil => intro p; simp [to_string_loop]
  | cons b q ih =>
    intro p
    have hb : b ≤ 1 := hq b (List.mem_cons_self _ _)
    have h1 : (p ++ b :: q).getD p.length 0 = b := by
      rw [List.getD_eq_getElem?_getD, List.getElem?_append_right (le_refl _)]
      simp
    have h2 := ih (fun x hx => hq x (List.mem_cons_of_mem _ hx)) (p ++ [b])
    simp only [List.length_append, List.length_singleton, List.append_assoc,
      List.singleton_append] at h2
    simp only [List.length_cons, to_string_loop, h1, h2, List.map_cons]
    congr 1
    interval_cases b <;> decide

theorem to_string_eq (l : LFSR) (h : l.Valid) :
    to_string l = l.reg.map (fun b => if b = 1 then '1' else '0') := by
  have := to_string_loop_eq l.reg h.2 []
  simp only [List.length_nil, List.nil_append] at this
  unfold to_string
  rw [← h.1.1, this]

/-- C18: engine invariant.  For an engine returned by `create_lfsr(seed, tap)`, after
any sequence of `operation` and `generation` calls the register still has
`N = length(seed) > 0` entries, `get_tap` still returns the construction tap with
`0 ≤ tap < N`, every register entry is `0` or `1`, the next value returned by
`operation` is `0` or `1`, and the index read by `operation` is `N - 1 - tap`, inside
the register. -/
theorem engine_invariant (seed : List Char) (tap : Int) (l : LFSR)
    (h : create_lfsr seed tap = some l) (calls : List EngineCall) :
    0 < seed.length ∧
    (run_calls calls l).regLength = seed.length ∧
    (get_register (run_calls calls l)).length = seed.length ∧
    ((get_tap (run_calls calls l) : Nat) : Int) = tap ∧
    0 ≤ tap ∧ tap < seed.length ∧
    (∀ x ∈ get_register (run_calls calls l), x = 0 ∨ x = 1) ∧
    ((operation (run_calls calls l)).1 = 0 ∨ (operation (run_calls calls l)).1 = 1) ∧
    ((run_calls calls l).regLength + 4294967296 - (run_calls calls l).tap % 4294967296
        + 4294967295) % 4294967296 = seed.length - 1 - get_tap (run_calls calls l) ∧
    seed.length - 1 - get_tap (run_calls calls l) < (get_register (run_calls calls l)).length := by
  obtain ⟨hr, hn, ht, h0, h1, h2⟩ := create_lfsr_some seed tap l h
  obtain ⟨n, hs⟩ := run_calls_eq calls l
  have hv : (op_state n l).Valid := op_state_valid n l (create_lfsr_valid seed tap l h)
  obtain ⟨e1, e2⟩ := op_state_tap n l (create_lfsr_valid seed tap l h)
  have hb := operation_bit_le _ hv
  obtain ⟨⟨w1, w2, w3⟩, w4⟩ := hv
  rw [hs]
  simp only [get_register, get_tap]
  rw [e1, e2, w1, e2, hn]
  refine ⟨by omega, rfl, rfl, ht, h0, h1, ?_, by omega, by omega, by omega⟩
  intro x hx
  have := w4 x hx
  omega

/-- Witness for C18: the engine of the test suite after `operation`, `generation(5)`,
`operation`. -/
theorem engine_invariant_witness :
    create_lfsr "01101000010".toList 8 = some ⟨[0, 1, 1, 0, 1, 0, 0, 0, 0, 1, 0], 11, 8⟩ ∧
    (get_register (run_calls [EngineCall.operation, EngineCall.generation 5, EngineCall.operation]
        ⟨[0, 1, 1, 0, 1, 0, 0, 0, 0, 1, 0], 11, 8⟩)).length = "01101000010".toList.length :=
  ⟨by decide,
   (engine_invariant "01101000010".toList 8 ⟨[0, 1, 1, 0, 1, 0, 0, 0, 0, 1, 0], 11, 8⟩ (by decide)
      [EngineCall.operation, EngineCall.generation 5, EngineCall.operation]).2.2.1⟩

/-- C19: for a seed and tap accepted by `create_lfsr`, the register read by
`get_register` has `length(seed)` entries, and entry `i` is `1` where `seed[i]` is
`'1'` and `0` where `seed[i]` is `'0'` (index `0` is the first seed character);
`get_register` is a read of the engine and yields no new engine state. -/
theorem register_initialised_from_seed (seed : List Char) (tap : Int) (l : LFSR)
    (h : create_lfsr seed tap = some l) :
    (get_register l).length = seed.length ∧
    (∀ i (hi : i < seed.length),
      (seed.get ⟨i, hi⟩ = '1' ∨ seed.get ⟨i, hi⟩ = '0') ∧
      (seed.get ⟨i, hi⟩ = '1' → (get_register l).getD i 2 = 1) ∧
      (seed.get ⟨i, hi⟩ = '0' → (get_register l).getD i 2 = 0)) ∧
    get_register l = l.reg := by
  obtain ⟨hr, hn, ht, h0, h1, h2⟩ := create_lfsr_some seed tap l h
  have hc := ((create_lfsr_isSome seed tap).1 (by rw [h]; rfl)).2.2.2
  refine ⟨by simp [get_register, hr], ?_, rfl⟩
  intro i hi
  have hm := hc _ (List.get_mem seed i hi)
  have e : (get_register l).getD i 2 = if seed.get ⟨i, hi⟩ = '1' then 1 else 0 := by
    simp [get_register, hr, List.getD_eq_getElem?_getD, hi]
  rw [e]
  rcases hm with g | g
  · rw [g]; decide
  · rw [g]; decide

/-- Witness for C19 on the seed of the test suite. -/
theorem register_initialised_from_seed_witness :
    create_lfsr "01101000010".toList 8 = some ⟨[0, 1, 1, 0, 1, 0, 0, 0, 0, 1, 0], 11, 8⟩ ∧
    (get_register ⟨[0, 1, 1, 0, 1, 0, 0, 0, 0, 1, 0], 11, 8⟩).length
      = "01101000010".toList.length :=
  ⟨by decide,
   (register_initialised_from_seed "01101000010".toList 8
      ⟨[0, 1, 1, 0, 1, 0, 0, 0, 0, 1, 0], 11, 8⟩ (by decide)).1⟩

/-- C20 (defect): for the engine of the test suite, `to_string` returns a block of
exactly `11` characters, equal to the seed and holding no NUL; as no terminator is
written, the C string read from that block runs on into the following memory: with the
bytes `'1'`, NUL after the block it is `"011010000101"`, which differs from the seed. -/
theorem to_string_is_not_terminated :
    (create_lfsr "01101000010".toList 8).map to_string = some "01101000010".toList ∧
    (create_lfsr "01101000010".toList 8).map
        (fun l => (to_string l).length = 11 ∧ Char.ofNat 0 ∉ to_string l) = some True ∧
    (create_lfsr "01101000010".toList 8).map
        (fun l => c_string (to_string l) ['1', Char.ofNat 0]) = some "011010000101".toList ∧
    "011010000101".toList ≠ "01101000010".toList := by
  refine ⟨by decide, ?_, by decide, by decide⟩
  have e : create_lfsr "01101000010".toList 8 = some ⟨[0, 1, 1, 0, 1, 0, 0, 0, 0, 1, 0], 11, 8⟩ := by
    decide
  rw [e]
  simp only [Option.map_some', Option.some.injEq, eq_iff_iff, iff_true]
  decide

/-! ## Theorems: the encryption pass -/

theorem set_getD_self (l : List (List Nat)) : ∀ (i : Nat), i < l.length →
    l.set i (l.getD i []) = l := by
  induction l with
  | nil => intro i hi; simp at hi
  | cons a l ih =>
    intro i hi
    cases i with
    | zero => rfl
    | succ i =>
      simp only [List.length_cons, Nat.add_lt_add_iff_right] at hi
      simp only [List.getD_cons_succ, List.set_cons_succ, ih i hi]

theorem getD_set_self (l : List (List Nat)) (i : Nat) (hi : i < l.length) (r : List Nat) :
    (l.set i r).getD i [] = r := by
  rw [List.getD_eq_getElem?_getD, List.getElem?_set_self hi, Option.getD_some]

theorem getD_append_cons (p q : List Nat) (x : Nat) : (p ++ x :: q).getD p.length 0 = x := by
  rw [List.getD_eq_getElem?_getD, List.getElem?_append_right (le_refl _)]
  simp

theorem set_append_cons (p q : List Nat) (x v : Nat) :
    (p ++ x :: q).set p.length v = p ++ v :: q := by
  rw [List.set_append_right _ _ (le_refl _)]
  simp

theorem max16_cons (m v : Nat) (cells : List Nat) :
    max16 m (v :: cells) = max16 (if v % 65536 > m then v % 65536 else m) cells := by
  unfold max16
  exact List.foldl_cons _ _

theorem encrypt_row_loop_eq (mn : MAGIC_NUMBERS) (i : Nat) (q : List Nat) :
    ∀ (p : List Nat) (st : EncState), i < st.pixels.length →
      st.pixels.getD i [] = p ++ q →
      encrypt_row_loop q.length mn i p.length st =
        { pixels := st.pixels.set i (p ++ (xor_row q st.lfsr).1)
          lfsr := (xor_row q st.lfsr).2
          maxValue :=
            if mn = MAGIC_NUMBERS.P2 ∨ mn = MAGIC_NUMBERS.P3 then
              max16 st.maxValue (xor_row q st.lfsr).1
            else st.maxValue } := by
  induction q with
  | nil =>
    intro p st hi hrow
    cases st with
    | mk px l m =>
      simp only [List.append_nil] at hrow
      simp only [List.length_nil, encrypt_row_loop, xor_row, List.append_nil, max16,
        List.foldl_nil, ite_self, ← hrow]
      rw [set_getD_self px i hi]
  | cons x q ih =>
    intro p st hi hrow
    cases st with
    | mk px l m =>
      simp only at hi hrow
      have hi2 : i < (px.set i (p ++ Nat.xor x (generation l 32).1 :: q)).length := by
        rw [List.length_set]; exact hi
      have h := ih (p ++ [Nat.xor x (generation l 32).1])
        { pixels := px.set i (p ++ Nat.xor x (generation l 32).1 :: q)
          lfsr := (generation l 32).2
          maxValue :=
            if mn = MAGIC_NUMBERS.P2 ∨ mn = MAGIC_NUMBERS.P3 then
              if Nat.xor x (generation l 32).1 % 65536 > m then
                Nat.xor x (generation l 32).1 % 65536 else m
            else m }
        hi2 (by simp only [getD_set_self px i hi, List.append_assoc, List.singleton_append])
      simp only [List.length_append, List.length_singleton, List.set_set, List.append_assoc,
        List.singleton_append] at h
      simp only [List.length_cons, encrypt_row_loop, encrypt_cell, hrow, getD_append_cons, set_append_cons]
      rw [h]
      rw [xor_row, max16_cons]
      by_cases hc : (mn = MAGIC_NUMBERS.P2 ∨ mn = MAGIC_NUMBERS.P3)
      · rw [if_pos hc, if_pos hc, if_pos hc]
      · rw [if_neg hc, if_neg hc, if_neg hc]

theorem max16_append (m : Nat) (a b : List Nat) : max16 m (a ++ b) = max16 (max16 m a) b := by
  unfold max16
  exact List.foldl_append _ _ _ _

theorem getD_append_cons_row (done rest : List (List Nat)) (r : List Nat) :
    (done ++ r :: rest).getD done.length [] = r := by
  rw [List.getD_eq_getElem?_getD, List.getElem?_append_right (le_refl _)]
  simp

theorem set_append_cons_row (done rest : List (List Nat)) (r r2 : List Nat) :
    (done ++ r :: rest).set done.length r2 = done ++ r2 :: rest := by
  rw [List.set_append_right _ _ (le_refl _)]
  simp

theorem encrypt_lines_loop_eq (mn : MAGIC_NUMBERS) (c : Nat) (todo : List (List Nat)) :
    ∀ (done : List (List Nat)) (l : LFSR) (m : Nat), (∀ row ∈ todo, row.length = c) →
      encrypt_lines_loop todo.length mn c done.length
          { pixels := done ++ todo, lfsr := l, maxValue := m } =
        { pixels := done ++ (xor_rows todo l).1
          lfsr := (xor_rows todo l).2
          maxValue :=
            if mn = MAGIC_NUMBERS.P2 ∨ mn = MAGIC_NUMBERS.P3 then
              max16 m (xor_rows todo l).1.flatten
            else m } := by
  induction todo with
  | nil =>
    intro done l m _
    simp only [List.length_nil, encrypt_lines_loop, xor_rows, List.flatten_nil, max16,
      List.foldl_nil, ite_self]
  | cons r rs ih =>
    intro done l m hlen
    have hr : r.length = c := hlen r (List.mem_cons_self _ _)
    have hrs : ∀ row ∈ rs, row.length = c := fun row h => hlen row (List.mem_cons_of_mem _ h)
    have h1 := encrypt_row_loop_eq mn done.length r []
      { pixels := done ++ r :: rs, lfsr := l, maxValue := m }
      (by simp only [List.length_append, List.length_cons]; omega)
      (by simp only [getD_append_cons_row, List.nil_append])
    simp only [List.length_nil, List.nil_append, set_append_cons_row] at h1
    rw [hr] at h1
    have h2 := ih (done ++ [(xor_row r l).1]) (xor_row r l).2
      (if mn = MAGIC_NUMBERS.P2 ∨ mn = MAGIC_NUMBERS.P3 then max16 m (xor_row r l).1 else m) hrs
    simp only [List.length_append, List.length_singleton, List.append_assoc,
      List.singleton_append] at h2
    rw [List.length_cons, encrypt_lines_loop, h1, h2, xor_rows, List.flatten_cons, max16_append]
    by_cases hc : (mn = MAGIC_NUMBERS.P2 ∨ mn = MAGIC_NUMBERS.P3)
    · rw [if_pos hc, if_pos hc, if_pos hc]
    · rw [if_neg hc, if_neg hc, if_neg hc]

theorem pnm_file_encryption_eq (image : PNM) (l : LFSR) (h : image.WellFormed) :
    pnm_file_encryption image l =
      ({ image with
          pixels := (xor_rows image.pixels l).1
          maxPossibleValue :=
            if image.magicNumber = MAGIC_NUMBERS.P2 ∨ image.magicNumber = MAGIC_NUMBERS.P3 then
              max16 0 (xor_rows image.pixels l).1.flatten
            else image.maxPossibleValue },
       (xor_rows image.pixels l).2) := by
  have h1 := encrypt_lines_loop_eq image.magicNumber
    (row_cells image.magicNumber image.columns) image.pixels [] l 0 h.2
  simp only [List.length_nil, List.nil_append] at h1
  rw [h.1] at h1
  unfold pnm_file_encryption
  simp only [h1]
  by_cases hc : (image.magicNumber = MAGIC_NUMBERS.P2 ∨ image.magicNumber = MAGIC_NUMBERS.P3)
  · simp only [if_pos hc]
  · simp only [if_neg hc]

theorem gen_state_succ (n : Nat) (l : LFSR) :
    gen_state (n + 1) l = gen_state n (generation l 32).2 := by
  unfold gen_state
  exact Function.iterate_succ_apply _ n l

theorem gen_state_add (a b : Nat) (l : LFSR) :
    gen_state (a + b) l = gen_state b (gen_state a l) := by
  unfold gen_state
  rw [Nat.add_comm, Function.iterate_add_apply]

theorem gen_state_zero (l : LFSR) : gen_state 0 l = l := rfl

theorem op_state_zero (l : LFSR) : op_state 0 l = l := rfl

theorem gen_state_eq_op_state (n : Nat) : ∀ l : LFSR, gen_state n l = op_state (32 * n) l := by
  induction n with
  | zero => intro l; rw [Nat.mul_zero, gen_state_zero, op_state_zero]
  | succ n ih =>
    intro l
    have e : 32 * (n + 1) = 32 + 32 * n := by ring
    rw [e, op_state_add, ← generation_state l 32, ← ih, gen_state_succ]

theorem keystream_word_succ (l : LFSR) (k : Nat) :
    keystream_word l (k + 1) = keystream_word (generation l 32).2 k := by
  unfold keystream_word
  rw [gen_state_succ]

theorem keystream_word_add (l : LFSR) (a k : Nat) :
    keystream_word l (a + k) = keystream_word (gen_state a l) k := by
  unfold keystream_word
  rw [gen_state_add]

theorem xor_row_length (q : List Nat) : ∀ l : LFSR, (xor_row q l).1.length = q.length := by
  induction q with
  | nil => intro l; rfl
  | cons x q ih => intro l; rw [xor_row, List.length_cons, List.length_cons, ih]

theorem xor_row_state (q : List Nat) : ∀ l : LFSR, (xor_row q l).2 = gen_state q.length l := by
  induction q with
  | nil => intro l; rfl
  | cons x q ih => intro l; rw [xor_row, List.length_cons, gen_state_succ, ih]

theorem xor_row_getD (q : List Nat) : ∀ (l : LFSR) (j : Nat), j < q.length →
    (xor_row q l).1.getD j 0 = Nat.xor (q.getD j 0) (keystream_word l j) := by
  induction q with
  | nil => intro l j hj; simp at hj
  | cons x q ih =>
    intro l j hj
    rw [xor_row]
    cases j with
    | zero => rfl
    | succ j =>
      simp only [List.length_cons, Nat.add_lt_add_iff_right] at hj
      simp only [List.getD_cons_succ]
      rw [ih _ j hj, keystream_word_succ]

theorem xor_row_involution (q : List Nat) : ∀ l : LFSR,
    xor_row (xor_row q l).1 l = (q, (xor_row q l).2) := by
  induction q with
  | nil => intro l; rfl
  | cons x q ih =>
    intro l
    have hx : Nat.xor (Nat.xor x (generation l 32).1) (generation l 32).1 = x :=
      Nat.xor_cancel_right _ _
    rw [xor_row, xor_row, ih, hx]

theorem xor_rows_length (rs : List (List Nat)) : ∀ l : LFSR,
    (xor_rows rs l).1.length = rs.length := by
  induction rs with
  | nil => intro l; rfl
  | cons r rs ih => intro l; rw [xor_rows, List.length_cons, List.length_cons, ih]

theorem xor_rows_row_length (c : Nat) (rs : List (List Nat)) : ∀ l : LFSR,
    (∀ row ∈ rs, row.length = c) → ∀ row ∈ (xor_rows rs l).1, row.length = c := by
  induction rs with
  | nil => intro l _ row hrow; simp [xor_rows] at hrow
  | cons r rs ih =>
    intro l h row hrow
    rw [xor_rows, List.mem_cons] at hrow
    rcases hrow with e | hm
    · rw [e, xor_row_length]; exact h r (List.mem_cons_self _ _)
    · exact ih _ (fun x hx => h x (List.mem_cons_of_mem _ hx)) row hm

theorem xor_rows_state (c : Nat) (rs : List (List Nat)) : ∀ l : LFSR,
    (∀ row ∈ rs, row.length = c) → (xor_rows rs l).2 = gen_state (rs.length * c) l := by
  induction rs with
  | nil => intro l _; rw [List.length_nil, Nat.zero_mul, gen_state_zero]; rfl
  | cons r rs ih =>
    intro l h
    have hr : r.length = c := h r (List.mem_cons_self _ _)
    have e : (rs.length + 1) * c = c + rs.length * c := by ring
    rw [xor_rows, ih _ (fun x hx => h x (List.mem_cons_of_mem _ hx)), xor_row_state,
      List.length_cons, e, gen_state_add, hr]

theorem xor_rows_getD (c : Nat) (rs : List (List Nat)) : ∀ (l : LFSR) (i j : Nat),
    (∀ row ∈ rs, row.length = c) → i < rs.length → j < c →
    ((xor_rows rs l).1.getD i []).getD j 0
      = Nat.xor ((rs.getD i []).getD j 0) (keystream_word l (i * c + j)) := by
  induction rs with
  | nil => intro l i j _ hi; simp at hi
  | cons r rs ih =>
    intro l i j h hi hj
    have hr : r.length = c := h r (List.mem_cons_self _ _)
    rw [xor_rows]
    cases i with
    | zero =>
      simp only [List.getD_cons_zero, Nat.zero_mul, Nat.zero_add]
      exact xor_row_getD r l j (by omega)
    | succ i =>
      simp only [List.length_cons, Nat.add_lt_add_iff_right] at hi
      simp only [List.getD_cons_succ]
      have e : (i + 1) * c + j = c + (i * c + j) := by ring
      rw [ih _ i j (fun x hx => h x (List.mem_cons_of_mem _ hx)) hi hj, xor_row_state, hr, e,
        keystream_word_add l c (i * c + j)]

theorem xor_rows_involution (rs : List (List Nat)) : ∀ l : LFSR,
    xor_rows (xor_rows rs l).1 l = (rs, (xor_rows rs l).2) := by
  induction rs with
  | nil => intro l; rfl
  | cons r rs ih =>
    intro l
    rw [xor_rows, xor_rows, xor_row_involution, ih]

theorem max16_ge_init (cells : List Nat) : ∀ m : Nat, m ≤ max16 m cells := by
  induction cells with
  | nil => intro m; exact le_refl _
  | cons v cells ih =>
    intro m
    rw [max16_cons]
    have h := ih (if v % 65536 > m then v % 65536 else m)
    split_ifs at h ⊢ <;> omega

theorem max16_ge (cells : List Nat) : ∀ m : Nat, ∀ v ∈ cells, v % 65536 ≤ max16 m cells := by
  induction cells with
  | nil => intro m v hv; simp at hv
  | cons x cells ih =>
    intro m v hv
    rw [max16_cons]
    rw [List.mem_cons] at hv
    rcases hv with e | hm
    · have h := max16_ge_init cells (if x % 65536 > m then x % 65536 else m)
      rw [e]
      split_ifs at h ⊢ <;> omega
    · exact ih _ v hm

theorem max16_attained (cells : List Nat) : ∀ m : Nat,
    max16 m cells = m ∨ ∃ v ∈ cells, max16 m cells = v % 65536 := by
  induction cells with
  | nil => intro m; exact Or.inl rfl
  | cons x cells ih =>
    intro m
    rw [max16_cons]
    rcases ih (if x % 65536 > m then x % 65536 else m) with h | ⟨v, hv, h⟩
    · rw [h]
      split_ifs
      · exact Or.inr ⟨x, List.mem_cons_self _ _, rfl⟩
      · exact Or.inl rfl
    · exact Or.inr ⟨v, List.mem_cons_of_mem _ hv, h⟩

theorem pnm_file_encryption_wellFormed (image : PNM) (l : LFSR) (h : image.WellFormed) :
    (pnm_file_encryption image l).1.WellFormed := by
  rw [pnm_file_encryption_eq image l h]
  exact ⟨by rw [xor_rows_length]; exact h.1, xor_rows_row_length _ _ l h.2⟩

theorem max16_zero_cases (px : List (List Nat)) :
    (∃ row ∈ px, ∃ v ∈ row, max16 0 px.flatten = v % 65536) ∨
      (max16 0 px.flatten = 0 ∧ ∀ row ∈ px, row = []) := by
  rcases max16_attained px.flatten 0 with h | ⟨v, hv, h⟩
  · by_cases he : ∀ row ∈ px, row = []
    · exact Or.inr ⟨h, he⟩
    · push_neg at he
      obtain ⟨row, hrow, hne⟩ := he
      obtain ⟨v, hv⟩ := List.exists_mem_of_ne_nil row hne
      have hle := max16_ge px.flatten 0 v (List.mem_flatten.2 ⟨row, hrow, hv⟩)
      exact Or.inl ⟨row, hrow, v, hv, by omega⟩
  · obtain ⟨row, hrow, hv2⟩ := List.mem_flatten.1 hv
    exact Or.inl ⟨row, hrow, v, hv2, h⟩

theorem gen_state_succ_last (n : Nat) (l : LFSR) :
    gen_state (n + 1) l = (generation (gen_state n l) 32).2 := by
  unfold gen_state
  exact Function.iterate_succ_apply' _ n l

theorem pnm_file_encryption_pixels (image : PNM) (l : LFSR) (h : image.WellFormed) :
    (pnm_file_encryption image l).1.pixels = (xor_rows image.pixels l).1 := by
  rw [pnm_file_encryption_eq image l h]

theorem encryption_maxPossibleValue_eq (image : PNM) (l : LFSR) (h : image.WellFormed)
    (hc : image.magicNumber = MAGIC_NUMBERS.P2 ∨ image.magicNumber = MAGIC_NUMBERS.P3) :
    (pnm_file_encryption image l).1.maxPossibleValue
      = max16 0 (pnm_file_encryption image l).1.pixels.flatten := by
  rw [pnm_file_encryption_eq image l h]
  show (if image.magicNumber = MAGIC_NUMBERS.P2 ∨ image.magicNumber = MAGIC_NUMBERS.P3 then
    max16 0 (xor_rows image.pixels l).1.flatten else image.maxPossibleValue) = _
  rw [if_pos hc]

theorem pnm_file_encryption_magicNumber (image : PNM) (l : LFSR) (h : image.WellFormed) :
    (pnm_file_encryption image l).1.magicNumber = image.magicNumber := by
  rw [pnm_file_encryption_eq image l h]

theorem pnm_file_encryption_twice (image : PNM) (l : LFSR) (h : image.WellFormed) :
    (pnm_file_encryption (pnm_file_encryption image l).1 l).1.pixels = image.pixels := by
  rw [pnm_file_encryption_pixels _ l (pnm_file_encryption_wellFormed image l h),
    pnm_file_encryption_pixels image l h, xor_rows_involution]

theorem xor_mod_65536 (a b : Nat) : Nat.xor a b % 65536 = Nat.xor (a % 65536) (b % 65536) := by
  have e : (65536 : Nat) = 2 ^ 16 := by norm_num
  have h1 := Nat.and_pow_two_sub_one_eq_mod (a ^^^ b) 16
  have h2 := Nat.and_pow_two_sub_one_eq_mod a 16
  have h3 := Nat.and_pow_two_sub_one_eq_mod b 16
  show (a ^^^ b) % 65536 = (a % 65536) ^^^ (b % 65536)
  rw [e, ← h1, ← h2, ← h3, Nat.and_xor_distrib_right]

theorem xor_trunc_cell (a w : Nat) :
    Nat.xor (a % 65536) w % 65536 = Nat.xor a w % 65536 := by
  rw [xor_mod_65536 (a % 65536) w, xor_mod_65536 a w, Nat.mod_mod]

theorem xor_row_trunc (q : List Nat) : ∀ l : LFSR,
    (xor_row (q.map (fun v => v % 65536)) l).1.map (fun v => v % 65536)
        = (xor_row q l).1.map (fun v => v % 65536) ∧
      (xor_row (q.map (fun v => v % 65536)) l).2 = (xor_row q l).2 := by
  induction q with
  | nil => intro l; exact ⟨rfl, rfl⟩
  | cons x q ih =>
    intro l
    obtain ⟨h1, h2⟩ := ih (generation l 32).2
    rw [List.map_cons, xor_row, xor_row]
    refine ⟨?_, h2⟩
    rw [List.map_cons, List.map_cons, h1, xor_trunc_cell]

theorem xor_rows_trunc (rs : List (List Nat)) : ∀ l : LFSR,
    (xor_rows (rs.map (fun row => row.map (fun v => v % 65536))) l).1.map
          (fun row => row.map (fun v => v % 65536))
        = (xor_rows rs l).1.map (fun row => row.map (fun v => v % 65536)) ∧
      (xor_rows (rs.map (fun row => row.map (fun v => v % 65536))) l).2 = (xor_rows rs l).2 := by
  induction rs with
  | nil => intro l; exact ⟨rfl, rfl⟩
  | cons r rs ih =>
    intro l
    obtain ⟨h1, h2⟩ := xor_row_trunc r l
    obtain ⟨h3, h4⟩ := ih (xor_row r l).2
    rw [List.map_cons, xor_rows, xor_rows, h2]
    refine ⟨?_, h4⟩
    rw [List.map_cons, List.map_cons, h1, h3]

theorem truncate16_wellFormed (image : PNM) (h : image.WellFormed) :
    (truncate16 image).WellFormed := by
  refine ⟨?_, ?_⟩
  · show (image.pixels.map _).length = image.lines
    rw [List.length_map]; exact h.1
  · intro row hrow
    have hrow2 : row ∈ image.pixels.map (fun row => row.map (fun v => v % 65536)) := hrow
    rw [List.mem_map] at hrow2
    obtain ⟨r, hr, e⟩ := hrow2
    rw [← e, List.length_map]
    exact h.2 r hr

theorem map_mod_id (rs : List (List Nat)) (h : ∀ row ∈ rs, ∀ v ∈ row, v < 65536) :
    rs.map (fun row => row.map (fun v => v % 65536)) = rs := by
  induction rs with
  | nil => rfl
  | cons r rs ih =>
    rw [List.map_cons, ih (fun row hr => h row (List.mem_cons_of_mem _ hr))]
    congr 1
    have hr := h r (List.mem_cons_self _ _)
    clear h ih
    induction r with
    | nil => rfl
    | cons v r ih2 =>
      rw [List.map_cons, ih2 (fun x hx => hr x (List.mem_cons_of_mem _ hx)),
        Nat.mod_eq_of_lt (hr v (List.mem_cons_self _ _))]

/-! ### Claims on the encryption pass -/

/-- C1: involution of `pnm_file_encryption`.  For a well-formed image of any variant and
two engines created independently from the same accepted seed and tap, encrypting with
the first and then with the second restores the pixel matrix, cell for cell, and leaves
`magicNumber`, `columns` and `lines` unchanged. -/
theorem pnm_file_encryption_involution (image : PNM) (seed : List Char) (tap : Int)
    (e1 e2 : LFSR) (h : image.WellFormed)
    (h1 : create_lfsr seed tap = some e1) (h2 : create_lfsr seed tap = some e2) :
    (pnm_file_encryption (pnm_file_encryption image e1).1 e2).1.pixels = image.pixels ∧
    (∀ i j, ((pnm_file_encryption (pnm_file_encryption image e1).1 e2).1.pixels.getD i []).getD j 0
      = (image.pixels.getD i []).getD j 0) ∧
    (pnm_file_encryption (pnm_file_encryption image e1).1 e2).1.magicNumber = image.magicNumber ∧
    (pnm_file_encryption (pnm_file_encryption image e1).1 e2).1.columns = image.columns ∧
    (pnm_file_encryption (pnm_file_encryption image e1).1 e2).1.lines = image.lines := by
  have he : e2 = e1 := by
    rw [h1] at h2
    exact (Option.some.inj h2).symm
  subst he
  have hw := pnm_file_encryption_wellFormed image e2 h
  have hp : (pnm_file_encryption (pnm_file_encryption image e2).1 e2).1.pixels = image.pixels := by
    rw [pnm_file_encryption_eq _ e2 hw]
    show (xor_rows (pnm_file_encryption image e2).1.pixels e2).1 = image.pixels
    rw [pnm_file_encryption_eq image e2 h]
    show (xor_rows (xor_rows image.pixels e2).1 e2).1 = image.pixels
    rw [xor_rows_involution]
  refine ⟨hp, ?_, ?_, ?_, ?_⟩
  · intro i j; rw [hp]
  · rw [pnm_file_encryption_eq _ e2 hw, pnm_file_encryption_eq image e2 h]
  · rw [pnm_file_encryption_eq _ e2 hw, pnm_file_encryption_eq image e2 h]
  · rw [pnm_file_encryption_eq _ e2 hw, pnm_file_encryption_eq image e2 h]

/-- Witness for C1: a `1 x 2` grey image and the engine of the test suite. -/
theorem pnm_file_encryption_involution_witness :
    create_lfsr "01101000010".toList 8 = some ⟨[0, 1, 1, 0, 1, 0, 0, 0, 0, 1, 0], 11, 8⟩ ∧
    PNM.WellFormed ⟨MAGIC_NUMBERS.P2, 2, 1, 255, [[10, 200]]⟩ ∧
    (pnm_file_encryption
      (pnm_file_encryption ⟨MAGIC_NUMBERS.P2, 2, 1, 255, [[10, 200]]⟩
        ⟨[0, 1, 1, 0, 1, 0, 0, 0, 0, 1, 0], 11, 8⟩).1
      ⟨[0, 1, 1, 0, 1, 0, 0, 0, 0, 1, 0], 11, 8⟩).1.pixels = [[10, 200]] :=
  ⟨by decide, by decide,
   (pnm_file_encryption_involution ⟨MAGIC_NUMBERS.P2, 2, 1, 255, [[10, 200]]⟩
      "01101000010".toList 8 ⟨[0, 1, 1, 0, 1, 0, 0, 0, 0, 1, 0], 11, 8⟩
      ⟨[0, 1, 1, 0, 1, 0, 0, 0, 0, 1, 0], 11, 8⟩ (by decide) (by decide) (by decide)).1⟩

/-- C7: on a well-formed image with `H = lines` rows of `C` cells (`C = columns`, or
`3 * columns` for `P3`), `pnm_file_encryption` started with engine `s` replaces cell
`(i, j)` by its old value XOR the keystream word number `i * C + j`, where word `k` is
the value of the call number `k` of `generation(lfsr, 32)` from `s`; the matrix keeps its
shape, and the engine ends in the state reached after `H * C` such calls, that is after
`32 * H * C` calls of `operation`.  The function is total: the pass always completes. -/
theorem pnm_file_encryption_cells (image : PNM) (s : LFSR) (h : image.WellFormed) :
    (∀ i j, i < image.lines → j < row_cells image.magicNumber image.columns →
      ((pnm_file_encryption image s).1.pixels.getD i []).getD j 0
        = Nat.xor ((image.pixels.getD i []).getD j 0)
            (keystream_word s (i * row_cells image.magicNumber image.columns + j))) ∧
    (∀ k, keystream_word s k = (generation (gen_state k s) 32).1 ∧
      gen_state (k + 1) s = (generation (gen_state k s) 32).2) ∧
    gen_state 0 s = s ∧
    (pnm_file_encryption image s).1.WellFormed ∧
    (pnm_file_encryption image s).1.magicNumber = image.magicNumber ∧
    (pnm_file_encryption image s).1.columns = image.columns ∧
    (pnm_file_encryption image s).1.lines = image.lines ∧
    (pnm_file_encryption image s).2
      = gen_state (image.lines * row_cells image.magicNumber image.columns) s ∧
    (pnm_file_encryption image s).2
      = op_state (32 * (image.lines * row_cells image.magicNumber image.columns)) s ∧
    (image.magicNumber ≠ MAGIC_NUMBERS.P3 →
      row_cells image.magicNumber image.columns = image.columns) ∧
    (image.magicNumber = MAGIC_NUMBERS.P3 → 3 * image.columns < 4294967296 →
      row_cells image.magicNumber image.columns = 3 * image.columns) := by
  have hw := pnm_file_encryption_wellFormed image s h
  have hst : (pnm_file_encryption image s).2
      = gen_state (image.lines * row_cells image.magicNumber image.columns) s := by
    rw [pnm_file_encryption_eq image s h]
    show (xor_rows image.pixels s).2 = _
    rw [xor_rows_state _ _ s h.2, h.1]
  refine ⟨?_, ?_, gen_state_zero s, hw, ?_, ?_, ?_, hst, ?_, ?_, ?_⟩
  · intro i j hi hj
    rw [pnm_file_encryption_eq image s h]
    show ((xor_rows image.pixels s).1.getD i []).getD j 0 = _
    exact xor_rows_getD _ _ s i j h.2 (by rw [h.1]; exact hi) hj
  · intro k
    exact ⟨rfl, gen_state_succ_last k s⟩
  · rw [pnm_file_encryption_eq image s h]
  · rw [pnm_file_encryption_eq image s h]
  · rw [pnm_file_encryption_eq image s h]
  · rw [hst, gen_state_eq_op_state]
  · intro hne
    unfold row_cells
    rw [if_neg hne]
  · intro he hlt
    unfold row_cells
    rw [if_pos he]
    omega

/-- Witness for C7: a `1 x 2` grey image and the engine of the test suite. -/
theorem pnm_file_encryption_cells_witness :
    PNM.WellFormed ⟨MAGIC_NUMBERS.P2, 2, 1, 255, [[10, 200]]⟩ ∧
    (pnm_file_encryption ⟨MAGIC_NUMBERS.P2, 2, 1, 255, [[10, 200]]⟩
        ⟨[0, 1, 1, 0, 1, 0, 0, 0, 0, 1, 0], 11, 8⟩).2
      = gen_state (1 * row_cells MAGIC_NUMBERS.P2 2) ⟨[0, 1, 1, 0, 1, 0, 0, 0, 0, 1, 0], 11, 8⟩ :=
  ⟨by decide,
   (pnm_file_encryption_cells ⟨MAGIC_NUMBERS.P2, 2, 1, 255, [[10, 200]]⟩
      ⟨[0, 1, 1, 0, 1, 0, 0, 0, 0, 1, 0], 11, 8⟩ (by decide)).2.2.2.2.2.2.2.1⟩

/-- C8: after `pnm_file_encryption` on a well-formed `P2` or `P3` image,
`maxPossibleValue` is the maximum over all cells of the encrypted cell value modulo
`65536` (an upper bound of all of them that is attained, or `0` when the matrix has no
cell), whatever `maxPossibleValue` was before; on a `P1` image it is left unchanged. -/
theorem pnm_file_encryption_max (image : PNM) (s : LFSR) (h : image.WellFormed) :
    ((image.magicNumber = MAGIC_NUMBERS.P2 ∨ image.magicNumber = MAGIC_NUMBERS.P3) →
      (∀ row ∈ (pnm_file_encryption image s).1.pixels, ∀ v ∈ row,
        v % 65536 ≤ (pnm_file_encryption image s).1.maxPossibleValue) ∧
      ((∃ row ∈ (pnm_file_encryption image s).1.pixels, ∃ v ∈ row,
          (pnm_file_encryption image s).1.maxPossibleValue = v % 65536) ∨
        ((pnm_file_encryption image s).1.maxPossibleValue = 0 ∧
          ∀ row ∈ (pnm_file_encryption image s).1.pixels, row = [])) ∧
      ∀ m, (pnm_file_encryption { image with maxPossibleValue := m } s).1.maxPossibleValue
        = (pnm_file_encryption image s).1.maxPossibleValue) ∧
    (image.magicNumber = MAGIC_NUMBERS.P1 →
      (pnm_file_encryption image s).1.maxPossibleValue = image.maxPossibleValue) := by
  constructor
  · intro hc
    have hm : (pnm_file_encryption image s).1.maxPossibleValue
        = max16 0 (xor_rows image.pixels s).1.flatten := by
      rw [pnm_file_encryption_eq image s h]
      show (if image.magicNumber = MAGIC_NUMBERS.P2 ∨ image.magicNumber = MAGIC_NUMBERS.P3 then
        max16 0 (xor_rows image.pixels s).1.flatten else image.maxPossibleValue) = _
      rw [if_pos hc]
    have hp : (pnm_file_encryption image s).1.pixels = (xor_rows image.pixels s).1 := by
      rw [pnm_file_encryption_eq image s h]
    refine ⟨?_, ?_, ?_⟩
    · intro row hrow v hv
      rw [hm]
      rw [hp] at hrow
      exact max16_ge _ 0 v (List.mem_flatten.2 ⟨row, hrow, hv⟩)
    · rw [hm, hp]
      exact max16_zero_cases _
    · intro m
      have hw2 : PNM.WellFormed { image with maxPossibleValue := m } := h
      rw [hm, pnm_file_encryption_eq _ s hw2]
      show (if image.magicNumber = MAGIC_NUMBERS.P2 ∨ image.magicNumber = MAGIC_NUMBERS.P3 then
        max16 0 (xor_rows image.pixels s).1.flatten else m) = _
      rw [if_pos hc]
  · intro h1
    rw [pnm_file_encryption_eq image s h]
    show (if image.magicNumber = MAGIC_NUMBERS.P2 ∨ image.magicNumber = MAGIC_NUMBERS.P3 then
      max16 0 (xor_rows image.pixels s).1.flatten else image.maxPossibleValue) = _
    rw [h1]
    rfl

/-- Witness for C8: a `1 x 2` grey image and the engine of the test suite. -/
theorem pnm_file_encryption_max_witness :
    PNM.WellFormed ⟨MAGIC_NUMBERS.P1, 2, 1, 7, [[1, 0]]⟩ ∧
    (pnm_file_encryption ⟨MAGIC_NUMBERS.P1, 2, 1, 7, [[1, 0]]⟩
        ⟨[0, 1, 1, 0, 1, 0, 0, 0, 0, 1, 0], 11, 8⟩).1.maxPossibleValue = 7 :=
  ⟨by decide,
   (pnm_file_encryption_max ⟨MAGIC_NUMBERS.P1, 2, 1, 7, [[1, 0]]⟩
      ⟨[0, 1, 1, 0, 1, 0, 0, 0, 0, 1, 0], 11, 8⟩ (by decide)).2 rfl⟩

/-- C26: file-level decryption survives the 16-bit truncation of the writer.  With
`T = truncate16` and two engines created from the same accepted seed and tap, the pixel
matrix of `T(encrypt(T(encrypt(img, E1)), E2))` is that of `T(img)`; when every original
sample is below `65536` it is the original matrix itself. -/
theorem decryption_survives_truncation (image : PNM) (seed : List Char) (tap : Int)
    (e1 e2 : LFSR) (h : image.WellFormed)
    (h1 : create_lfsr seed tap = some e1) (h2 : create_lfsr seed tap = some e2) :
    (truncate16 (pnm_file_encryption (truncate16 (pnm_file_encryption image e1).1) e2).1).pixels
      = (truncate16 image).pixels ∧
    ((∀ row ∈ image.pixels, ∀ v ∈ row, v < 65536) →
      (truncate16 (pnm_file_encryption (truncate16 (pnm_file_encryption image e1).1) e2).1).pixels
        = image.pixels) := by
  have he : e2 = e1 := by
    rw [h1] at h2
    exact (Option.some.inj h2).symm
  subst he
  have hw := truncate16_wellFormed _ (pnm_file_encryption_wellFormed image e2 h)
  have hp : (truncate16 (pnm_file_encryption (truncate16 (pnm_file_encryption image e2).1) e2).1).pixels
      = (truncate16 image).pixels := by
    show (pnm_file_encryption (truncate16 (pnm_file_encryption image e2).1) e2).1.pixels.map _
      = image.pixels.map _
    rw [pnm_file_encryption_pixels _ e2 hw]
    show (xor_rows ((pnm_file_encryption image e2).1.pixels.map _) e2).1.map _ = _
    rw [(xor_rows_trunc _ e2).1, pnm_file_encryption_pixels image e2 h, xor_rows_involution]
  refine ⟨hp, ?_⟩
  intro hlt
  rw [hp]
  exact map_mod_id _ hlt

/-- Witness for C26: a `1 x 2` grey image with a sample above `65535`. -/
theorem decryption_survives_truncation_witness :
    create_lfsr "01101000010".toList 8 = some ⟨[0, 1, 1, 0, 1, 0, 0, 0, 0, 1, 0], 11, 8⟩ ∧
    PNM.WellFormed ⟨MAGIC_NUMBERS.P2, 2, 1, 255, [[70000, 200]]⟩ ∧
    (truncate16 (pnm_file_encryption
      (truncate16 (pnm_file_encryption ⟨MAGIC_NUMBERS.P2, 2, 1, 255, [[70000, 200]]⟩
        ⟨[0, 1, 1, 0, 1, 0, 0, 0, 0, 1, 0], 11, 8⟩).1)
      ⟨[0, 1, 1, 0, 1, 0, 0, 0, 0, 1, 0], 11, 8⟩).1).pixels
      = (truncate16 ⟨MAGIC_NUMBERS.P2, 2, 1, 255, [[70000, 200]]⟩).pixels :=
  ⟨by decide, by decide,
   (decryption_survives_truncation ⟨MAGIC_NUMBERS.P2, 2, 1, 255, [[70000, 200]]⟩
      "01101000010".toList 8 ⟨[0, 1, 1, 0, 1, 0, 0, 0, 0, 1, 0], 11, 8⟩
      ⟨[0, 1, 1, 0, 1, 0, 0, 0, 0, 1, 0], 11, 8⟩ (by decide) (by decide) (by decide)).1⟩

/-- C30: maximum value after decryption.  For a well-formed `P2` or `P3` image with at
least one cell, after `pnm_file_encryption` with an engine from `(seed, tap)` and again
with a fresh engine from the same `(seed, tap)`, `maxPossibleValue` is the maximum of the
original samples reduced modulo `65536` (an upper bound of them that one of them
attains); it does not depend on the original `maxPossibleValue`, which is therefore
restored exactly when it equals that maximum. -/
theorem max_value_after_decryption (image : PNM) (seed : List Char) (tap : Int)
    (e1 e2 : LFSR) (h : image.WellFormed)
    (hc : image.magicNumber = MAGIC_NUMBERS.P2 ∨ image.magicNumber = MAGIC_NUMBERS.P3)
    (hne : ∃ row ∈ image.pixels, row ≠ [])
    (h1 : create_lfsr seed tap = some e1) (h2 : create_lfsr seed tap = some e2) :
    (∀ row ∈ image.pixels, ∀ v ∈ row,
      v % 65536 ≤ (pnm_file_encryption (pnm_file_encryption image e1).1 e2).1.maxPossibleValue) ∧
    (∃ row ∈ image.pixels, ∃ v ∈ row,
      (pnm_file_encryption (pnm_file_encryption image e1).1 e2).1.maxPossibleValue = v % 65536) ∧
    (∀ m, (pnm_file_encryption
        (pnm_file_encryption { image with maxPossibleValue := m } e1).1 e2).1.maxPossibleValue
      = (pnm_file_encryption (pnm_file_encryption image e1).1 e2).1.maxPossibleValue) ∧
    ((pnm_file_encryption (pnm_file_encryption image e1).1 e2).1.maxPossibleValue
        = image.maxPossibleValue ↔
      image.maxPossibleValue = max16 0 image.pixels.flatten) := by
  have he : e2 = e1 := by
    rw [h1] at h2
    exact (Option.some.inj h2).symm
  subst he
  have key : ∀ img : PNM, img.WellFormed →
      (img.magicNumber = MAGIC_NUMBERS.P2 ∨ img.magicNumber = MAGIC_NUMBERS.P3) →
      (pnm_file_encryption (pnm_file_encryption img e2).1 e2).1.maxPossibleValue
        = max16 0 img.pixels.flatten := by
    intro img hw hm
    have hw1 := pnm_file_encryption_wellFormed img e2 hw
    rw [encryption_maxPossibleValue_eq _ e2 hw1
      (by rw [pnm_file_encryption_magicNumber img e2 hw]; exact hm),
      pnm_file_encryption_twice img e2 hw]
  have hw2 : ∀ m, PNM.WellFormed { image with maxPossibleValue := m } := fun _ => h
  refine ⟨?_, ?_, ?_, ?_⟩
  · intro row hrow v hv
    rw [key image h hc]
    exact max16_ge _ 0 v (List.mem_flatten.2 ⟨row, hrow, hv⟩)
  · rw [key image h hc]
    rcases max16_zero_cases image.pixels with hx | ⟨_, hall⟩
    · exact hx
    · obtain ⟨row, hrow, hn⟩ := hne
      exact absurd (hall row hrow) hn
  · intro m
    rw [key image h hc, key _ (hw2 m) hc]
  · rw [key image h hc]
    exact eq_comm

/-- Witness for C30: a `1 x 2` grey image whose header maximum `255` is not its largest
sample. -/
theorem max_value_after_decryption_witness :
    create_lfsr "01101000010".toList 8 = some ⟨[0, 1, 1, 0, 1, 0, 0, 0, 0, 1, 0], 11, 8⟩ ∧
    PNM.WellFormed ⟨MAGIC_NUMBERS.P2, 2, 1, 255, [[10, 200]]⟩ ∧
    (∃ row ∈ [[10, 200]], ∃ v ∈ row,
      (pnm_file_encryption
        (pnm_file_encryption ⟨MAGIC_NUMBERS.P2, 2, 1, 255, [[10, 200]]⟩
          ⟨[0, 1, 1, 0, 1, 0, 0, 0, 0, 1, 0], 11, 8⟩).1
        ⟨[0, 1, 1, 0, 1, 0, 0, 0, 0, 1, 0], 11, 8⟩).1.maxPossibleValue = v % 65536) :=
  ⟨by decide, by decide,
   (max_value_after_decryption ⟨MAGIC_NUMBERS.P2, 2, 1, 255, [[10, 200]]⟩
      "01101000010".toList 8 ⟨[0, 1, 1, 0, 1, 0, 0, 0, 0, 1, 0], 11, 8⟩
      ⟨[0, 1, 1, 0, 1, 0, 0, 0, 0, 1, 0], 11, 8⟩ (by decide) (Or.inl rfl)
      ⟨[10, 200], List.mem_singleton.2 rfl, by decide⟩ (by decide) (by decide)).2.1⟩

/-! ## Theorems: degenerate tap and reversibility of the register update -/

theorem op_state_succ_last (n : Nat) (l : LFSR) :
    op_state (n + 1) l = (operation (op_state n l)).2 := by
  unfold op_state
  exact Function.iterate_succ_apply' _ n l

theorem operation_degenerate (l : LFSR) (h : l.Valid) (ht : l.tap + 1 = l.regLength) :
    (operation l).1 = 0 ∧ (operation l).2.reg = l.reg.drop 1 ++ [0] ∧
      (operation l).2.Valid ∧ (operation l).2.tap + 1 = (operation l).2.regLength := by
  have hv := operation_valid l h
  have htap := operation_tap l h.1
  have e : l.regLength - 1 - l.tap = 0 := by omega
  have hz : Nat.xor (l.reg.getD 0 0) (l.reg.getD 0 0) = 0 := Nat.xor_self _
  refine ⟨?_, ?_, hv, by rw [htap.1, htap.2]; exact ht⟩
  · rw [operation_eq l h.1, e]; exact hz
  · rw [operation_eq l h.1, e]
    show l.reg.drop 1 ++ [Nat.xor (l.reg.getD 0 0) (l.reg.getD 0 0)] = _
    rw [hz]

theorem op_state_degenerate (n : Nat) : ∀ l : LFSR, l.Valid → l.tap + 1 = l.regLength →
    ((op_state n l).Valid ∧ (op_state n l).tap + 1 = (op_state n l).regLength) := by
  induction n with
  | zero => intro l h ht; exact ⟨h, ht⟩
  | succ n ih =>
    intro l h ht
    obtain ⟨_, _, hv, ht2⟩ := operation_degenerate l h ht
    rw [op_state_succ]
    exact ih _ hv ht2

theorem op_bit_degenerate (l : LFSR) (h : l.Valid) (ht : l.tap + 1 = l.regLength) (i : Nat) :
    op_bit l i = 0 := by
  obtain ⟨hv, ht2⟩ := op_state_degenerate i l h ht
  exact (operation_degenerate _ hv ht2).1

theorem generation_degenerate (l : LFSR) (h : l.Valid) (ht : l.tap + 1 = l.regLength)
    (k : Nat) : (generation l k).1 = 0 := by
  rw [generation_value]
  have hz : big_endian l k = 0 := by
    unfold big_endian
    apply Finset.sum_eq_zero
    intro i _
    rw [op_bit_degenerate l h ht i, Nat.zero_mul]
  rw [hz]

theorem op_state_reg_degenerate (n : Nat) : ∀ l : LFSR, l.Valid → l.tap + 1 = l.regLength →
    n ≤ l.regLength → (op_state n l).reg = l.reg.drop n ++ List.replicate n 0 := by
  induction n with
  | zero => intro l _ _ _; rw [op_state_zero]; simp
  | succ n ih =>
    intro l h ht hn
    obtain ⟨hv, ht2⟩ := op_state_degenerate n l h ht
    rw [op_state_succ_last, (operation_degenerate _ hv ht2).2.1, ih l h ht (by omega)]
    have hlen : n < l.reg.length := by rw [h.1.1]; omega
    have hd : (l.reg.drop n ++ List.replicate n 0).drop 1
        = l.reg.drop (n + 1) ++ List.replicate n 0 := by
      rw [List.drop_append_of_le_length (by rw [List.length_drop]; omega), List.drop_drop,
        Nat.add_comm]
    rw [hd, List.append_assoc]
    congr 1
    rw [List.replicate_succ']

theorem xor_row_degenerate (q : List Nat) : ∀ l : LFSR, l.Valid → l.tap + 1 = l.regLength →
    ((xor_row q l).1 = q ∧ (xor_row q l).2.Valid ∧
      (xor_row q l).2.tap + 1 = (xor_row q l).2.regLength) := by
  induction q with
  | nil => intro l h ht; exact ⟨rfl, h, ht⟩
  | cons x q ih =>
    intro l h ht
    have hg : (generation l 32).1 = 0 := generation_degenerate l h ht 32
    have hs := op_state_degenerate 32 l h ht
    rw [← generation_state l 32] at hs
    obtain ⟨e1, e2, e3⟩ := ih _ hs.1 hs.2
    have hx : Nat.xor x 0 = x := Nat.xor_zero x
    rw [xor_row]
    refine ⟨?_, e2, e3⟩
    show Nat.xor x (generation l 32).1 :: (xor_row q (generation l 32).2).1 = x :: q
    rw [hg, hx, e1]

theorem xor_rows_degenerate (rs : List (List Nat)) : ∀ l : LFSR, l.Valid →
    l.tap + 1 = l.regLength → (xor_rows rs l).1 = rs := by
  induction rs with
  | nil => intro l _ _; rfl
  | cons r rs ih =>
    intro l h ht
    obtain ⟨e1, e2, e3⟩ := xor_row_degenerate r l h ht
    rw [xor_rows]
    show (xor_row r l).1 :: (xor_rows rs (xor_row r l).2).1 = r :: rs
    rw [e1, ih _ e2 e3]

/-- C27: degenerate tap.  For a seed of length `N` accepted with `tap = N - 1`, every
call of `operation` returns `0`, so every `generation(lfsr, k)` returns `0`; after `N`
calls of `operation` the register is all zeros; and `pnm_file_encryption` leaves every
pixel of every well-formed image unchanged. -/
theorem degenerate_tap (seed : List Char) (l : LFSR)
    (h : create_lfsr seed ((seed.length : Int) - 1) = some l) :
    (∀ n, (operation (op_state n l)).1 = 0) ∧
    (∀ n k, (generation (op_state n l) k).1 = 0) ∧
    (op_state seed.length l).reg = List.replicate seed.length 0 ∧
    (∀ image : PNM, image.WellFormed →
      (pnm_file_encryption image l).1.pixels = image.pixels) := by
  obtain ⟨hr, hn, ht, h0, _, _⟩ := create_lfsr_some seed _ l h
  have hv := create_lfsr_valid seed _ l h
  have htap : l.tap + 1 = l.regLength := by rw [hn]; omega
  refine ⟨?_, ?_, ?_, ?_⟩
  · intro n
    obtain ⟨hv2, ht2⟩ := op_state_degenerate n l hv htap
    exact (operation_degenerate _ hv2 ht2).1
  · intro n k
    obtain ⟨hv2, ht2⟩ := op_state_degenerate n l hv htap
    exact generation_degenerate _ hv2 ht2 k
  · rw [op_state_reg_degenerate seed.length l hv htap (by rw [hn])]
    have hl : l.reg.length ≤ seed.length := by rw [hv.1.1, hn]
    rw [List.drop_eq_nil_of_le hl, List.nil_append]
  · intro image hw
    rw [pnm_file_encryption_pixels image l hw]
    exact xor_rows_degenerate _ l hv htap

/-- Witness for C27: the seed of the test suite with tap `10`. -/
theorem degenerate_tap_witness :
    create_lfsr "01101000010".toList (("01101000010".toList.length : Int) - 1)
      = some ⟨[0, 1, 1, 0, 1, 0, 0, 0, 0, 1, 0], 11, 10⟩ ∧
    (op_state "01101000010".toList.length ⟨[0, 1, 1, 0, 1, 0, 0, 0, 0, 1, 0], 11, 10⟩).reg
      = List.replicate "01101000010".toList.length 0 :=
  ⟨by decide,
   (degenerate_tap "01101000010".toList ⟨[0, 1, 1, 0, 1, 0, 0, 0, 0, 1, 0], 11, 10⟩
      (by decide)).2.2.1⟩

theorem lfsr_ext (a b : LFSR) (h1 : a.reg = b.reg) (h2 : a.regLength = b.regLength)
    (h3 : a.tap = b.tap) : a = b := by
  cases a; cases b; simp_all

theorem operation_reg (l : LFSR) (h : l.WellFormed) :
    (operation l).2.reg = l.reg.drop 1 ++
      [Nat.xor (l.reg.getD 0 0) (l.reg.getD (l.regLength - 1 - l.tap) 0)] := by
  rw [operation_eq l h]

theorem operation_reg_getD (l : LFSR) (h : l.WellFormed) (i : Nat) (hi : i + 1 < l.regLength) :
    (operation l).2.reg.getD i 0 = l.reg.getD (i + 1) 0 := by
  rw [operation_reg l h]
  simp only [List.getD_eq_getElem?_getD]
  rw [List.getElem?_append_left (by simp only [List.length_drop]; rw [h.1]; omega),
    List.getElem?_drop, Nat.add_comm 1 i]

theorem operation_reg_last (l : LFSR) (h : l.WellFormed) :
    (operation l).2.reg.getD (l.regLength - 1) 0
      = Nat.xor (l.reg.getD 0 0) (l.reg.getD (l.regLength - 1 - l.tap) 0) := by
  have hpos : 0 < l.regLength := by have := h.2.1; omega
  rw [operation_reg l h]
  simp only [List.getD_eq_getElem?_getD]
  rw [List.getElem?_append_right (by simp only [List.length_drop]; rw [h.1])]
  simp only [List.length_drop, h.1, Nat.sub_self, List.getElem?_cons_zero, Option.getD_some]

theorem operation_recover (l : LFSR) (h : l.WellFormed) (ht : l.tap + 1 < l.regLength) :
    l.reg.getD 0 0 = Nat.xor ((operation l).2.reg.getD (l.regLength - 1) 0)
        ((operation l).2.reg.getD (l.regLength - 2 - l.tap) 0) ∧
      ∀ i, 1 ≤ i → i < l.regLength → l.reg.getD i 0 = (operation l).2.reg.getD (i - 1) 0 := by
  constructor
  · rw [operation_reg_last l h, operation_reg_getD l h _ (by omega)]
    have e : l.regLength - 2 - l.tap + 1 = l.regLength - 1 - l.tap := by omega
    rw [e]
    exact (Nat.xor_cancel_right _ _).symm
  · intro i h1 h2
    rw [operation_reg_getD l h (i - 1) (by omega)]
    have e : i - 1 + 1 = i := by omega
    rw [e]

theorem list_eq_of_getD (a b : List Nat) (hl : a.length = b.length)
    (h : ∀ i, i < a.length → a.getD i 0 = b.getD i 0) : a = b := by
  apply List.ext_getElem hl
  intro i h1 h2
  have := h i h1
  simp only [List.getD_eq_getElem?_getD, List.getElem?_eq_getElem h1,
    List.getElem?_eq_getElem h2, Option.getD_some] at this
  exact this

theorem operation_injective (l1 l2 : LFSR) (h1 : l1.WellFormed) (h2 : l2.WellFormed)
    (hn : l1.regLength = l2.regLength) (ht : l1.tap = l2.tap)
    (hlt : l1.tap + 1 < l1.regLength) (he : (operation l1).2 = (operation l2).2) : l1 = l2 := by
  obtain ⟨a1, b1⟩ := operation_recover l1 h1 hlt
  obtain ⟨a2, b2⟩ := operation_recover l2 h2 (by rw [← hn, ← ht]; exact hlt)
  apply lfsr_ext l1 l2 _ hn ht
  apply list_eq_of_getD _ _ (by rw [h1.1, h2.1, hn])
  intro i hi
  rw [h1.1] at hi
  cases i with
  | zero => rw [a1, a2, he, hn, ht]
  | succ i => rw [b1 _ (by omega) hi, b2 _ (by omega) (by omega), he]

theorem take_append_getD (r : List Nat) (n : Nat) (hn : 0 < n) (hl : r.length = n) :
    r.take (n - 1) ++ [r.getD (n - 1) 0] = r := by
  have hlt : n - 1 < r.length := by omega
  have h := List.take_concat_get r (n - 1) hlt
  rw [List.concat_eq_append] at h
  have e : n - 1 + 1 = r.length := by omega
  rw [List.getD_eq_getElem?_getD, List.getElem?_eq_getElem hlt, Option.getD_some, h, e,
    List.take_length]

theorem operation_surjective (l2 : LFSR) (h : l2.Valid) (ht : l2.tap + 1 < l2.regLength) :
    ∃ l : LFSR, l.Valid ∧ l.regLength = l2.regLength ∧ l.tap = l2.tap ∧
      (operation l).2 = l2 := by
  obtain ⟨⟨hlen, htap, hN⟩, hbits⟩ := h
  have hw : LFSR.WellFormed
      { reg := Nat.xor (l2.reg.getD (l2.regLength - 1) 0)
                (l2.reg.getD (l2.regLength - 2 - l2.tap) 0) :: l2.reg.take (l2.regLength - 1)
        regLength := l2.regLength
        tap := l2.tap } := by
    refine ⟨?_, htap, hN⟩
    show (_ :: l2.reg.take (l2.regLength - 1)).length = l2.regLength
    rw [List.length_cons, List.length_take, hlen]
    omega
  refine ⟨_, ⟨hw, ?_⟩, rfl, rfl, ?_⟩
  · intro x hx
    have hx2 : x ∈ Nat.xor (l2.reg.getD (l2.regLength - 1) 0)
        (l2.reg.getD (l2.regLength - 2 - l2.tap) 0) :: l2.reg.take (l2.regLength - 1) := hx
    rw [List.mem_cons] at hx2
    rcases hx2 with e | hm
    · rw [e]; exact xor_bit_le _ _ (getD_bit_le _ hbits _) (getD_bit_le _ hbits _)
    · exact hbits x (List.mem_of_mem_take hm)
  · apply lfsr_ext
    · rw [operation_reg _ hw]
      show (Nat.xor (l2.reg.getD (l2.regLength - 1) 0)
          (l2.reg.getD (l2.regLength - 2 - l2.tap) 0) :: l2.reg.take (l2.regLength - 1)).drop 1 ++
        [Nat.xor ((Nat.xor (l2.reg.getD (l2.regLength - 1) 0)
            (l2.reg.getD (l2.regLength - 2 - l2.tap) 0) :: l2.reg.take (l2.regLength - 1)).getD 0 0)
          ((Nat.xor (l2.reg.getD (l2.regLength - 1) 0)
            (l2.reg.getD (l2.regLength - 2 - l2.tap) 0) :: l2.reg.take (l2.regLength - 1)).getD
              (l2.regLength - 1 - l2.tap) 0)] = l2.reg
      have e : l2.regLength - 1 - l2.tap = (l2.regLength - 2 - l2.tap) + 1 := by omega
      have hg : (l2.reg.take (l2.regLength - 1)).getD (l2.regLength - 2 - l2.tap) 0
          = l2.reg.getD (l2.regLength - 2 - l2.tap) 0 := by
        simp only [List.getD_eq_getElem?_getD]
        rw [List.getElem?_take_of_lt (by omega)]
      have hc : Nat.xor (Nat.xor (l2.reg.getD (l2.regLength - 1) 0)
          (l2.reg.getD (l2.regLength - 2 - l2.tap) 0))
          (l2.reg.getD (l2.regLength - 2 - l2.tap) 0) = l2.reg.getD (l2.regLength - 1) 0 :=
        Nat.xor_cancel_right _ _
      rw [e, List.getD_cons_succ, List.getD_cons_zero, hg, hc, List.drop_succ_cons, List.drop_zero]
      exact take_append_getD l2.reg l2.regLength (by omega) hlen
    · exact (operation_tap _ hw).2
    · exact (operation_tap _ hw).1

theorem operation_flip (l : LFSR) (h : l.Valid) (ht : l.tap + 1 = l.regLength) :
    LFSR.Valid { l with reg := l.reg.set 0 (1 - l.reg.getD 0 0) } ∧
      ({ l with reg := l.reg.set 0 (1 - l.reg.getD 0 0) } : LFSR) ≠ l ∧
      (∀ i, 1 ≤ i → (l.reg.set 0 (1 - l.reg.getD 0 0)).getD i 0 = l.reg.getD i 0) ∧
      (operation { l with reg := l.reg.set 0 (1 - l.reg.getD 0 0) }).2 = (operation l).2 := by
  have hpos : 0 < l.reg.length := by rw [h.1.1]; omega
  have hv : LFSR.Valid { l with reg := l.reg.set 0 (1 - l.reg.getD 0 0) } := by
    refine ⟨⟨?_, h.1.2.1, h.1.2.2⟩, ?_⟩
    · show (l.reg.set 0 _).length = l.regLength
      rw [List.length_set]; exact h.1.1
    · intro x hx
      have hx2 : x ∈ l.reg.set 0 (1 - l.reg.getD 0 0) := hx
      rcases List.mem_or_eq_of_mem_set hx2 with hm | e
      · exact h.2 x hm
      · rw [e]; omega
  have hb := getD_bit_le l.reg h.2 0
  refine ⟨hv, ?_, ?_, ?_⟩
  · intro he
    have h0 : (l.reg.set 0 (1 - l.reg.getD 0 0)).getD 0 0 = l.reg.getD 0 0 := by
      have := congrArg LFSR.reg he
      exact congrArg (fun r => r.getD 0 0) this
    rw [List.getD_eq_getElem?_getD, List.getElem?_set_self hpos, Option.getD_some] at h0
    omega
  · intro i hi
    simp only [List.getD_eq_getElem?_getD]
    rw [List.getElem?_set_ne (by omega)]
  · apply lfsr_ext
    · rw [(operation_degenerate _ hv ht).2.1, (operation_degenerate l h ht).2.1]
      show (l.reg.set 0 _).drop 1 ++ [0] = _
      rw [List.drop_set_of_lt _ _ (by omega)]
    · rw [(operation_tap _ hv.1).2, (operation_tap l h.1).2]
    · rw [(operation_tap _ hv.1).1, (operation_tap l h.1).1]

theorem zero_engine_valid (n t : Nat) (ht : t < n) (hn : n < 4294967296) :
    LFSR.Valid { reg := List.replicate n 0, regLength := n, tap := t } := by
  refine ⟨⟨?_, ht, hn⟩, ?_⟩
  · show (List.replicate n 0).length = n
    rw [List.length_replicate]
  · intro x hx
    have hx2 : x ∈ List.replicate n 0 := hx
    rw [List.eq_of_mem_replicate hx2]
    omega

/-- C28: reversibility of the register update.  For a length `N` and a tap `t` with
`0 ≤ t < N`, `operation` is injective on the bit registers of length `N` if and only if
`t < N - 1`.  When `t < N - 1` the previous register `r` is recovered from the new one
`r2` by `r[0] = r2[N-1] XOR r2[N-2-t]` and `r[i] = r2[i-1]` for `1 ≤ i ≤ N-1`, and every
state has a predecessor, so the update is a bijection; when `t = N - 1` the state that
differs from a given one only in bit `0` has the same successor. -/
theorem operation_reversible_iff (n t : Nat) (ht : t < n) (hn : n < 4294967296) :
    ((∀ l1 l2 : LFSR, l1.Valid → l2.Valid → l1.regLength = n → l2.regLength = n →
        l1.tap = t → l2.tap = t → (operation l1).2 = (operation l2).2 → l1 = l2)
      ↔ t + 1 < n) ∧
    (t + 1 < n → ∀ l : LFSR, l.Valid → l.regLength = n → l.tap = t →
      (l.reg.getD 0 0 = Nat.xor ((operation l).2.reg.getD (n - 1) 0)
          ((operation l).2.reg.getD (n - 2 - t) 0) ∧
        ∀ i, 1 ≤ i → i < n → l.reg.getD i 0 = (operation l).2.reg.getD (i - 1) 0)) ∧
    (t + 1 < n → ∀ l2 : LFSR, l2.Valid → l2.regLength = n → l2.tap = t →
      ∃ l : LFSR, l.Valid ∧ l.regLength = n ∧ l.tap = t ∧ (operation l).2 = l2) ∧
    (t + 1 = n → ∀ l : LFSR, l.Valid → l.regLength = n → l.tap = t →
      (LFSR.Valid { l with reg := l.reg.set 0 (1 - l.reg.getD 0 0) } ∧
        ({ l with reg := l.reg.set 0 (1 - l.reg.getD 0 0) } : LFSR) ≠ l ∧
        (∀ i, 1 ≤ i → (l.reg.set 0 (1 - l.reg.getD 0 0)).getD i 0 = l.reg.getD i 0) ∧
        (operation { l with reg := l.reg.set 0 (1 - l.reg.getD 0 0) }).2 = (operation l).2)) := by
  refine ⟨⟨?_, ?_⟩, ?_, ?_, ?_⟩
  · intro hinj
    by_contra hc
    have hz := zero_engine_valid n t ht hn
    obtain ⟨hv, hne, _, hsame⟩ := operation_flip _ hz (by show t + 1 = n; omega)
    exact hne (hinj _ _ hv hz rfl rfl rfl rfl hsame)
  · intro hlt l1 l2 h1 h2 e1 e2 t1 t2 he
    exact operation_injective l1 l2 h1.1 h2.1 (by rw [e1, e2]) (by rw [t1, t2])
      (by rw [e1, t1]; exact hlt) he
  · intro hlt l hv e1 t1
    have h := operation_recover l hv.1 (by rw [e1, t1]; exact hlt)
    rw [e1, t1] at h
    exact h
  · intro hlt l2 hv e1 t1
    obtain ⟨l, a, b, c, d⟩ := operation_surjective l2 hv (by rw [e1, t1]; exact hlt)
    exact ⟨l, a, by rw [b, e1], by rw [c, t1], d⟩
  · intro heq l hv e1 t1
    exact operation_flip l hv (by rw [e1, t1]; exact heq)

/-- Witness for C28: length `11` and tap `8`, the parameters of the test suite. -/
theorem operation_reversible_iff_witness :
    8 < 11 ∧ 11 < 4294967296 ∧
    ((∀ l1 l2 : LFSR, l1.Valid → l2.Valid → l1.regLength = 11 → l2.regLength = 11 →
        l1.tap = 8 → l2.tap = 8 → (operation l1).2 = (operation l2).2 → l1 = l2)
      ↔ 8 + 1 < 11) :=
  ⟨by decide, by decide, (operation_reversible_iff 11 8 (by decide) (by decide)).1⟩

/-! ## Theorems: utils.c and the cipher construction of main -/

theorem strrchr_none (c : Char) (s : List Char) : strrchr s c = none ↔ c ∉ s := by
  induction s with
  | nil => simp [strrchr]
  | cons x xs ih =>
    rw [strrchr]
    cases h : strrchr xs c with
    | none =>
      have hn := ih.1 h
      by_cases hx : x = c
      · simp [hx]
      · simp only [if_neg hx, List.mem_cons, not_or, true_iff]
        exact ⟨fun e => hx e.symm, hn⟩
    | some r =>
      have hm : c ∈ xs := by
        by_contra hc
        rw [ih.2 hc] at h
        exact Option.noConfusion h
      simp [hm]

theorem strrchr_some (c : Char) (s : List Char) : ∀ r : List Char,
    strrchr s c = some r ↔ ∃ pre tl, s = pre ++ c :: tl ∧ c ∉ tl ∧ r = c :: tl := by
  induction s with
  | nil =>
    intro r
    simp [strrchr]
  | cons x xs ih =>
    intro r
    rw [strrchr]
    cases h : strrchr xs c with
    | none =>
      have hn := (strrchr_none c xs).1 h
      by_cases hx : x = c
      · simp only [if_pos hx, Option.some.injEq]
        constructor
        · intro e
          exact ⟨[], xs, by rw [hx]; rfl, hn, by rw [← e, hx]⟩
        · rintro ⟨pre, tl, e1, e2, e3⟩
          cases pre with
          | nil =>
            simp only [List.nil_append, List.cons.injEq] at e1
            rw [e3, hx, e1.2]
          | cons p ps =>
            simp only [List.cons_append, List.cons.injEq] at e1
            exact absurd (by rw [e1.2]; simp) hn
      · simp only [if_neg hx, reduceCtorEq, false_iff]
        rintro ⟨pre, tl, e1, e2, e3⟩
        cases pre with
        | nil =>
          simp only [List.nil_append, List.cons.injEq] at e1
          exact hx e1.1
        | cons p ps =>
          simp only [List.cons_append, List.cons.injEq] at e1
          exact absurd (by rw [e1.2]; simp) hn
    | some r2 =>
      obtain ⟨pre, tl, e1, e2, e3⟩ := (ih r2).1 h
      simp only [Option.some.injEq]
      constructor
      · intro e
        exact ⟨x :: pre, tl, by rw [e1]; rfl, e2, by rw [← e, e3]⟩
      · rintro ⟨pre2, tl2, f1, f2, f3⟩
        cases pre2 with
        | nil =>
          simp only [List.nil_append, List.cons.injEq] at f1
          have : c ∈ tl2 := by rw [← f1.2, e1]; simp
          exact absurd this f2
        | cons p ps =>
          simp only [List.cons_append, List.cons.injEq] at f1
          have h2 : strrchr xs c = some r := (ih r).2 ⟨ps, tl2, f1.2, f2, f3⟩
          rw [h] at h2
          exact Option.some.inj h2

/-- C23: `get_file_extension` returns NULL if and only if the name holds no `'.'`;
otherwise it returns the suffix of the name that follows the last `'.'`.  In particular
`"img.pgm"` gives `"pgm"` and `"img"` gives NULL. -/
theorem get_file_extension_spec (fileName : List Char) :
    (get_file_extension fileName = none ↔ '.' ∉ fileName) ∧
    (∀ ext, get_file_extension fileName = some ext ↔
      ∃ pre, fileName = pre ++ '.' :: ext ∧ '.' ∉ ext) ∧
    get_file_extension "img.pgm".toList = some "pgm".toList ∧
    get_file_extension "img".toList = none := by
  refine ⟨?_, ?_, by decide, by decide⟩
  · rw [← strrchr_none]
    unfold get_file_extension
    cases strrchr fileName '.' <;> simp
  · intro ext
    unfold get_file_extension
    cases h : strrchr fileName '.' with
    | none =>
      have hn := (strrchr_none '.' fileName).1 h
      simp only [reduceCtorEq, false_iff]
      rintro ⟨pre, e1, _⟩
      exact hn (by rw [e1]; simp)
    | some r =>
      obtain ⟨pre, tl, e1, e2, e3⟩ := (strrchr_some '.' fileName r).1 h
      simp only [Option.some.injEq]
      constructor
      · intro e
        rw [e3, List.drop_succ_cons, List.drop_zero] at e
        exact ⟨pre, by rw [← e]; exact e1, by rw [← e]; exact e2⟩
      · rintro ⟨pre2, f1, f2⟩
        have h2 := (strrchr_some '.' fileName ('.' :: ext)).2 ⟨pre2, ext, f1, f2, rfl⟩
        rw [h] at h2
        rw [Option.some.inj h2]
        rfl

/-- C21 (defect): with a zero-filled block the conversion of `"MaitreGims"` is the
expected binary string, and a character outside the alphabet gives NULL; but the block
comes from `malloc` and only its last byte is set to NUL before the first `strcat`:
when it starts with the byte `'x'`, the conversion of `"A"` returns `"x000000"`, not
`"000000"`. -/
theorem base64_conversion_reads_uninitialised_block :
    (base64_string_to_binary_string (List.replicate 71 NUL) "MaitreGims".toList
      = Outcome.returned (some
          ("001100011010100010101101101011011110000110100010100110101100".toList
            ++ List.replicate 11 NUL))) ∧
    base64_string_to_binary_string (List.replicate 92 NUL) "dasjn0938*&()".toList
      = Outcome.returned none ∧
    base64_string_to_binary_string (List.replicate 8 NUL) "A".toList
      = Outcome.returned (some ("000000".toList ++ [NUL, NUL])) ∧
    base64_string_to_binary_string ['x', NUL, NUL, NUL, NUL, NUL, NUL, NUL] "A".toList
      = Outcome.returned (some ("x000000".toList ++ [NUL])) ∧
    block_string ("x000000".toList ++ [NUL]) = "x000000".toList ∧
    "x000000".toList ≠ "000000".toList := by
  decide

/-- C25 (defect): in `main`, a password with a character outside the alphabet makes
`base64_string_to_binary_string` return NULL, and that NULL is passed to `create_lfsr`,
whose `assert(seed)` stops the process: the run aborts instead of reaching the
construction-failure branch.  Shown for the passwords `"*"` and `"a*"` with tap `0`. -/
theorem bad_password_aborts_main :
    base64_string_to_binary_string (List.replicate 8 NUL) "*".toList = Outcome.returned none ∧
    main_create_cipher (List.replicate 8 NUL) "*".toList 0 = Outcome.aborted ∧
    main_create_cipher (List.replicate 15 NUL) "a*".toList 0 = Outcome.aborted ∧
    create_lfsr_call none 0 = Outcome.aborted := by
  decide

/-! ## Theorems: reading and writing images -/

theorem store_pixels_eq (matrix_alloc : Bool) (mn : MAGIC_NUMBERS) (columns lines : Nat)
    (input : List Char) (line : Nat) :
    store_pixels matrix_alloc mn columns lines input line =
      if lines = 0 ∨ row_cells mn columns = 0 then Outcome.aborted
      else if matrix_alloc = false then Outcome.returned (-1, [])
      else
        match store_rows lines (row_cells mn columns) input line with
        | none => Outcome.returned (0, [])
        | some (pixels, _, _) => Outcome.returned (1, pixels) := by
  unfold store_pixels create_matrix
  by_cases h : lines = 0 ∨ row_cells mn columns = 0
  · rw [if_pos h, if_neg (by omega)]
  · rw [if_neg h, if_pos (by omega)]
    cases matrix_alloc <;> simp

theorem load_pnm_eq (env : LoadEnv) (filename extension content r1 : List Char) (line1 : Nat)
    (hext : get_file_extension filename = some extension) (hfile : env.file = some content)
    (halloc : env.image_alloc = true) (hgo : go_to_next_data content 1 = some (r1, line1)) :
    load_pnm env filename =
      if line1 > 1 then Outcome.returned (-3, none)
      else
        match scan_magic r1 with
        | none => Outcome.returned (-3, none)
        | some (token, r2) =>
          match resolve_magic token extension with
          | Except.error code => Outcome.returned (code, none)
          | Except.ok magicNumber => load_body env magicNumber r2 line1 := by
  unfold load_pnm
  simp only [hext, hfile, halloc, hgo, Bool.true_eq_false, if_false]

theorem load_pnm_no_token (env : LoadEnv) (filename extension content : List Char)
    (hext : get_file_extension filename = some extension) (hfile : env.file = some content)
    (halloc : env.image_alloc = true) (hgo : go_to_next_data content 1 = none) :
    load_pnm env filename = Outcome.returned (-3, none) := by
  unfold load_pnm
  simp only [hext, hfile, halloc, hgo, Bool.true_eq_false, if_false]

theorem scan_magic_two (a b : Char) (rest : List Char) (ha : a ≠ '#') (hb : b ≠ '#') :
    scan_magic (a :: b :: rest) = some ([a, b], rest) := by
  unfold scan_magic
  simp [List.takeWhile, ha, hb]

theorem resolve_magic_mismatch (token extension : List Char)
    (h : (token = "P1".toList ∧ extension ≠ "pbm".toList) ∨
      (token = "P2".toList ∧ extension ≠ "pgm".toList) ∨
      (token = "P3".toList ∧ extension ≠ "ppm".toList)) :
    resolve_magic token extension = Except.error (-2) := by
  have h12 : "P2".toList ≠ "P1".toList := by decide
  have h13 : "P3".toList ≠ "P1".toList := by decide
  have h23 : "P3".toList ≠ "P2".toList := by decide
  unfold resolve_magic
  rcases h with ⟨ht, he⟩ | ⟨ht, he⟩ | ⟨ht, he⟩
  · rw [ht, if_pos rfl, if_pos he]
  · rw [ht, if_neg h12, if_pos rfl, if_pos he]
  · rw [ht, if_neg h13, if_neg h23, if_pos rfl, if_pos he]

/-- C10: extension/magic cross-check.  For a readable file whose first token, found on
line 1, starts with the magic `P1`, `P2` or `P3`, `load_pnm` returns `-2` and no image
whenever the extension of the file name is not `"pbm"`, `"pgm"`, `"ppm"` respectively,
whatever bytes follow the magic token. -/
theorem extension_magic_mismatch (env : LoadEnv) (filename extension content rest : List Char)
    (d : Char) (line1 : Nat)
    (hext : get_file_extension filename = some extension) (hfile : env.file = some content)
    (halloc : env.image_alloc = true)
    (hgo : go_to_next_data content 1 = some ('P' :: d :: rest, line1)) (hline : line1 ≤ 1)
    (hmis : (d = '1' ∧ extension ≠ "pbm".toList) ∨ (d = '2' ∧ extension ≠ "pgm".toList) ∨
      (d = '3' ∧ extension ≠ "ppm".toList)) :
    load_pnm env filename = Outcome.returned (-2, none) := by
  have hd : d ≠ '#' := by
    rcases hmis with ⟨hd, _⟩ | ⟨hd, _⟩ | ⟨hd, _⟩ <;> rw [hd] <;> decide
  have hr : resolve_magic ['P', d] extension = Except.error (-2) := by
    apply resolve_magic_mismatch
    rcases hmis with ⟨hd, he⟩ | ⟨hd, he⟩ | ⟨hd, he⟩
    · exact Or.inl ⟨by rw [hd]; rfl, he⟩
    · exact Or.inr (Or.inl ⟨by rw [hd]; rfl, he⟩)
    · exact Or.inr (Or.inr ⟨by rw [hd]; rfl, he⟩)
  rw [load_pnm_eq env filename extension content _ line1 hext hfile halloc hgo,
    if_neg (by omega), scan_magic_two 'P' d rest (by decide) hd]
  simp only [hr]

/-- Witness for C10: magic `P1` in a file named `a.pgm` (the case of the test suite). -/
theorem extension_magic_mismatch_witness :
    load_pnm ⟨some "P1\n1 1\n1\n".toList, true, true, 0⟩ "a.pgm".toList
      = Outcome.returned (-2, none) :=
  extension_magic_mismatch ⟨some "P1\n1 1\n1\n".toList, true, true, 0⟩ "a.pgm".toList
    "pgm".toList "P1\n1 1\n1\n".toList "\n1 1\n1\n".toList '1' 1 (by decide) rfl rfl (by decide)
    (le_refl 1) (Or.inl ⟨rfl, by decide⟩)

theorem load_body_magicNumber (env : LoadEnv) (mn : MAGIC_NUMBERS) (input : List Char)
    (line : Nat) (code : Int) (img : PNM)
    (h : load_body env mn input line = Outcome.returned (code, some img)) :
    img.magicNumber = mn ∧ code = 0 := by
  unfold load_body at h
  split at h
  · exact absurd h (by simp)
  · split at h
    · exact absurd h (by simp)
    · split at h
      · exact absurd h (by simp)
      · split at h
        · exact absurd h (by simp)
        · exact absurd h (by simp)
        · split at h
          · exact absurd h (by simp)
          · simp only [Outcome.returned.injEq, Prod.mk.injEq, Option.some.injEq] at h
            obtain ⟨h1, h2⟩ := h
            rw [← h2]
            exact ⟨rfl, h1.symm⟩

theorem scan_magic_length (input token rest : List Char)
    (h : scan_magic input = some (token, rest)) : token.length ≤ 2 ∧ token ≠ [] := by
  unfold scan_magic at h
  split_ifs at h with he
  simp only [Option.some.injEq, Prod.mk.injEq] at h
  rw [← h.1]
  refine ⟨?_, he⟩
  have h1 := (List.takeWhile_sublist (l := input.take 2) (fun c => decide (c ≠ '#'))).length_le
  have h2 : (input.take 2).length ≤ 2 := by rw [List.length_take]; omega
  omega

/-- C13: magic mapping.  `load_pnm` reads, on line 1, a token of at most two characters;
the tokens `"P1"`, `"P2"`, `"P3"` (under the extensions `"pbm"`, `"pgm"`, `"ppm"`) lead to
an image whose `magicNumber` is `P1`, `P2`, `P3` respectively whenever an image is
returned; for every other token `load_pnm` returns `-3` and no image, whatever the
extension is and whatever follows the token. -/
theorem magic_mapping (env : LoadEnv) (filename extension content r1 token r2 : List Char)
    (line1 : Nat)
    (hext : get_file_extension filename = some extension) (hfile : env.file = some content)
    (halloc : env.image_alloc = true)
    (hgo : go_to_next_data content 1 = some (r1, line1)) (hline : line1 ≤ 1)
    (hm : scan_magic r1 = some (token, r2)) :
    token.length ≤ 2 ∧
    (token ≠ "P1".toList → token ≠ "P2".toList → token ≠ "P3".toList →
      load_pnm env filename = Outcome.returned (-3, none)) ∧
    (∀ code img, load_pnm env filename = Outcome.returned (code, some img) →
      (token = "P1".toList ∧ extension = "pbm".toList ∧ img.magicNumber = MAGIC_NUMBERS.P1) ∨
      (token = "P2".toList ∧ extension = "pgm".toList ∧ img.magicNumber = MAGIC_NUMBERS.P2) ∨
      (token = "P3".toList ∧ extension = "ppm".toList ∧ img.magicNumber = MAGIC_NUMBERS.P3)) := by
  have hl := load_pnm_eq env filename extension content r1 line1 hext hfile halloc hgo
  rw [if_neg (by omega)] at hl
  simp only [hm] at hl
  refine ⟨(scan_magic_length r1 token r2 hm).1, ?_, ?_⟩
  · intro h1 h2 h3
    rw [hl]
    unfold resolve_magic
    rw [if_neg h1, if_neg h2, if_neg h3]
  · intro code img hres
    rw [hl] at hres
    unfold resolve_magic at hres
    by_cases h1 : token = "P1".toList
    · rw [if_pos h1] at hres
      by_cases e1 : extension = "pbm".toList
      · rw [if_neg (not_not.2 e1)] at hres
        exact Or.inl ⟨h1, e1, (load_body_magicNumber _ _ _ _ _ _ hres).1⟩
      · rw [if_pos e1] at hres
        exact absurd hres (by simp)
    · rw [if_neg h1] at hres
      by_cases h2 : token = "P2".toList
      · rw [if_pos h2] at hres
        by_cases e2 : extension = "pgm".toList
        · rw [if_neg (not_not.2 e2)] at hres
          exact Or.inr (Or.inl ⟨h2, e2, (load_body_magicNumber _ _ _ _ _ _ hres).1⟩)
        · rw [if_pos e2] at hres
          exact absurd hres (by simp)
      · rw [if_neg h2] at hres
        by_cases h3 : token = "P3".toList
        · rw [if_pos h3] at hres
          by_cases e3 : extension = "ppm".toList
          · rw [if_neg (not_not.2 e3)] at hres
            exact Or.inr (Or.inr ⟨h3, e3, (load_body_magicNumber _ _ _ _ _ _ hres).1⟩)
          · rw [if_pos e3] at hres
            exact absurd hres (by simp)
        · rw [if_neg h3] at hres
          exact absurd hres (by simp)

/-- Witness for C13: the token `"P7"` in a file named `a.ppm`. -/
theorem magic_mapping_witness :
    load_pnm ⟨some "P7\n1 1\n255\n1 2 3\n".toList, true, true, 0⟩ "a.ppm".toList
      = Outcome.returned (-3, none) :=
  (magic_mapping ⟨some "P7\n1 1\n255\n1 2 3\n".toList, true, true, 0⟩ "a.ppm".toList
    "ppm".toList "P7\n1 1\n255\n1 2 3\n".toList "P7\n1 1\n255\n1 2 3\n".toList "P7".toList
    "\n1 1\n255\n1 2 3\n".toList 1 (by decide) rfl rfl (by decide) (le_refl 1) (by decide)).2.1
    (by decide) (by decide) (by decide)

/-- C16 (defect): `load_pnm` can end in a process abort.  The header parser accepts a
width or a height of `0`, and `store_pixels` passes them to `create_matrix`, whose
assertion `matrix_len > 0 && row_len > 0` fails: the files `"P1\n0 0\n"`,
`"P2\n0 1\n255\n"` and `"P3\n2 0\n255\n"` abort the process instead of giving a code. -/
theorem load_pnm_aborts_on_zero_dimension :
    load_pnm ⟨some "P1\n0 0\n".toList, true, true, 0⟩ "a.pbm".toList = Outcome.aborted ∧
    load_pnm ⟨some "P2\n0 1\n255\n".toList, true, true, 0⟩ "a.pgm".toList = Outcome.aborted ∧
    load_pnm ⟨some "P3\n2 0\n255\n".toList, true, true, 0⟩ "a.ppm".toList = Outcome.aborted ∧
    scan_two_unsigned "0 0\n".toList = some (0, 0, ['\n']) ∧
    create_matrix true 0 0 = Outcome.aborted ∧
    store_pixels true MAGIC_NUMBERS.P1 0 0 ['\n'] 2 = Outcome.aborted := by
  decide

/-- C17 (defect): when the allocation of the pixel matrix fails, `store_pixels` returns
`-1`, which `load_pnm` tests with `!store_pixels(...)` and so takes for a success:
`load_pnm` returns `0` with an image that has no pixel matrix, not `-1`. -/
theorem load_pnm_hides_allocation_failure :
    create_matrix false 1 2 = Outcome.returned false ∧
    store_pixels false MAGIC_NUMBERS.P2 2 1 "\n7 9\n".toList 3 = Outcome.returned (-1, []) ∧
    load_pnm ⟨some "P2\n2 1\n255\n7 9\n".toList, true, false, 0⟩ "a.pgm".toList
      = Outcome.returned (0, some ⟨MAGIC_NUMBERS.P2, 2, 1, 255, []⟩) ∧
    load_pnm ⟨some "P2\n2 1\n255\n7 9\n".toList, true, true, 0⟩ "a.pgm".toList
      = Outcome.returned (0, some ⟨MAGIC_NUMBERS.P2, 2, 1, 255, [[7, 9]]⟩) := by
  decide

/-- C11 (defect): a comment is skipped between the magic token and the width, between
the height and the maximum value, before the first sample and between two samples, but
not between the width and the height, which are read by one `fscanf("%u %u")` with no
call of `go_to_next_data` in between: there the comment makes `load_pnm` return `-3`. -/
theorem comment_between_width_and_height_rejected :
    load_pnm ⟨some "P2\n2 1\n255\n7 9\n".toList, true, true, 0⟩ "a.pgm".toList
      = Outcome.returned (0, some ⟨MAGIC_NUMBERS.P2, 2, 1, 255, [[7, 9]]⟩) ∧
    load_pnm ⟨some "P2\n2 # width\n1\n255\n7 9\n".toList, true, true, 0⟩ "a.pgm".toList
      = Outcome.returned (-3, none) ∧
    load_pnm ⟨some "P2\n# a\n2 1\n# b\n255\n# c\n7 # d\n9\n".toList, true, true, 0⟩
        "a.pgm".toList
      = Outcome.returned (0, some ⟨MAGIC_NUMBERS.P2, 2, 1, 255, [[7, 9]]⟩) := by
  decide

theorem count_newlines_append (a b : List Char) :
    count_newlines (a ++ b) = count_newlines a + count_newlines b := by
  induction a with
  | nil => simp [count_newlines]
  | cons c cs ih => rw [List.cons_append, count_newlines, count_newlines, ih]; omega

theorem count_newlines_body (body : List Char) (h : ∀ c ∈ body, c ≠ '\n' ∧ c ≠ '\r') :
    count_newlines body = 0 := by
  induction body with
  | nil => rfl
  | cons c cs ih =>
    have hc := h c (List.mem_cons_self _ _)
    have hn : ¬(c = '\n' ∨ c = '\r') := by
      rintro (e | e)
      · exact hc.1 e
      · exact hc.2 e
    rw [count_newlines, if_neg hn, ih (fun x hx => h x (List.mem_cons_of_mem _ hx))]

theorem newline_not_graph (c : Char) (h : c = '\n' ∨ c = '\r') :
    isgraph c = false ∧ c.toNat < 128 ∧ c ≠ '#' := by
  rcases h with e | e <;> subst e <;> decide

theorem go_aux_false_cons (c : Char) (cs : List Char) (line : Nat) :
    go_to_next_data_aux false (c :: cs) line =
      if 128 ≤ c.toNat then none
      else if isgraph c then
        if c = '#' then go_to_next_data_aux true cs line
        else some (c :: cs, line)
      else
        go_to_next_data_aux false cs
          (if c = '\n' ∨ c = '\r' then (line + 1) % 4294967296 else line) := by
  rw [go_to_next_data_aux]

theorem go_aux_true_cons (c : Char) (cs : List Char) (line : Nat) :
    go_to_next_data_aux true (c :: cs) line =
      if 128 ≤ c.toNat then none
      else if c = '\n' ∨ c = '\r' then
        go_to_next_data_aux false cs ((line + 1) % 4294967296)
      else go_to_next_data_aux true cs line := by
  rw [go_to_next_data_aux]

theorem go_aux_comment_body (body : List Char) (t : Char) (rest : List Char)
    (hb : ∀ c ∈ body, c ≠ '\n' ∧ c ≠ '\r') (ha : ∀ c ∈ body, c.toNat < 128)
    (ht : t = '\n' ∨ t = '\r') (line : Nat) :
    go_to_next_data_aux true (body ++ t :: rest) line
      = go_to_next_data_aux false rest ((line + 1) % 4294967296) := by
  induction body with
  | nil =>
    have h := newline_not_graph t ht
    rw [List.nil_append, go_aux_true_cons, if_neg (by omega), if_pos ht]
  | cons c cs ih =>
    have hc := hb c (List.mem_cons_self _ _)
    have hn : ¬(c = '\n' ∨ c = '\r') := by
      rintro (e | e)
      · exact hc.1 e
      · exact hc.2 e
    have h128 := ha c (List.mem_cons_self _ _)
    rw [List.cons_append, go_aux_true_cons, if_neg (by omega), if_neg hn,
      ih (fun x hx => hb x (List.mem_cons_of_mem _ hx))
        (fun x hx => ha x (List.mem_cons_of_mem _ hx))]

theorem go_aux_skipped (skipped : List Char) (hs : Skipped skipped) :
    ∀ (c : Char) (tl : List Char) (line : Nat), (∀ x ∈ skipped, x.toNat < 128) →
      c.toNat < 128 → isgraph c = true → c ≠ '#' → line < 4294967296 →
      go_to_next_data_aux false (skipped ++ c :: tl) line
        = some (c :: tl, (line + count_newlines skipped) % 4294967296) := by
  induction hs with
  | nil =>
    intro c tl line _ hc hg hne hl
    rw [List.nil_append, go_aux_false_cons, if_neg (by omega), if_pos hg, if_neg hne]
    simp only [count_newlines, Nat.add_zero, Nat.mod_eq_of_lt hl]
  | blank b s hb _ ih =>
    intro c tl line ha hc hg hne hl
    have hb128 := ha b (List.mem_cons_self _ _)
    rw [List.cons_append, go_aux_false_cons, if_neg (by omega), hb]
    simp only [Bool.false_eq_true, if_false]
    rw [ih c tl _ (fun x hx => ha x (List.mem_cons_of_mem _ hx)) hc hg hne
      (by split_ifs <;> omega)]
    simp only [count_newlines]
    congr 2
    split_ifs <;> omega
  | comment body t s hbody ht _ ih =>
    intro c tl line ha hc hg hne hl
    have hba : ∀ x ∈ body, x.toNat < 128 := fun x hx =>
      ha x (List.mem_cons_of_mem _ (List.mem_append_left _ hx))
    have hsa : ∀ x ∈ s, x.toNat < 128 := fun x hx =>
      ha x (List.mem_cons_of_mem _ (List.mem_append_right _ (List.mem_cons_of_mem _ hx)))
    have hsharp : isgraph '#' = true := by decide
    have h35 : ¬ 128 ≤ '#'.toNat := by decide
    have hsn : ¬('#' = '\n' ∨ '#' = '\r') := by decide
    rw [List.cons_append, go_aux_false_cons, if_neg h35, if_pos hsharp, if_pos rfl,
      List.append_assoc, List.cons_append, go_aux_comment_body body t _ hbody hba ht,
      ih c tl _ hsa hc hg hne (Nat.mod_lt _ (by norm_num))]
    simp only [count_newlines, if_neg hsn, count_newlines_append, if_pos ht,
      count_newlines_body body hbody]
    congr 2
    omega

theorem go_aux_nil (b : Bool) (line : Nat) : go_to_next_data_aux b [] line = none := by
  cases b <;> rfl

theorem go_aux_some (input : List Char) :
    (∀ line rest line2, line < 4294967296 →
      go_to_next_data_aux false input line = some (rest, line2) →
      ∃ skipped c tl, input = skipped ++ c :: tl ∧ rest = c :: tl ∧ Skipped skipped ∧
        isgraph c = true ∧ c ≠ '#' ∧
        line2 = (line + count_newlines skipped) % 4294967296) ∧
    (∀ line rest line2, line < 4294967296 →
      go_to_next_data_aux true input line = some (rest, line2) →
      ∃ body t s c tl, input = body ++ t :: (s ++ c :: tl) ∧ rest = c :: tl ∧
        (∀ x ∈ body, x ≠ '\n' ∧ x ≠ '\r') ∧ (t = '\n' ∨ t = '\r') ∧ Skipped s ∧
        isgraph c = true ∧ c ≠ '#' ∧
        line2 = (line + 1 + count_newlines s) % 4294967296) := by
  induction input with
  | nil =>
    constructor
    · intro line rest line2 _ h
      rw [go_aux_nil] at h
      exact Option.noConfusion h
    · intro line rest line2 _ h
      rw [go_aux_nil] at h
      exact Option.noConfusion h
  | cons c cs ih =>
    obtain ⟨ih1, ih2⟩ := ih
    constructor
    · intro line rest line2 hl h
      rw [go_aux_false_cons] at h
      by_cases h128 : 128 ≤ c.toNat
      · rw [if_pos h128] at h
        exact Option.noConfusion h
      · rw [if_neg h128] at h
        by_cases hg : isgraph c = true
        · rw [if_pos hg] at h
          by_cases hs : c = '#'
          · rw [if_pos hs] at h
            obtain ⟨body, t, s, c2, tl, e1, e2, hb, ht, hsk, hg2, hne, hline⟩ :=
              ih2 line rest line2 hl h
            refine ⟨'#' :: (body ++ t :: s), c2, tl, ?_, e2, Skipped.comment body t s hb ht hsk,
              hg2, hne, ?_⟩
            · rw [hs, e1]
              simp only [List.cons_append, List.append_assoc]
            · have hsn : ¬('#' = '\n' ∨ '#' = '\r') := by decide
              rw [hline]
              simp only [count_newlines, if_neg hsn, count_newlines_append, if_pos ht,
                count_newlines_body body hb]
              congr 1
              omega
          · rw [if_neg hs] at h
            simp only [Option.some.injEq, Prod.mk.injEq] at h
            refine ⟨[], c, cs, rfl, h.1.symm, Skipped.nil, hg, hs, ?_⟩
            rw [← h.2]
            simp only [count_newlines, Nat.add_zero, Nat.mod_eq_of_lt hl]
        · rw [if_neg hg] at h
          have hg2 : isgraph c = false := by simpa using hg
          obtain ⟨skipped, c2, tl, e1, e2, hsk, hg3, hne, hline⟩ :=
            ih1 _ rest line2 (by split_ifs <;> omega) h
          refine ⟨c :: skipped, c2, tl, by rw [e1]; rfl, e2, Skipped.blank c skipped hg2 hsk,
            hg3, hne, ?_⟩
          rw [hline]
          simp only [count_newlines]
          split_ifs <;> omega
    · intro line rest line2 hl h
      rw [go_aux_true_cons] at h
      by_cases h128 : 128 ≤ c.toNat
      · rw [if_pos h128] at h
        exact Option.noConfusion h
      · rw [if_neg h128] at h
        by_cases hn : c = '\n' ∨ c = '\r'
        · rw [if_pos hn] at h
          obtain ⟨skipped, c2, tl, e1, e2, hsk, hg3, hne, hline⟩ :=
            ih1 _ rest line2 (Nat.mod_lt _ (by norm_num)) h
          refine ⟨[], c, skipped, c2, tl, by rw [e1]; rfl, e2, ?_, hn, hsk, hg3, hne, ?_⟩
          · intro x hx
            simp at hx
          · rw [hline]
            omega
        · rw [if_neg hn] at h
          obtain ⟨body, t, s, c2, tl, e1, e2, hb, ht, hsk, hg2, hne, hline⟩ :=
            ih2 line rest line2 hl h
          refine ⟨c :: body, t, s, c2, tl, by rw [e1]; rfl, e2, ?_, ht, hsk, hg2, hne, hline⟩
          intro x hx
          rw [List.mem_cons] at hx
          rcases hx with e | hm
          · rw [e]
            exact ⟨fun e1 => hn (Or.inl e1), fun e2 => hn (Or.inr e2)⟩
          · exact hb x hm

/-- C24: tokenizer postcondition.  On an ASCII input `go_to_next_data` (a total
function: it terminates however many comment lines follow one another) succeeds exactly
when the input is a text of non-graphic characters and complete comments followed by a
graphic character other than `'#'`; that character is then the next one to be read and
the line counter, an `unsigned int`, has advanced by the number of `'\n'` and `'\r'`
skipped; otherwise, the end of input being reached first, also inside an unfinished
comment, it fails. -/
theorem go_to_next_data_spec (input : List Char) (line : Nat)
    (hascii : ∀ c ∈ input, c.toNat < 128) (hline : line < 4294967296) :
    (∀ rest line2, go_to_next_data input line = some (rest, line2) ↔
      ∃ skipped c tl, input = skipped ++ c :: tl ∧ rest = c :: tl ∧ Skipped skipped ∧
        isgraph c = true ∧ c ≠ '#' ∧
        line2 = (line + count_newlines skipped) % 4294967296) ∧
    (go_to_next_data input line = none ↔
      ¬ ∃ skipped c tl, input = skipped ++ c :: tl ∧ Skipped skipped ∧
        isgraph c = true ∧ c ≠ '#') ∧
    (∀ rest line2, go_to_next_data input line = some (rest, line2) →
      line + input.length < 4294967296 →
      ∃ skipped, input = skipped ++ rest ∧ line2 = line + count_newlines skipped) := by
  have key : ∀ skipped c tl, input = skipped ++ c :: tl → Skipped skipped →
      isgraph c = true → c ≠ '#' →
      go_to_next_data input line
        = some (c :: tl, (line + count_newlines skipped) % 4294967296) := by
    intro skipped c tl e hsk hg hne
    unfold go_to_next_data
    rw [e]
    apply go_aux_skipped skipped hsk c tl line _ _ hg hne hline
    · intro x hx
      exact hascii x (by rw [e]; exact List.mem_append_left _ hx)
    · exact hascii c (by rw [e]; simp)
  have count_le : ∀ s : List Char, count_newlines s ≤ s.length := by
    intro s
    induction s with
    | nil => exact le_refl _
    | cons c cs ih =>
      rw [count_newlines, List.length_cons]
      split_ifs <;> omega
  refine ⟨?_, ?_, ?_⟩
  · intro rest line2
    constructor
    · intro h
      exact (go_aux_some input).1 line rest line2 hline h
    · rintro ⟨skipped, c, tl, e1, e2, hsk, hg, hne, hl2⟩
      rw [key skipped c tl e1 hsk hg hne, e2, hl2]
  · constructor
    · intro h
      rintro ⟨skipped, c, tl, e1, hsk, hg, hne⟩
      rw [key skipped c tl e1 hsk hg hne] at h
      exact Option.noConfusion h
    · intro h
      cases hr : go_to_next_data input line with
      | none => rfl
      | some p =>
        obtain ⟨skipped, c, tl, e1, _, hsk, hg, hne, _⟩ :=
          (go_aux_some input).1 line p.1 p.2 hline hr
        exact absurd ⟨skipped, c, tl, e1, hsk, hg, hne⟩ h
  · intro rest line2 h hlen
    obtain ⟨skipped, c, tl, e1, e2, _, _, _, hl2⟩ :=
      (go_aux_some input).1 line rest line2 hline h
    refine ⟨skipped, by rw [e1, e2], ?_⟩
    have h1 := count_le skipped
    have h2 : skipped.length ≤ input.length := by
      rw [e1, List.length_append]; omega
    rw [hl2]
    omega

/-- Witness for C24: a blank, two comment lines and a token. -/
theorem go_to_next_data_spec_witness :
    go_to_next_data " # a\n#b\r\n 12 3".toList 1 = some ("12 3".toList, 4) ∧
    (go_to_next_data " # a\n#b\r\n 12 3".toList 1 = none ↔
      ¬ ∃ skipped c tl, " # a\n#b\r\n 12 3".toList = skipped ++ c :: tl ∧ Skipped skipped ∧
        isgraph c = true ∧ c ≠ '#') :=
  ⟨by decide,
   (go_to_next_data_spec " # a\n#b\r\n 12 3".toList 1 (by decide) (by decide)).2.1⟩

theorem skipped_newlines (n : Nat) :
    Skipped (List.replicate n '\n') ∧ count_newlines (List.replicate n '\n') = n ∧
      ∀ x ∈ List.replicate n '\n', x.toNat < 128 := by
  induction n with
  | zero =>
    refine ⟨Skipped.nil, rfl, ?_⟩
    intro x hx
    simp at hx
  | succ n ih =>
    obtain ⟨h1, h2, h3⟩ := ih
    rw [List.replicate_succ]
    refine ⟨Skipped.blank '\n' _ (by decide) h1, ?_, ?_⟩
    · rw [count_newlines, if_pos (Or.inl rfl), h2]; omega
    · intro x hx
      rw [List.mem_cons] at hx
      rcases hx with e | hm
      · rw [e]; decide
      · exact h3 x hm

theorem go_to_next_data_none (input : List Char) (line : Nat) (hline : line < 4294967296)
    (h : ¬ ∃ skipped c tl, input = skipped ++ c :: tl ∧ Skipped skipped ∧
      isgraph c = true ∧ c ≠ '#') : go_to_next_data input line = none := by
  cases hr : go_to_next_data input line with
  | none => rfl
  | some p =>
    obtain ⟨skipped, c, tl, e1, _, hsk, hg, hne, _⟩ :=
      (go_aux_some input).1 line p.1 p.2 hline hr
    exact absurd ⟨skipped, c, tl, e1, hsk, hg, hne⟩ h

/-- C12 (as stated, refuted): a file that starts with `2 ^ 32 - 1` newlines followed by
`"P1\n1 1\n1\n"`, named `a.pbm`, has line terminators consumed before its first token,
yet `load_pnm` returns `0` with an image: the line counter is an `unsigned int`, it has
wrapped to `0` when the token is found and the test `breakPointLine > 1` is false. -/
theorem magic_after_wrapped_line_counter_accepted :
    count_newlines (List.replicate 4294967295 '\n') = 4294967295 ∧
    load_pnm ⟨some (List.replicate 4294967295 '\n' ++ "P1\n1 1\n1\n".toList), true, true, 0⟩
        "a.pbm".toList
      = Outcome.returned (0, some ⟨MAGIC_NUMBERS.P1, 1, 1, 0, [[1]]⟩) := by
  obtain ⟨h1, h2, h3⟩ := skipped_newlines 4294967295
  refine ⟨h2, ?_⟩
  have hgo : go_to_next_data (List.replicate 4294967295 '\n' ++ "P1\n1 1\n1\n".toList) 1
      = some ("P1\n1 1\n1\n".toList, 0) := by
    unfold go_to_next_data
    have h := go_aux_skipped _ h1 'P' "1\n1 1\n1\n".toList 1 h3 (by decide) (by decide)
      (by decide) (by decide)
    rw [h2] at h
    exact h
  rw [load_pnm_eq _ "a.pbm".toList "pbm".toList _ _ 0 (by decide) rfl rfl hgo]
  decide

/-- C12 (amended): for a readable file in which at least one and fewer than
`2 ^ 32 - 1` line terminators (`'\n'` or `'\r'`) are consumed before the first token is
found (a leading blank line, or a leading comment line before the magic token), and for
a file with no token at all, `load_pnm` returns `-3` and no image. -/
theorem magic_not_on_first_line (env : LoadEnv) (filename extension content : List Char)
    (hext : get_file_extension filename = some extension) (hfile : env.file = some content)
    (halloc : env.image_alloc = true) :
    (go_to_next_data content 1 = none → load_pnm env filename = Outcome.returned (-3, none)) ∧
    ((¬ ∃ skipped c tl, content = skipped ++ c :: tl ∧ Skipped skipped ∧
        isgraph c = true ∧ c ≠ '#') →
      load_pnm env filename = Outcome.returned (-3, none)) ∧
    (∀ skipped c tl, content = skipped ++ c :: tl → Skipped skipped →
      (∀ x ∈ skipped, x.toNat < 128) → c.toNat < 128 → isgraph c = true → c ≠ '#' →
      0 < count_newlines skipped → count_newlines skipped < 4294967295 →
      load_pnm env filename = Outcome.returned (-3, none)) := by
  refine ⟨?_, ?_, ?_⟩
  · intro h
    exact load_pnm_no_token env filename extension content hext hfile halloc h
  · intro hno
    apply load_pnm_no_token env filename extension content hext hfile halloc
    exact go_to_next_data_none content 1 (by norm_num) hno
  · intro skipped c tl e hsk ha hc hg hne h0 h1
    have hgo : go_to_next_data content 1
        = some (c :: tl, (1 + count_newlines skipped) % 4294967296) := by
      unfold go_to_next_data
      rw [e]
      exact go_aux_skipped skipped hsk c tl 1 ha hc hg hne (by norm_num)
    rw [load_pnm_eq env filename extension content _ _ hext hfile halloc hgo, if_pos (by omega)]

/-- Witness for C12 (amended): a comment line before the magic token. -/
theorem magic_not_on_first_line_witness :
    go_to_next_data "# c\nP3\n".toList 1 = some ("P3\n".toList, 2) ∧
    load_pnm ⟨some "# c\nP3\n".toList, true, true, 0⟩ "a.ppm".toList
      = Outcome.returned (-3, none) :=
  ⟨by decide,
   (magic_not_on_first_line ⟨some "# c\nP3\n".toList, true, true, 0⟩ "a.ppm".toList
      "ppm".toList "# c\nP3\n".toList (by decide) rfl rfl).2.2 "# c\n".toList 'P' "3\n".toList
      (by decide) (Skipped.comment " c".toList '\n' [] (by decide) (Or.inl rfl) Skipped.nil)
      (by decide) (by decide) (by decide) (by decide) (by decide) (by decide)⟩

theorem forbidden_loop_iff (c : Char) (l : List Char) : forbidden_loop c l = true ↔ c ∈ l := by
  induction l with
  | nil => simp [forbidden_loop]
  | cons f fs ih =>
    rw [forbidden_loop, List.mem_cons]
    by_cases h : c = f
    · simp [h]
    · rw [if_neg h, ih]
      simp [h]

theorem check_loop_spec (cs : List Char) : ∀ ext : Nat,
    (check_loop cs.length cs ext = 1 ↔
      (cs.count '.' + (if ext ≠ 0 then 1 else 0) ≤ 1 ∧
        ∀ c ∈ cs, c ∉ forbidenCharactersInFiles)) ∧
    (check_loop cs.length cs ext = 1 ∨ check_loop cs.length cs ext = 0) := by
  induction cs with
  | nil =>
    intro ext
    rw [List.length_nil, check_loop]
    refine ⟨?_, Or.inl rfl⟩
    simp only [List.count_nil, List.not_mem_nil, false_imp_iff, implies_true, and_true, true_iff]
    split_ifs <;> omega
  | cons c cs ih =>
    intro ext
    rw [List.length_cons, check_loop]
    by_cases h1 : c = '.' ∧ ext ≠ 0
    · rw [if_pos h1]
      refine ⟨?_, Or.inr rfl⟩
      simp only [zero_ne_one, false_iff, not_and]
      intro hcount
      rw [h1.1, List.count_cons_self, if_pos h1.2] at hcount
      omega
    · rw [if_neg h1]
      by_cases h2 : forbidden_loop c forbidenCharactersInFiles = true
      · rw [if_pos h2]
        refine ⟨?_, Or.inr rfl⟩
        simp only [zero_ne_one, false_iff, not_and]
        intro _ hall
        exact hall c (List.mem_cons_self _ _) ((forbidden_loop_iff c _).1 h2)
      · rw [if_neg h2]
        obtain ⟨ih1, ih2⟩ := ih (if c = '.' then 1 else ext)
        refine ⟨?_, ih2⟩
        rw [ih1]
        have hc : c ∉ forbidenCharactersInFiles := fun hm => h2 ((forbidden_loop_iff c _).2 hm)
        simp only [List.mem_cons, forall_eq_or_imp, hc, not_false_eq_true, true_and]
        apply and_congr_left
        intro _
        by_cases hd : c = '.'
        · have he : ext = 0 := by
            by_contra hne
            exact h1 ⟨hd, hne⟩
          rw [hd, List.count_cons_self, he]
          simp
        · simp [List.count_cons, hd]

/-- C22 (as stated, refuted): the name made of `2 ^ 32` characters `'/'` holds forbidden
characters, yet `check_file_name` returns `1`: the length is stored in an
`unsigned int`, here `0`, and no character is examined. -/
theorem check_file_name_accepts_name_of_length_two_pow_32 :
    '/' ∈ List.replicate 4294967296 '/' ∧ '/' ∈ forbidenCharactersInFiles ∧
    check_file_name (List.replicate 4294967296 '/') = 1 := by
  refine ⟨?_, by decide, ?_⟩
  · rw [List.mem_replicate]
    exact ⟨by norm_num, rfl⟩
  · have e : (4294967296 % 4294967296 : Nat) = 0 := by norm_num
    unfold check_file_name
    rw [List.length_replicate, e, check_loop]

/-- C22 (amended): for a file name shorter than `2 ^ 32` characters, `check_file_name`
returns `1` if and only if the name holds at most one `'.'` and none of the forbidden
characters `/ \ : * ? " < > |`, and returns `0` otherwise; `"img.pgm"` is accepted,
`"img.pg.m"`, `"img*.pgm"` and `"../badPath.ppm"` are rejected, and `write_pnm` returns
`-1` for a rejected name without opening a file. -/
theorem check_file_name_spec (fileName : List Char) (hlen : fileName.length < 4294967296) :
    (check_file_name fileName = 1 ↔
      (fileName.count '.' ≤ 1 ∧ ∀ c ∈ fileName, c ∉ forbidenCharactersInFiles)) ∧
    (check_file_name fileName = 1 ∨ check_file_name fileName = 0) ∧
    check_file_name "img.pgm".toList = 1 ∧ check_file_name "img.pg.m".toList = 0 ∧
    check_file_name "img*.pgm".toList = 0 ∧ check_file_name "../badPath.ppm".toList = 0 ∧
    (check_file_name fileName = 0 → ∀ (fopen_ok : Bool) (image : PNM),
      write_pnm fopen_ok image fileName = (-1, none)) := by
  have e : fileName.length % 4294967296 = fileName.length := Nat.mod_eq_of_lt hlen
  obtain ⟨h1, h2⟩ := check_loop_spec fileName 0
  refine ⟨?_, ?_, by decide, by decide, by decide, by decide, ?_⟩
  · unfold check_file_name
    rw [e, h1]
    simp
  · unfold check_file_name
    rw [e]
    exact h2
  · intro h0 fopen_ok image
    unfold write_pnm
    rw [if_pos h0]

/-- Witness for C22 (amended): the rejected name of the test suite. -/
theorem check_file_name_spec_witness :
    "../badPath.ppm".toList.length < 4294967296 ∧
    (check_file_name "../badPath.ppm".toList = 1 ∨ check_file_name "../badPath.ppm".toList = 0) :=
  ⟨by decide, (check_file_name_spec "../badPath.ppm".toList (by decide)).2.1⟩

theorem scan_unsigned_lt (input rest : List Char) (v : Nat)
    (h : scan_unsigned input = some (v, rest)) : v < 4294967296 := by
  unfold scan_unsigned at h
  simp only at h
  split_ifs at h <;>
    first
      | exact Option.noConfusion h
      | (simp only [Option.some.injEq, Prod.mk.injEq] at h
         rw [← h.1]
         exact Nat.mod_lt _ (by norm_num))

theorem scan_two_unsigned_lt (input rest : List Char) (a b : Nat)
    (h : scan_two_unsigned input = some (a, b, rest)) : a < 4294967296 ∧ b < 4294967296 := by
  unfold scan_two_unsigned at h
  cases h1 : scan_unsigned input with
  | none => rw [h1] at h; exact Option.noConfusion h
  | some p1 =>
    obtain ⟨x, r⟩ := p1
    rw [h1] at h
    simp only at h
    cases h2 : scan_unsigned r with
    | none => rw [h2] at h; exact Option.noConfusion h
    | some p2 =>
      obtain ⟨y, r2⟩ := p2
      rw [h2] at h
      simp only [Option.some.injEq, Prod.mk.injEq] at h
      rw [← h.1, ← h.2.1]
      exact ⟨scan_unsigned_lt _ _ _ h1, scan_unsigned_lt _ _ _ h2⟩

theorem store_row_succ (fuel : Nat) (input : List Char) (line : Nat) :
    store_row (fuel + 1) input line =
      match go_to_next_data input line with
      | none => none
      | some (rest, line2) =>
        match scan_unsigned rest with
        | none => none
        | some (v, rest2) =>
          match store_row fuel rest2 line2 with
          | none => none
          | some (vs, rest3, line3) => some (v :: vs, rest3, line3) := by
  rw [store_row]

theorem store_row_add (a : Nat) : ∀ (b : Nat) (input : List Char) (line : Nat),
    store_row (a + b) input line =
      match store_row a input line with
      | none => none
      | some (vs, rest, line2) =>
        match store_row b rest line2 with
        | none => none
        | some (ws, rest2, line3) => some (vs ++ ws, rest2, line3) := by
  induction a with
  | zero =>
    intro b input line
    rw [Nat.zero_add]
    simp only [store_row, List.nil_append]
    cases store_row b input line with
    | none => rfl
    | some p => rfl
  | succ a ih =>
    intro b input line
    have e : a + 1 + b = (a + b) + 1 := by omega
    rw [e, store_row_succ, store_row_succ]
    cases h1 : go_to_next_data input line with
    | none => rfl
    | some p1 =>
      obtain ⟨r1, l1⟩ := p1
      simp only
      cases h2 : scan_unsigned r1 with
      | none => rfl
      | some p2 =>
        obtain ⟨v, r2⟩ := p2
        simp only
        rw [ih b r2 l1]
        cases h3 : store_row a r2 l1 with
        | none => rfl
        | some p3 =>
          obtain ⟨vs, r3, l3⟩ := p3
          simp only
          cases h4 : store_row b r3 l3 with
          | none => rfl
          | some p4 =>
            obtain ⟨ws, r4, l4⟩ := p4
            simp only [List.cons_append]

theorem store_rows_succ (fuel c : Nat) (input : List Char) (line : Nat) :
    store_rows (fuel + 1) c input line =
      match store_row c input line with
      | none => none
      | some (row, rest, line2) =>
        match store_rows fuel c rest line2 with
        | none => none
        | some (rows, rest2, line3) => some (row :: rows, rest2, line3) := by
  rw [store_rows]

theorem store_rows_flat (h : Nat) (c : Nat) : ∀ (input : List Char) (line : Nat),
    (store_rows h c input line).map (fun p => (p.1.flatten, p.2))
      = store_row (h * c) input line := by
  induction h with
  | zero =>
    intro input line
    rw [Nat.zero_mul]
    simp only [store_rows, store_row, Option.map_some', List.flatten_nil]
  | succ h ih =>
    intro input line
    have e : (h + 1) * c = c + h * c := by ring
    rw [e, store_row_add, store_rows_succ]
    cases h1 : store_row c input line with
    | none => rfl
    | some p1 =>
      obtain ⟨row, r1, l1⟩ := p1
      simp only
      rw [← ih r1 l1]
      cases h2 : store_rows h c r1 l1 with
      | none => rfl
      | some p2 =>
        obtain ⟨rows, r2, l2⟩ := p2
        simp only [Option.map_some', List.flatten_cons]

theorem store_rows_none_iff (h c : Nat) (input : List Char) (line : Nat) :
    store_rows h c input line = none ↔ store_row (h * c) input line = none := by
  rw [← store_rows_flat]
  cases store_rows h c input line <;> simp

theorem load_body_eq (env : LoadEnv) (mn : MAGIC_NUMBERS) (input r1 r2 r5 : List Char)
    (line line1 line3 w h maxv : Nat)
    (hgo : go_to_next_data input line = some (r1, line1))
    (hdim : scan_two_unsigned r1 = some (w, h, r2))
    (hmax : load_max env.junk mn r2 line1 = some (maxv, r5, line3)) :
    load_body env mn input line =
      match store_pixels env.matrix_alloc mn w h r5 line3 with
      | Outcome.aborted => Outcome.aborted
      | Outcome.undefined => Outcome.undefined
      | Outcome.returned (code, pixels) =>
        if code = 0 then Outcome.returned (-3, none)
        else Outcome.returned (0, some
          { magicNumber := mn, columns := w, lines := h,
            maxPossibleValue := maxv, pixels := pixels }) := by
  unfold load_body
  simp only [hgo, hdim, hmax]

theorem load_pnm_header (env : LoadEnv) (filename extension content r0 token r1 : List Char)
    (line0 : Nat) (mn : MAGIC_NUMBERS)
    (hext : get_file_extension filename = some extension) (hfile : env.file = some content)
    (halloc : env.image_alloc = true)
    (hgo : go_to_next_data content 1 = some (r0, line0)) (hline : line0 ≤ 1)
    (hmagic : scan_magic r0 = some (token, r1))
    (hres : resolve_magic token extension = Except.ok mn) :
    load_pnm env filename = load_body env mn r1 line0 := by
  rw [load_pnm_eq env filename extension content r0 line0 hext hfile halloc hgo,
    if_neg (by omega)]
  simp only [hmagic, hres]

theorem row_cells_pos (mn : MAGIC_NUMBERS) (w : Nat) (h0 : 0 < w) (h1 : w < 4294967296) :
    row_cells mn w ≠ 0 := by
  unfold row_cells
  split_ifs
  · intro h
    have hd : 4294967296 ∣ w * 3 := Nat.dvd_of_mod_eq_zero h
    have hc : Nat.Coprime 4294967296 3 := by norm_num
    have hw : 4294967296 ∣ w := hc.dvd_of_dvd_mul_right hd
    exact absurd (Nat.le_of_dvd h0 hw) (Nat.not_le.2 h1)
  · exact Nat.pos_iff_ne_zero.1 h0

theorem store_row_fails (k n : Nat) (hk : k < n) (input rest : List Char) (line linek : Nat)
    (vs : List Nat) (hread : store_row k input line = some (vs, rest, linek))
    (hfail : go_to_next_data rest linek = none ∨
      ∃ r l, go_to_next_data rest linek = some (r, l) ∧ scan_unsigned r = none) :
    store_row n input line = none := by
  have e : n = k + ((n - k - 1) + 1) := by omega
  rw [e, store_row_add, hread]
  simp only
  rw [store_row_succ]
  rcases hfail with h | ⟨r, l, h1, h2⟩
  · rw [h]
  · rw [h1]
    simp only [h2]

/-- C14 (as stated, refuted): the file `"P3\n1431655766 1\n255\n1 2\n"`, named `a.ppm`,
has a valid header with `W = 1431655766`, `H = 1`, and holds two samples only, far fewer
than `H * 3 * W`: a third sample cannot be read.  Yet `load_pnm` returns `0` with an
image, because the number of cells of a line is computed in `unsigned int` arithmetic:
`3 * W` wraps to `2`. -/
theorem truncated_data_accepted_when_row_length_wraps :
    load_pnm ⟨some "P3\n1431655766 1\n255\n1 2\n".toList, true, true, 0⟩ "a.ppm".toList
      = Outcome.returned (0, some ⟨MAGIC_NUMBERS.P3, 1431655766, 1, 255, [[1, 2]]⟩) ∧
    store_row 2 "\n1 2\n".toList 3 = some ([1, 2], ['\n'], 4) ∧
    go_to_next_data ['\n'] 4 = none ∧
    2 < 1 * (3 * 1431655766) ∧
    row_cells MAGIC_NUMBERS.P3 1431655766 = 2 := by
  decide

/-- C14 (amended): truncated or malformed pixel data.  For a file with a valid magic
token on line 1, a matching extension and a valid header (width `W > 0`, height
`H > 0`, maximum value for `P2`/`P3`), when the matrix is allocated and, after `k`
samples read with `k < H * C`, the end of input or a token that is not a number is met
(`C = W`, or `3 * W` reduced modulo `2 ^ 32` for `P3`), `load_pnm` returns `-3` and no
image. -/
theorem truncated_pixel_data (env : LoadEnv)
    (filename extension content r0 token r1 r2 r3 r5 rest : List Char)
    (line0 line2 line3 linek w h maxv k : Nat) (mn : MAGIC_NUMBERS) (vs : List Nat)
    (hext : get_file_extension filename = some extension) (hfile : env.file = some content)
    (halloc : env.image_alloc = true) (hmatrix : env.matrix_alloc = true)
    (hgo : go_to_next_data content 1 = some (r0, line0)) (hline : line0 ≤ 1)
    (hmagic : scan_magic r0 = some (token, r1))
    (hres : resolve_magic token extension = Except.ok mn)
    (hgo2 : go_to_next_data r1 line0 = some (r2, line2))
    (hdim : scan_two_unsigned r2 = some (w, h, r3)) (hw : 0 < w) (hh : 0 < h)
    (hmax : load_max env.junk mn r3 line2 = some (maxv, r5, line3))
    (hk : k < h * row_cells mn w)
    (hread : store_row k r5 line3 = some (vs, rest, linek))
    (hfail : go_to_next_data rest linek = none ∨
      ∃ r l, go_to_next_data rest linek = some (r, l) ∧ scan_unsigned r = none) :
    load_pnm env filename = Outcome.returned (-3, none) ∧
    (mn ≠ MAGIC_NUMBERS.P3 → row_cells mn w = w) ∧
    (mn = MAGIC_NUMBERS.P3 → row_cells mn w = 3 * w % 4294967296) := by
  have hlt := scan_two_unsigned_lt r2 r3 w h hdim
  have hrows : store_rows h (row_cells mn w) r5 line3 = none :=
    (store_rows_none_iff _ _ _ _).2 (store_row_fails k _ hk r5 rest line3 linek vs hread hfail)
  refine ⟨?_, ?_, ?_⟩
  · rw [load_pnm_header env filename extension content r0 token r1 line0 mn hext hfile halloc
        hgo hline hmagic hres,
      load_body_eq env mn r1 r2 r3 r5 line0 line2 line3 w h maxv hgo2 hdim hmax]
    rw [store_pixels_eq]
    rw [if_neg (by
      rintro (e | e)
      · omega
      · exact row_cells_pos mn w hw hlt.1 e), hmatrix]
    simp only [Bool.true_eq_false, if_false, hrows, if_true]
  · intro hne
    unfold row_cells
    rw [if_neg hne]
  · intro he
    unfold row_cells
    rw [if_pos he, Nat.mul_comm]

/-- Witness for C14 (amended): a `2 x 2` grey image whose last sample is missing. -/
theorem truncated_pixel_data_witness :
    load_pnm ⟨some "P2\n2 2\n255\n1 2 3\n".toList, true, true, 0⟩ "a.pgm".toList
      = Outcome.returned (-3, none) :=
  (truncated_pixel_data ⟨some "P2\n2 2\n255\n1 2 3\n".toList, true, true, 0⟩ "a.pgm".toList
    "pgm".toList "P2\n2 2\n255\n1 2 3\n".toList "P2\n2 2\n255\n1 2 3\n".toList "P2".toList
    "\n2 2\n255\n1 2 3\n".toList "2 2\n255\n1 2 3\n".toList "\n255\n1 2 3\n".toList
    "\n1 2 3\n".toList "\n".toList 1 2 3 4 2 2 255 3 MAGIC_NUMBERS.P2 [1, 2, 3]
    (by decide) rfl rfl rfl (by decide) (le_refl 1) (by decide) rfl (by decide)
    (by decide) (by decide) (by decide) (by decide) (by decide) (by decide)
    (Or.inl (by decide))).1

/-- C15 (defect): `write_pnm` prints the magic line, the line of the dimensions, the
line of the maximum value for `P2`/`P3` and one line per row with each sample modulo
`65536` followed by a space, as for the `2 x 1` colour image below; but the maximum
value, an `unsigned int`, is printed with `%d`: for the image loaded from
`"P2\n1 1\n4294967295\n0\n"` the third line is `-1`, not `4294967295`. -/
theorem write_pnm_prints_large_maximum_as_negative :
    write_pnm true ⟨MAGIC_NUMBERS.P3, 1, 2, 255, [[70000, 2, 3], [4, 5, 6]]⟩ "b.ppm".toList
      = (0, some "P3\n1 2\n255\n4464 2 3 \n4 5 6 \n".toList) ∧
    write_pnm true ⟨MAGIC_NUMBERS.P1, 2, 1, 7, [[1, 0]]⟩ "b.pbm".toList
      = (0, some "P1\n2 1\n1 0 \n".toList) ∧
    load_pnm ⟨some "P2\n1 1\n4294967295\n0\n".toList, true, true, 0⟩ "a.pgm".toList
      = Outcome.returned (0, some ⟨MAGIC_NUMBERS.P2, 1, 1, 4294967295, [[0]]⟩) ∧
    write_pnm true ⟨MAGIC_NUMBERS.P2, 1, 1, 4294967295, [[0]]⟩ "b.pgm".toList
      = (0, some "P2\n1 1\n-1\n0 \n".toList) := by
  decide

/-! ## Theorems: the text written by write_pnm and its reload -/

theorem digit_char (n : Nat) (h : n < 10) :
    isdigit (Char.ofNat (48 + n)) = true ∧ (Char.ofNat (48 + n)).toNat - 48 = n ∧
      isgraph (Char.ofNat (48 + n)) = true ∧ Char.ofNat (48 + n) ≠ '#' ∧
      (Char.ofNat (48 + n)).toNat < 128 ∧ isspace (Char.ofNat (48 + n)) = false ∧
      Char.ofNat (48 + n) ≠ '-' ∧ Char.ofNat (48 + n) ≠ '+' := by
  interval_cases n <;> decide

theorem digits_value_append (ds : List Char) (d : Char) :
    digits_value (ds ++ [d]) = digits_value ds * 10 + (d.toNat - 48) := by
  unfold digits_value
  rw [List.foldl_append]
  rfl

theorem print_digits_succ (fuel n : Nat) (acc : List Char) :
    print_digits (fuel + 1) n acc =
      if n < 10 then Char.ofNat (48 + n) :: acc
      else print_digits fuel (n / 10) (Char.ofNat (48 + n % 10) :: acc) := by
  rw [print_digits]

theorem print_digits_small (fuel n : Nat) (acc : List Char) (hn : n < 10) :
    ∃ ds, print_digits (fuel + 1) n acc = ds ++ acc ∧ ds ≠ [] ∧
      (∀ c ∈ ds, isdigit c = true) ∧ digits_value ds = n := by
  rw [print_digits_succ, if_pos hn]
  obtain ⟨h1, h2, _⟩ := digit_char n hn
  refine ⟨[Char.ofNat (48 + n)], rfl, by simp, ?_, ?_⟩
  · intro c hc
    rw [List.mem_singleton] at hc
    rw [hc]; exact h1
  · show digits_value ([] ++ [Char.ofNat (48 + n)]) = n
    rw [digits_value_append, h2]
    show 0 * 10 + n = n
    omega

theorem print_digits_spec (fuel : Nat) : ∀ (n : Nat) (acc : List Char), n < 10 ^ (fuel + 1) →
    ∃ ds, print_digits (fuel + 1) n acc = ds ++ acc ∧ ds ≠ [] ∧
      (∀ c ∈ ds, isdigit c = true) ∧ digits_value ds = n := by
  induction fuel with
  | zero =>
    intro n acc h
    exact print_digits_small 0 n acc (by simpa using h)
  | succ fuel ih =>
    intro n acc h
    by_cases hn : n < 10
    · exact print_digits_small (fuel + 1) n acc hn
    · rw [print_digits_succ, if_neg hn]
      have hlt : n / 10 < 10 ^ (fuel + 1) := by
        rw [Nat.div_lt_iff_lt_mul (by norm_num)]
        rw [pow_succ] at h
        exact h
      obtain ⟨ds, e1, e2, e3, e4⟩ := ih (n / 10) (Char.ofNat (48 + n % 10) :: acc) hlt
      obtain ⟨h1, h2, _⟩ := digit_char (n % 10) (Nat.mod_lt _ (by norm_num))
      refine ⟨ds ++ [Char.ofNat (48 + n % 10)], ?_, by simp, ?_, ?_⟩
      · rw [e1, List.append_assoc]; rfl
      · intro c hc
        rw [List.mem_append, List.mem_singleton] at hc
        rcases hc with hm | e
        · exact e3 c hm
        · rw [e]; exact h1
      · rw [digits_value_append, e4, h2]
        omega

/-- The decimal digits printed for a value below `10 ^ 10`. -/
theorem print_digits_ten (n : Nat) (h : n < 10000000000) :
    ∃ ds, print_digits 10 n [] = ds ∧ ds ≠ [] ∧
      (∀ c ∈ ds, isdigit c = true) ∧ digits_value ds = n := by
  obtain ⟨ds, e1, e2, e3, e4⟩ := print_digits_spec 9 n [] (by norm_num; exact h)
  exact ⟨ds, by rw [e1, List.append_nil], e2, e3, e4⟩

theorem isdigit_facts (c : Char) (h : isdigit c = true) :
    isspace c = false ∧ c ≠ '-' ∧ c ≠ '+' ∧ isgraph c = true ∧ c ≠ '#' ∧ c.toNat < 128 := by
  unfold isdigit at h
  simp only [Bool.and_eq_true, decide_eq_true_eq] at h
  refine ⟨?_, ?_, ?_, ?_, ?_, by omega⟩
  · unfold isspace
    simp only [Bool.or_eq_false_iff, decide_eq_false_iff_not, Bool.and_eq_false_imp,
      decide_eq_true_eq]
    omega
  · intro e
    rw [e] at h
    exact absurd h (by decide)
  · intro e
    rw [e] at h
    exact absurd h (by decide)
  · unfold isgraph
    simp only [Bool.and_eq_true, decide_eq_true_eq]
    omega
  · intro e
    rw [e] at h
    exact absurd h (by decide)

theorem takeWhile_digits (ds : List Char) (c0 : Char) (rest : List Char)
    (hd : ∀ c ∈ ds, isdigit c = true) (hc : isdigit c0 = false) :
    (ds ++ c0 :: rest).takeWhile isdigit = ds ∧ (ds ++ c0 :: rest).dropWhile isdigit = c0 :: rest := by
  induction ds with
  | nil =>
    simp only [List.nil_append]
    constructor
    · rw [List.takeWhile_cons_of_neg (by rw [hc]; simp)]
    · rw [List.dropWhile_cons_of_neg (by rw [hc]; simp)]
  | cons d ds ih =>
    have h1 := hd d (List.mem_cons_self _ _)
    obtain ⟨i1, i2⟩ := ih (fun c hm => hd c (List.mem_cons_of_mem _ hm))
    simp only [List.cons_append]
    constructor
    · rw [List.takeWhile_cons_of_pos h1, i1]
    · rw [List.dropWhile_cons_of_pos h1, i2]

theorem dropWhile_spaces (sp : List Char) (d : Char) (rest : List Char)
    (hs : ∀ c ∈ sp, isspace c = true) (hd : isspace d = false) :
    (sp ++ d :: rest).dropWhile isspace = d :: rest := by
  induction sp with
  | nil =>
    simp only [List.nil_append]
    rw [List.dropWhile_cons_of_neg (by rw [hd]; simp)]
  | cons s sp ih =>
    simp only [List.cons_append]
    rw [List.dropWhile_cons_of_pos (hs s (List.mem_cons_self _ _)),
      ih (fun c hm => hs c (List.mem_cons_of_mem _ hm))]

theorem scan_unsigned_digits (sp ds : List Char) (c0 : Char) (rest : List Char)
    (hs : ∀ c ∈ sp, isspace c = true) (hne : ds ≠ []) (hd : ∀ c ∈ ds, isdigit c = true)
    (hc : isdigit c0 = false) (hv : digits_value ds < 18446744073709551616) :
    scan_unsigned (sp ++ (ds ++ c0 :: rest))
      = some (digits_value ds % 4294967296, c0 :: rest) := by
  cases ds with
  | nil => exact absurd rfl hne
  | cons d ds2 =>
    have hfd := isdigit_facts d (hd d (List.mem_cons_self _ _))
    obtain ⟨t1, t2⟩ := takeWhile_digits (d :: ds2) c0 rest hd hc
    have e1 : (sp ++ (d :: ds2 ++ c0 :: rest)).dropWhile isspace = d :: ds2 ++ c0 :: rest := by
      rw [List.cons_append]
      exact dropWhile_spaces sp d _ hs hfd.1
    have e2 : (d :: ds2 ++ c0 :: rest).head? = some d := rfl
    have e3 : ¬(some d = some '-' ∨ some d = some '+') := by
      rintro (e | e)
      · exact hfd.2.1 (Option.some.inj e)
      · exact hfd.2.2.1 (Option.some.inj e)
    have e4 : ¬ some d = some '-' := fun e => hfd.2.1 (Option.some.inj e)
    unfold scan_unsigned
    simp only [e1, e2, if_neg e3, t1, t2, if_neg e4]
    rw [if_neg (by simp), if_neg (Nat.not_le.2 hv)]

theorem scan_unsigned_negative (ds : List Char) (c0 : Char) (rest : List Char)
    (hne : ds ≠ []) (hd : ∀ c ∈ ds, isdigit c = true)
    (hc : isdigit c0 = false) (hv : digits_value ds < 18446744073709551616) :
    scan_unsigned ('-' :: (ds ++ c0 :: rest))
      = some ((18446744073709551616 - digits_value ds) % 18446744073709551616 % 4294967296,
          c0 :: rest) := by
  obtain ⟨t1, t2⟩ := takeWhile_digits ds c0 rest hd hc
  have e1 : ('-' :: (ds ++ c0 :: rest)).dropWhile isspace = '-' :: (ds ++ c0 :: rest) := by
    rw [List.dropWhile_cons_of_neg (by decide)]
  have e2 : ('-' :: (ds ++ c0 :: rest)).head? = some '-' := rfl
  unfold scan_unsigned
  simp only [e1, e2, true_or, if_true, List.drop_succ_cons, List.drop_zero, t1, t2]
  rw [if_neg hne, if_neg (Nat.not_le.2 hv)]

theorem print_unsigned_spec (n : Nat) :
    ∃ d ds, print_unsigned n = d :: ds ∧ (∀ c ∈ d :: ds, isdigit c = true) ∧
      digits_value (d :: ds) = n % 4294967296 := by
  have hlt : n % 4294967296 < 10000000000 :=
    Nat.lt_trans (Nat.mod_lt _ (by norm_num)) (by norm_num)
  obtain ⟨ds, e1, e2, e3, e4⟩ := print_digits_ten (n % 4294967296) hlt
  unfold print_unsigned
  cases ds with
  | nil => exact absurd rfl e2
  | cons d ds2 => exact ⟨d, ds2, e1, e3, e4⟩

theorem scan_print_unsigned (sp : List Char) (n : Nat) (c0 : Char) (rest : List Char)
    (hs : ∀ c ∈ sp, isspace c = true) (hc : isdigit c0 = false) :
    scan_unsigned (sp ++ (print_unsigned n ++ c0 :: rest))
      = some (n % 4294967296, c0 :: rest) := by
  obtain ⟨d, ds, e1, e2, e3⟩ := print_unsigned_spec n
  have hlt : n % 4294967296 < 4294967296 := Nat.mod_lt _ (by norm_num)
  rw [e1, scan_unsigned_digits sp (d :: ds) c0 rest hs (by simp) e2 hc
    (by rw [e3]; exact Nat.lt_trans hlt (by norm_num)), e3, Nat.mod_mod]

theorem neg_roundtrip (m : Nat) (h1 : 2147483648 ≤ m) (h2 : m < 4294967296) :
    (18446744073709551616 - (4294967296 - m)) % 18446744073709551616 % 4294967296 = m := by
  have e1 : 18446744073709551616 - (4294967296 - m) = m + 4294967295 * 4294967296 := by omega
  have e2 : m + 4294967295 * 4294967296 < 18446744073709551616 := by omega
  rw [e1, Nat.mod_eq_of_lt e2, Nat.add_mul_mod_self_right, Nat.mod_eq_of_lt h2]

theorem scan_print_int (n : Nat) (c0 : Char) (rest : List Char) (hc : isdigit c0 = false) :
    scan_unsigned (print_int n ++ c0 :: rest) = some (n % 4294967296, c0 :: rest) := by
  have hlt : n % 4294967296 < 4294967296 := Nat.mod_lt _ (by norm_num)
  unfold print_int
  by_cases h : n % 4294967296 < 2147483648
  · rw [if_pos h]
    have h2 := scan_print_unsigned [] (n % 4294967296) c0 rest (by simp) hc
    unfold print_unsigned at h2
    rw [Nat.mod_mod, List.nil_append] at h2
    exact h2
  · rw [if_neg h]
    have hlt2 : 4294967296 - n % 4294967296 < 10000000000 := by omega
    obtain ⟨ds, e1, e2, e3, e4⟩ := print_digits_ten _ hlt2
    rw [e1, List.cons_append,
      scan_unsigned_negative ds c0 rest e2 e3 hc (by rw [e4]; omega), e4,
      neg_roundtrip _ (by omega) hlt]

theorem print_int_head (n : Nat) :
    ∃ d ds, print_int n = d :: ds ∧ isgraph d = true ∧ d ≠ '#' ∧ d.toNat < 128 := by
  unfold print_int
  by_cases h : n % 4294967296 < 2147483648
  · rw [if_pos h]
    obtain ⟨d, ds, e1, e2, _⟩ := print_unsigned_spec (n % 4294967296)
    unfold print_unsigned at e1
    rw [Nat.mod_mod] at e1
    have hf := isdigit_facts d (e2 d (List.mem_cons_self _ _))
    exact ⟨d, ds, e1, hf.2.2.2.1, hf.2.2.2.2.1, hf.2.2.2.2.2⟩
  · rw [if_neg h]
    exact ⟨'-', _, rfl, by decide, by decide, by decide⟩

theorem skipped_blanks (blanks : List Char) (h : ∀ c ∈ blanks, isgraph c = false) :
    Skipped blanks := by
  induction blanks with
  | nil => exact Skipped.nil
  | cons b bs ih =>
    exact Skipped.blank b bs (h b (List.mem_cons_self _ _))
      (ih (fun c hc => h c (List.mem_cons_of_mem _ hc)))

theorem go_blanks (blanks : List Char) (c : Char) (tl : List Char) (line : Nat)
    (hb : ∀ x ∈ blanks, isgraph x = false ∧ x.toNat < 128)
    (hg : isgraph c = true) (hne : c ≠ '#') (hc : c.toNat < 128) (hl : line < 4294967296) :
    ∃ line2, line2 < 4294967296 ∧
      go_to_next_data (blanks ++ c :: tl) line = some (c :: tl, line2) := by
  refine ⟨(line + count_newlines blanks) % 4294967296, Nat.mod_lt _ (by norm_num), ?_⟩
  unfold go_to_next_data
  exact go_aux_skipped blanks (skipped_blanks blanks (fun x hx => (hb x hx).1)) c tl line
    (fun x hx => (hb x hx).2) hc hg hne hl

theorem row_text_cons (v : Nat) (vs : List Nat) :
    row_text (v :: vs) = print_unsigned (v % 65536) ++ ' ' :: row_text vs := by
  unfold row_text
  rw [List.map_cons, List.flatten_cons, List.append_assoc]
  rfl

theorem rows_text_cons (r : List Nat) (rs : List (List Nat)) :
    rows_text (r :: rs) = row_text r ++ '\n' :: rows_text rs := by
  unfold rows_text
  rw [List.map_cons, List.flatten_cons, List.append_assoc]
  rfl

theorem write_row_eq (q : List Nat) : ∀ p : List Nat,
    write_row q.length p.length (p ++ q) = row_text q := by
  induction q with
  | nil => intro p; rfl
  | cons v q ih =>
    intro p
    have h := ih (p ++ [v])
    simp only [List.length_append, List.length_singleton, List.append_assoc,
      List.singleton_append] at h
    rw [List.length_cons, write_row, getD_append_cons, h, row_text_cons]

theorem write_rows_eq (c : Nat) (todo : List (List Nat)) : ∀ done : List (List Nat),
    (∀ row ∈ todo, row.length = c) →
    write_rows todo.length done.length c (done ++ todo) = rows_text todo := by
  induction todo with
  | nil => intro done _; rfl
  | cons r rs ih =>
    intro done hlen
    have hr : r.length = c := hlen r (List.mem_cons_self _ _)
    have h := ih (done ++ [r]) (fun row hm => hlen row (List.mem_cons_of_mem _ hm))
    simp only [List.length_append, List.length_singleton, List.append_assoc,
      List.singleton_append] at h
    have hw := write_row_eq r []
    simp only [List.length_nil, List.nil_append] at hw
    rw [hr] at hw
    rw [List.length_cons, write_rows, getD_append_cons_row, hw, h, rows_text_cons]

theorem write_pnm_eq (image : PNM) (filename : List Char) (hw : image.WellFormed)
    (hname : check_file_name filename = 1) :
    write_pnm true image filename
      = (0, some (image_text image (print_int image.maxPossibleValue))) := by
  have h := write_rows_eq (row_cells image.magicNumber image.columns) image.pixels [] hw.2
  simp only [List.length_nil, List.nil_append] at h
  rw [hw.1] at h
  unfold write_pnm image_text
  rw [if_neg (by rw [hname]; exact one_ne_zero), if_neg (by simp), h]

theorem store_row_zero (input : List Char) (line : Nat) :
    store_row 0 input line = some ([], input, line) := by
  rw [store_row]

theorem store_row_text (row : List Nat) : ∀ (blanks tail : List Char) (line : Nat),
    (∀ x ∈ blanks, isgraph x = false ∧ x.toNat < 128) → line < 4294967296 →
    ∃ line2, line2 < 4294967296 ∧
      store_row row.length (blanks ++ (row_text row ++ tail)) line
        = some (row.map (fun v => v % 65536),
            (if row = [] then blanks else [' ']) ++ tail, line2) := by
  induction row with
  | nil =>
    intro blanks tail line _ hl
    refine ⟨line, hl, ?_⟩
    rw [List.length_nil, store_row_zero]
    rfl
  | cons v vs ih =>
    intro blanks tail line hb hl
    obtain ⟨d, ds, e1, e2, e3⟩ := print_unsigned_spec (v % 65536)
    have hf := isdigit_facts d (e2 d (List.mem_cons_self _ _))
    have htext : blanks ++ (row_text (v :: vs) ++ tail)
        = blanks ++ d :: (ds ++ ' ' :: (row_text vs ++ tail)) := by
      rw [row_text_cons, e1]
      simp only [List.cons_append, List.append_assoc]
    obtain ⟨l2, hl2, hgo⟩ := go_blanks blanks d (ds ++ ' ' :: (row_text vs ++ tail)) line hb
      hf.2.2.2.1 hf.2.2.2.2.1 hf.2.2.2.2.2 hl
    have hscan : scan_unsigned (d :: (ds ++ ' ' :: (row_text vs ++ tail)))
        = some (v % 65536, ' ' :: (row_text vs ++ tail)) := by
      have h := scan_print_unsigned [] (v % 65536) ' ' (row_text vs ++ tail) (by simp)
        (by decide)
      rw [e1, List.nil_append, List.cons_append] at h
      rw [h]
      have : v % 65536 % 4294967296 = v % 65536 :=
        Nat.mod_eq_of_lt (Nat.lt_trans (Nat.mod_lt _ (by norm_num)) (by norm_num))
      rw [this]
    obtain ⟨l3, hl3, hrest⟩ := ih [' '] tail l2 (by
      intro x hx
      rw [List.mem_singleton] at hx
      rw [hx]; decide) hl2
    refine ⟨l3, hl3, ?_⟩
    rw [List.length_cons, store_row_succ, htext, hgo]
    simp only [hscan]
    have hsp : ' ' :: (row_text vs ++ tail) = [' '] ++ (row_text vs ++ tail) := rfl
    rw [hsp, hrest]
    simp only [List.map_cons, reduceCtorEq, if_false]
    cases vs with
    | nil => rfl
    | cons w ws => simp only [reduceCtorEq, if_false]

theorem store_rows_zero (c : Nat) (input : List Char) (line : Nat) :
    store_rows 0 c input line = some ([], input, line) := by
  rw [store_rows]

theorem store_rows_text (c : Nat) (hc : 0 < c) (rows : List (List Nat)) :
    ∀ (blanks tail : List Char) (line : Nat),
    (∀ x ∈ blanks, isgraph x = false ∧ x.toNat < 128) → line < 4294967296 →
    (∀ row ∈ rows, row.length = c) →
    ∃ line2 rem, line2 < 4294967296 ∧
      store_rows rows.length c (blanks ++ (rows_text rows ++ tail)) line
        = some (rows.map (fun row => row.map (fun v => v % 65536)), rem, line2) := by
  induction rows with
  | nil =>
    intro blanks tail line _ hl _
    refine ⟨line, blanks ++ (rows_text [] ++ tail), hl, ?_⟩
    rw [List.length_nil, store_rows_zero]
    rfl
  | cons r rs ih =>
    intro blanks tail line hb hl hlen
    have hr : r.length = c := hlen r (List.mem_cons_self _ _)
    have hne : r ≠ [] := by
      intro e
      rw [e] at hr
      simp at hr
      omega
    obtain ⟨l2, hl2, hrow⟩ := store_row_text r blanks ('\n' :: (rows_text rs ++ tail)) line hb hl
    rw [hr, if_neg hne] at hrow
    obtain ⟨l3, rem, hl3, hrest⟩ := ih [' ', '\n'] tail l2 (by
      intro x hx
      simp only [List.mem_cons, List.mem_singleton, List.not_mem_nil, or_false] at hx
      rcases hx with e | e <;> rw [e] <;> decide) hl2
      (fun row hm => hlen row (List.mem_cons_of_mem _ hm))
    refine ⟨l3, rem, hl3, ?_⟩
    have htext : blanks ++ (rows_text (r :: rs) ++ tail)
        = blanks ++ (row_text r ++ '\n' :: (rows_text rs ++ tail)) := by
      rw [rows_text_cons]
      simp only [List.cons_append, List.append_assoc]
    have hsp : [' '] ++ '\n' :: (rows_text rs ++ tail) = [' ', '\n'] ++ (rows_text rs ++ tail) :=
      rfl
    rw [List.length_cons, store_rows_succ, htext, hrow]
    simp only
    rw [hsp, hrest]
    simp only [List.map_cons]

theorem resolve_magic_ok (mn : MAGIC_NUMBERS) :
    resolve_magic (magic_text mn) (extension_of mn) = Except.ok mn := by
  cases mn <;> rfl

theorem magic_text_eq (mn : MAGIC_NUMBERS) :
    ∃ d, magic_text mn = ['P', d] ∧ d ≠ '#' := by
  cases mn
  · exact ⟨'1', rfl, by decide⟩
  · exact ⟨'2', rfl, by decide⟩
  · exact ⟨'3', rfl, by decide⟩

theorem newline_blank : ∀ x ∈ ['\n'], isgraph x = false ∧ x.toNat < 128 := by
  intro x hx
  rw [List.mem_singleton] at hx
  rw [hx]; decide

theorem load_max_text (junk : Nat) (mn : MAGIC_NUMBERS) (maxv line : Nat) (tail : List Char)
    (hl : line < 4294967296) :
    ∃ line2, line2 < 4294967296 ∧
      load_max junk mn
        ('\n' :: ((if mn = MAGIC_NUMBERS.P2 ∨ mn = MAGIC_NUMBERS.P3 then
            print_int maxv ++ ['\n'] else []) ++ tail)) line
        = some (if mn = MAGIC_NUMBERS.P2 ∨ mn = MAGIC_NUMBERS.P3 then maxv % 4294967296 else junk,
            '\n' :: tail, line2) := by
  unfold load_max
  by_cases h : mn = MAGIC_NUMBERS.P2 ∨ mn = MAGIC_NUMBERS.P3
  · simp only [if_pos h]
    obtain ⟨d, ds, e1, e2, e3, e4⟩ := print_int_head maxv
    obtain ⟨l2, hl2, hgo⟩ := go_blanks ['\n'] d (ds ++ '\n' :: tail) line newline_blank e2 e3 e4 hl
    have htext : '\n' :: (print_int maxv ++ ['\n'] ++ tail) = ['\n'] ++ d :: (ds ++ '\n' :: tail) := by
      rw [e1]
      simp only [List.cons_append, List.append_assoc, List.nil_append]
    have hscan := scan_print_int maxv '\n' tail (by decide)
    rw [e1, List.cons_append] at hscan
    refine ⟨l2, hl2, ?_⟩
    rw [htext, hgo]
    simp only [hscan]
  · simp only [if_neg h, List.nil_append]
    exact ⟨line, hl, rfl⟩

theorem scan_two_text (a b : Nat) (tail : List Char) :
    scan_two_unsigned (print_unsigned a ++ ' ' :: (print_unsigned b ++ '\n' :: tail))
      = some (a % 4294967296, b % 4294967296, '\n' :: tail) := by
  have h1 := scan_print_unsigned [] a ' ' (print_unsigned b ++ '\n' :: tail) (by simp)
    (by decide)
  have h2 := scan_print_unsigned [' '] b '\n' tail (by
    intro c hc
    rw [List.mem_singleton] at hc
    rw [hc]; decide) (by decide)
  rw [List.nil_append] at h1
  unfold scan_two_unsigned
  rw [h1]
  simp only
  have e : ' ' :: (print_unsigned b ++ '\n' :: tail) = [' '] ++ (print_unsigned b ++ '\n' :: tail) :=
    rfl
  rw [e, h2]

theorem load_text (junk : Nat) (filename : List Char) (mn : MAGIC_NUMBERS)
    (cols lines maxv : Nat) (px : List (List Nat))
    (hlen : px.length = lines) (hrow : ∀ row ∈ px, row.length = row_cells mn cols)
    (hc : 0 < cols) (hc2 : cols < 4294967296) (hl : 0 < lines) (hl2 : lines < 4294967296)
    (hext : get_file_extension filename = some (extension_of mn)) :
    load_pnm
        ⟨some (magic_text mn ++ '\n' ::
          (print_unsigned cols ++ ' ' :: (print_unsigned lines ++ '\n' ::
            ((if mn = MAGIC_NUMBERS.P2 ∨ mn = MAGIC_NUMBERS.P3 then print_int maxv ++ ['\n']
              else []) ++ rows_text px)))), true, true, junk⟩ filename
      = Outcome.returned (0, some
          { magicNumber := mn, columns := cols, lines := lines,
            maxPossibleValue :=
              if mn = MAGIC_NUMBERS.P2 ∨ mn = MAGIC_NUMBERS.P3 then maxv % 4294967296
              else junk,
            pixels := px.map (fun row => row.map (fun v => v % 65536)) }) := by
  obtain ⟨t, ht⟩ : ∃ t, t = (if mn = MAGIC_NUMBERS.P2 ∨ mn = MAGIC_NUMBERS.P3 then
      print_int maxv ++ ['\n'] else []) ++ rows_text px := ⟨_, rfl⟩
  rw [← ht]
  obtain ⟨d, hd, hdne⟩ := magic_text_eq mn
  obtain ⟨c0, cs, ec1, ec2, _⟩ := print_unsigned_spec cols
  have hcf := isdigit_facts c0 (ec2 c0 (List.mem_cons_self _ _))
  -- the magic token
  have hgo0 : go_to_next_data (magic_text mn ++ '\n' ::
      (print_unsigned cols ++ ' ' :: (print_unsigned lines ++ '\n' :: t))) 1
      = some (magic_text mn ++ '\n' ::
          (print_unsigned cols ++ ' ' :: (print_unsigned lines ++ '\n' :: t)), 1) := by
    unfold go_to_next_data
    rw [hd]
    exact go_aux_skipped [] Skipped.nil 'P' _ 1 (by simp) (by decide) (by decide) (by decide)
      (by norm_num)
  have hmagic : scan_magic (magic_text mn ++ '\n' ::
      (print_unsigned cols ++ ' ' :: (print_unsigned lines ++ '\n' :: t)))
      = some (magic_text mn, '\n' ::
          (print_unsigned cols ++ ' ' :: (print_unsigned lines ++ '\n' :: t))) := by
    rw [hd]
    exact scan_magic_two 'P' d _ (by decide) hdne
  -- the dimensions
  obtain ⟨l1, hl1, hgo1⟩ := go_blanks ['\n'] c0
    (cs ++ ' ' :: (print_unsigned lines ++ '\n' :: t)) 1 newline_blank
    hcf.2.2.2.1 hcf.2.2.2.2.1 hcf.2.2.2.2.2 (by norm_num)
  have htext1 : '\n' :: (print_unsigned cols ++ ' ' :: (print_unsigned lines ++ '\n' :: t))
      = ['\n'] ++ c0 :: (cs ++ ' ' :: (print_unsigned lines ++ '\n' :: t)) := by
    rw [ec1]
    rfl
  have hdim := scan_two_text cols lines t
  rw [ec1, Nat.mod_eq_of_lt hc2, Nat.mod_eq_of_lt hl2, List.cons_append] at hdim
  obtain ⟨l2, hl2b, hmax⟩ := load_max_text junk mn maxv l1 (rows_text px) hl1
  rw [← ht] at hmax
  -- the samples
  have hcells : 0 < row_cells mn cols := Nat.pos_of_ne_zero (row_cells_pos _ _ hc hc2)
  obtain ⟨l3, rem, _, hrows⟩ := store_rows_text (row_cells mn cols) hcells px ['\n'] [] l2
    newline_blank hl2b hrow
  rw [hlen, List.append_nil] at hrows
  have hstore : store_pixels true mn cols lines ('\n' :: rows_text px) l2
      = Outcome.returned (1, px.map (fun row => row.map (fun v => v % 65536))) := by
    have htext2 : '\n' :: rows_text px = ['\n'] ++ rows_text px := rfl
    rw [store_pixels_eq]
    rw [if_neg (by
      rintro (e | e)
      · omega
      · omega)]
    simp only [Bool.true_eq_false, if_false, htext2, hrows]
  rw [load_pnm_header ⟨some (magic_text mn ++ '\n' ::
      (print_unsigned cols ++ ' ' :: (print_unsigned lines ++ '\n' :: t))), true, true, junk⟩
    filename (extension_of mn) _ _ _ _ 1 mn hext rfl rfl hgo0
    (le_refl 1) hmagic (resolve_magic_ok mn), htext1,
    load_body_eq _ mn _ _ _ _ 1 l1 l2 cols lines _ hgo1 hdim hmax]
  simp only [hstore]
  rfl

theorem load_image_text (image : PNM) (junk : Nat) (filename : List Char)
    (hw : image.WellFormed) (hc : 0 < image.columns) (hc2 : image.columns < 4294967296)
    (hl : 0 < image.lines) (hl2 : image.lines < 4294967296)
    (hext : get_file_extension filename = some (extension_of image.magicNumber)) :
    load_pnm ⟨some (image_text image (print_int image.maxPossibleValue)), true, true, junk⟩
        filename
      = Outcome.returned (0, some
          { magicNumber := image.magicNumber, columns := image.columns, lines := image.lines,
            maxPossibleValue :=
              if image.magicNumber = MAGIC_NUMBERS.P2 ∨ image.magicNumber = MAGIC_NUMBERS.P3 then
                image.maxPossibleValue % 4294967296
              else junk,
            pixels := image.pixels.map (fun row => row.map (fun v => v % 65536)) }) := by
  unfold image_text
  exact load_text junk filename image.magicNumber image.columns image.lines
    image.maxPossibleValue image.pixels hw.1 hw.2 hc hc2 hl hl2 hext

theorem store_row_length (n : Nat) : ∀ (input : List Char) (line : Nat) (vs : List Nat)
    (rest : List Char) (line2 : Nat),
    store_row n input line = some (vs, rest, line2) →
    vs.length = n := by
  induction n with
  | zero =>
    intro input line vs rest line2 h
    rw [store_row_zero] at h
    simp only [Option.some.injEq, Prod.mk.injEq] at h
    rw [← h.1]; rfl
  | succ n ih =>
    intro input line vs rest line2 h
    rw [store_row_succ] at h
    split at h
    · exact Option.noConfusion h
    · split at h
      · exact Option.noConfusion h
      · split at h
        · exact Option.noConfusion h
        · rename_i hrec
          simp only [Option.some.injEq, Prod.mk.injEq] at h
          rw [← h.1, List.length_cons, ih _ _ _ _ _ hrec]

theorem store_rows_shape (n c : Nat) : ∀ (input : List Char) (line : Nat)
    (px : List (List Nat)) (rest : List Char) (line2 : Nat),
    store_rows n c input line = some (px, rest, line2) →
    px.length = n ∧ ∀ row ∈ px, row.length = c := by
  induction n with
  | zero =>
    intro input line px rest line2 h
    rw [store_rows_zero] at h
    simp only [Option.some.injEq, Prod.mk.injEq] at h
    rw [← h.1]
    exact ⟨rfl, by simp⟩
  | succ n ih =>
    intro input line px rest line2 h
    rw [store_rows_succ] at h
    split at h
    · exact Option.noConfusion h
    · rename_i hrow
      split at h
      · exact Option.noConfusion h
      · rename_i hrec
        simp only [Option.some.injEq, Prod.mk.injEq] at h
        obtain ⟨i1, i2⟩ := ih _ _ _ _ _ hrec
        rw [← h.1]
        refine ⟨by rw [List.length_cons, i1], ?_⟩
        intro row hm
        rw [List.mem_cons] at hm
        rcases hm with e | hm
        · rw [e]; exact store_row_length _ _ _ _ _ _ hrow
        · exact i2 row hm

theorem load_max_lt (junk : Nat) (mn : MAGIC_NUMBERS) (input rest : List Char)
    (line line2 m : Nat) (h : load_max junk mn input line = some (m, rest, line2))
    (hc : mn = MAGIC_NUMBERS.P2 ∨ mn = MAGIC_NUMBERS.P3) : m < 4294967296 := by
  unfold load_max at h
  rw [if_pos hc] at h
  split at h
  · exact Option.noConfusion h
  · split at h
    · exact Option.noConfusion h
    · rename_i hscan
      simp only [Option.some.injEq, Prod.mk.injEq] at h
      rw [← h.1]
      exact scan_unsigned_lt _ _ _ hscan

theorem row_cells_zero (mn : MAGIC_NUMBERS) : row_cells mn 0 = 0 := by
  unfold row_cells
  split_ifs <;> rfl

theorem load_body_inv (env : LoadEnv) (mn : MAGIC_NUMBERS) (input : List Char) (line : Nat)
    (code : Int) (img : PNM) (hm : env.matrix_alloc = true)
    (h : load_body env mn input line = Outcome.returned (code, some img)) :
    code = 0 ∧ img.magicNumber = mn ∧ img.WellFormed ∧ 0 < img.columns ∧
      img.columns < 4294967296 ∧ 0 < img.lines ∧ img.lines < 4294967296 ∧
      (mn = MAGIC_NUMBERS.P2 ∨ mn = MAGIC_NUMBERS.P3 → img.maxPossibleValue < 4294967296) := by
  unfold load_body at h
  split at h
  · exact absurd h (by simp)
  · split at h
    · exact absurd h (by simp)
    · rename_i hdim
      have hlt := scan_two_unsigned_lt _ _ _ _ hdim
      split at h
      · exact absurd h (by simp)
      · rename_i hmax
        rw [store_pixels_eq] at h
        rw [hm] at h
        split_ifs at h with hz
        simp only [Bool.true_eq_false] at *
        split at h
        · exact absurd h (by simp)
        · exact absurd h (by simp)
        · rename_i hst
          split at hst
          · simp only [Outcome.returned.injEq, Prod.mk.injEq] at hst
            rw [← hst.1] at h
            simp only [if_true] at h
            exact absurd h (by simp)
          · rename_i hrows
            simp only [Outcome.returned.injEq, Prod.mk.injEq] at hst
            rw [← hst.1] at h
            simp only [one_ne_zero, if_false, Outcome.returned.injEq, Prod.mk.injEq,
              Option.some.injEq] at h
            obtain ⟨h1, h2⟩ := h
            obtain ⟨s1, s2⟩ := store_rows_shape _ _ _ _ _ _ _ hrows
            rw [← h2]
            push_neg at hz
            refine ⟨h1.symm, rfl, ⟨?_, ?_⟩, ?_, hlt.1, Nat.pos_of_ne_zero hz.1, hlt.2, ?_⟩
            · rw [← hst.2]; exact s1
            · rw [← hst.2]; exact s2
            · apply Nat.pos_of_ne_zero
              intro e
              apply hz.2
              dsimp only at e
              rw [e]
              exact row_cells_zero mn
            · intro hc
              exact load_max_lt _ _ _ _ _ _ _ hmax hc

theorem resolve_magic_ok_inv (token extension : List Char) (mn : MAGIC_NUMBERS)
    (h : resolve_magic token extension = Except.ok mn) : extension = extension_of mn := by
  unfold resolve_magic at h
  split_ifs at h with h1 h2 h3 h4 h5 h6
  all_goals first
    | exact Except.noConfusion h
    | (have e := Except.ok.inj h
       rw [← e]
       simp only [ne_eq, not_not] at *
       assumption)

theorem load_pnm_inv (env : LoadEnv) (filename : List Char) (code : Int) (img : PNM)
    (hm : env.matrix_alloc = true)
    (h : load_pnm env filename = Outcome.returned (code, some img)) :
    code = 0 ∧ get_file_extension filename = some (extension_of img.magicNumber) ∧
      img.WellFormed ∧ 0 < img.columns ∧ img.columns < 4294967296 ∧ 0 < img.lines ∧
      img.lines < 4294967296 ∧
      (img.magicNumber = MAGIC_NUMBERS.P2 ∨ img.magicNumber = MAGIC_NUMBERS.P3 →
        img.maxPossibleValue < 4294967296) := by
  unfold load_pnm at h
  split at h
  · exact absurd h (by simp)
  · rename_i ext hext
    split at h
    · exact absurd h (by simp)
    · split_ifs at h with ha
      · exact absurd h (by simp)
      · split at h
        · exact absurd h (by simp)
        · split_ifs at h with hline
          · exact absurd h (by simp)
          · split at h
            · exact absurd h (by simp)
            · split at h
              · exact absurd h (by simp)
              · rename_i mn hres
                obtain ⟨i1, i2, i3, i4, i5, i6, i7, i8⟩ :=
                  load_body_inv env mn _ _ code img hm h
                have he := resolve_magic_ok_inv _ _ _ hres
                rw [i2]
                exact ⟨i1, by rw [hext, he], i3, i4, i5, i6, i7, i8⟩

/-- C29: the parser inverts the writer up to truncation.  For an in-memory image with
`0 < columns`, `0 < lines` (both `unsigned int`), `maxPossibleValue < 2 ^ 31` and a
matrix of `lines` rows of `C` cells, `write_pnm` under an accepted name produces a text
whose load, under the extension that matches the magic number, returns `0` with the same
`magicNumber`, `columns`, `lines` and, for `P2`/`P3`, `maxPossibleValue`, and with a
matrix whose cell `(i, j)` is the original cell `(i, j)` modulo `65536`. -/
theorem load_inverts_write (image : PNM) (junk : Nat) (wname lname : List Char)
    (hw : image.WellFormed) (hc : 0 < image.columns) (hc2 : image.columns < 4294967296)
    (hl : 0 < image.lines) (hl2 : image.lines < 4294967296)
    (hmax : image.maxPossibleValue < 2147483648)
    (hname : check_file_name wname = 1)
    (hext : get_file_extension lname = some (extension_of image.magicNumber)) :
    ∃ text img, write_pnm true image wname = (0, some text) ∧
      load_pnm ⟨some text, true, true, junk⟩ lname = Outcome.returned (0, some img) ∧
      img.magicNumber = image.magicNumber ∧ img.columns = image.columns ∧
      img.lines = image.lines ∧
      (image.magicNumber = MAGIC_NUMBERS.P2 ∨ image.magicNumber = MAGIC_NUMBERS.P3 →
        img.maxPossibleValue = image.maxPossibleValue) ∧
      img.pixels = (truncate16 image).pixels ∧
      img.pixels.length = image.lines ∧
      (∀ row ∈ img.pixels, row.length = row_cells image.magicNumber image.columns) ∧
      ∀ i j, (img.pixels.getD i []).getD j 0 = (image.pixels.getD i []).getD j 0 % 65536 := by
  refine ⟨_, _, write_pnm_eq image wname hw hname,
    load_image_text image junk lname hw hc hc2 hl hl2 hext, rfl, rfl, rfl, ?_, rfl, ?_, ?_, ?_⟩
  · intro hp
    show (if image.magicNumber = MAGIC_NUMBERS.P2 ∨ image.magicNumber = MAGIC_NUMBERS.P3 then
      image.maxPossibleValue % 4294967296 else junk) = image.maxPossibleValue
    rw [if_pos hp, Nat.mod_eq_of_lt (Nat.lt_trans hmax (by norm_num))]
  · show (image.pixels.map _).length = image.lines
    rw [List.length_map]; exact hw.1
  · exact (truncate16_wellFormed image hw).2
  · intro i j
    show ((image.pixels.map (fun row => row.map (fun v => v % 65536))).getD i []).getD j 0 = _
    simp only [List.getD_eq_getElem?_getD, List.getElem?_map]
    cases image.pixels[i]? with
    | none => rfl
    | some row =>
      simp only [Option.map_some', Option.getD_some, List.getElem?_map]
      cases row[j]? with
      | none => rfl
      | some v => rfl

/-- Witness for C29: a `1 x 2` grey image with a sample above `65535`. -/
theorem load_inverts_write_witness :
    PNM.WellFormed ⟨MAGIC_NUMBERS.P2, 2, 1, 255, [[70000, 3]]⟩ ∧
    ∃ text img, write_pnm true ⟨MAGIC_NUMBERS.P2, 2, 1, 255, [[70000, 3]]⟩ "b.pgm".toList
        = (0, some text) ∧
      load_pnm ⟨some text, true, true, 0⟩ "c.pgm".toList = Outcome.returned (0, some img) ∧
      img.magicNumber = MAGIC_NUMBERS.P2 ∧ img.columns = 2 ∧ img.lines = 1 ∧
      (MAGIC_NUMBERS.P2 = MAGIC_NUMBERS.P2 ∨ MAGIC_NUMBERS.P2 = MAGIC_NUMBERS.P3 →
        img.maxPossibleValue = 255) ∧
      img.pixels = (truncate16 ⟨MAGIC_NUMBERS.P2, 2, 1, 255, [[70000, 3]]⟩).pixels ∧
      img.pixels.length = 1 ∧
      (∀ row ∈ img.pixels, row.length = row_cells MAGIC_NUMBERS.P2 2) ∧
      ∀ i j, (img.pixels.getD i []).getD j 0 = (([[70000, 3]] : List (List Nat)).getD i []).getD j 0 % 65536 :=
  ⟨by decide,
   load_inverts_write ⟨MAGIC_NUMBERS.P2, 2, 1, 255, [[70000, 3]]⟩ 0 "b.pgm".toList
    "c.pgm".toList (by decide) (by decide) (by decide) (by decide) (by decide) (by decide)
    (by decide) (by decide)⟩

/-- C9 (as stated, refuted): the file `"P2\n1 1\n255\n70000\n"`, named `a.pgm`, loads as
a `1 x 1` image with the sample `70000`; `write_pnm` prints that sample as `4464`
(`70000` modulo `65536`), and loading the written text yields the sample `4464`, not
the same pixel matrix. -/
theorem round_trip_truncates_large_sample :
    load_pnm ⟨some "P2\n1 1\n255\n70000\n".toList, true, true, 0⟩ "a.pgm".toList
      = Outcome.returned (0, some ⟨MAGIC_NUMBERS.P2, 1, 1, 255, [[70000]]⟩) ∧
    write_pnm true ⟨MAGIC_NUMBERS.P2, 1, 1, 255, [[70000]]⟩ "a.pgm".toList
      = (0, some "P2\n1 1\n255\n4464 \n".toList) ∧
    load_pnm ⟨some "P2\n1 1\n255\n4464 \n".toList, true, true, 0⟩ "a.pgm".toList
      = Outcome.returned (0, some ⟨MAGIC_NUMBERS.P2, 1, 1, 255, [[4464]]⟩) ∧
    ([[4464]] : List (List Nat)) ≠ [[70000]] := by
  decide

/-- C9 (amended): codec round trip.  When `load_pnm` succeeds on a file and yields the
image `I` with its matrix, writing `I` with `write_pnm` under an accepted name and
loading the written text under the same extension succeeds and yields an image with the
same `magicNumber`, `columns`, `lines`, `maxPossibleValue` (for `P2`/`P3`) and a pixel
matrix whose cell `(i, j)` is the cell `(i, j)` of `I` modulo `65536`. -/
theorem codec_round_trip (env : LoadEnv) (filename wname : List Char) (junk : Nat)
    (code : Int) (image : PNM) (hm : env.matrix_alloc = true)
    (hload : load_pnm env filename = Outcome.returned (code, some image))
    (hname : check_file_name wname = 1) :
    code = 0 ∧
    ∃ text img, write_pnm true image wname = (0, some text) ∧
      load_pnm ⟨some text, true, true, junk⟩ filename = Outcome.returned (0, some img) ∧
      img.magicNumber = image.magicNumber ∧ img.columns = image.columns ∧
      img.lines = image.lines ∧
      (image.magicNumber = MAGIC_NUMBERS.P2 ∨ image.magicNumber = MAGIC_NUMBERS.P3 →
        img.maxPossibleValue = image.maxPossibleValue) ∧
      img.pixels = (truncate16 image).pixels ∧
      ∀ i j, (img.pixels.getD i []).getD j 0 = (image.pixels.getD i []).getD j 0 % 65536 := by
  obtain ⟨i1, hext, hw, hc, hc2, hl, hl2, hmax⟩ := load_pnm_inv env filename code image hm hload
  refine ⟨i1, _, _, write_pnm_eq image wname hw hname,
    load_image_text image junk filename hw hc hc2 hl hl2 hext, rfl, rfl, rfl, ?_, rfl, ?_⟩
  · intro hp
    show (if image.magicNumber = MAGIC_NUMBERS.P2 ∨ image.magicNumber = MAGIC_NUMBERS.P3 then
      image.maxPossibleValue % 4294967296 else junk) = image.maxPossibleValue
    rw [if_pos hp, Nat.mod_eq_of_lt (hmax hp)]
  · intro i j
    show ((image.pixels.map (fun row => row.map (fun v => v % 65536))).getD i []).getD j 0 = _
    simp only [List.getD_eq_getElem?_getD, List.getElem?_map]
    cases image.pixels[i]? with
    | none => rfl
    | some row =>
      simp only [Option.map_some', Option.getD_some, List.getElem?_map]
      cases row[j]? with
      | none => rfl
      | some v => rfl

/-- Witness for C9 (amended): the file of the counterexample. -/
theorem codec_round_trip_witness :
    load_pnm ⟨some "P2\n1 1\n255\n70000\n".toList, true, true, 0⟩ "a.pgm".toList
      = Outcome.returned (0, some ⟨MAGIC_NUMBERS.P2, 1, 1, 255, [[70000]]⟩) ∧
    ((0 : Int) = 0 ∧
    ∃ text img, write_pnm true ⟨MAGIC_NUMBERS.P2, 1, 1, 255, [[70000]]⟩ "b.pgm".toList
        = (0, some text) ∧
      load_pnm ⟨some text, true, true, 0⟩ "a.pgm".toList = Outcome.returned (0, some img) ∧
      img.magicNumber = MAGIC_NUMBERS.P2 ∧ img.columns = 1 ∧ img.lines = 1 ∧
      (MAGIC_NUMBERS.P2 = MAGIC_NUMBERS.P2 ∨ MAGIC_NUMBERS.P2 = MAGIC_NUMBERS.P3 →
        img.maxPossibleValue = 255) ∧
      img.pixels = (truncate16 ⟨MAGIC_NUMBERS.P2, 1, 1, 255, [[70000]]⟩).pixels ∧
      ∀ i j, (img.pixels.getD i []).getD j 0
        = (([[70000]] : List (List Nat)).getD i []).getD j 0 % 65536) :=
  ⟨by decide,
   codec_round_trip ⟨some "P2\n1 1\n255\n70000\n".toList, true, true, 0⟩ "a.pgm".toList
    "b.pgm".toList 0 0 ⟨MAGIC_NUMBERS.P2, 1, 1, 255, [[70000]]⟩ rfl (by decide) (by decide)⟩

end ImgCrypt
